import Mathlib

/-!
Verification of the IntegralRange repository (files `IntegralRangeVector.h`
and `RangeMerger.h`) against its specification.

The C++ code is embedded shallowly:

* the element type `T` (an unsigned machine integer of `w` bits) is modelled
  by `Nat` together with an explicit parameter `mask = 2^(w-1)`
  (`IntegralRangeVector<T>::mask`, the most significant bit of `T`); a value
  of type `T` is a natural number `< 2*mask`, and the bitwise operations of
  the source are translated to arithmetic on that domain:
  `x | mask` becomes `orMask` (equal to `x + mask` when the tag bit is
  clear, and `x` when it is already set), `x & ~mask` becomes `x % mask`,
  and the test `(x & mask) != 0` becomes `mask ≤ x`;
* `std::vector<T> _rangeVect` becomes `List Nat`, and the cached
  `std::optional<size_type> _length` becomes `Option Nat`;
* the merger algorithms (`intersect_ranges` / `unite_ranges`), which consume
  every input through the `get_first`/`get_last` iterator adaptor, are
  modelled on the adaptor's view: each input is a `List (Nat × Nat)` of
  half-open ranges, an enumerated-value input `v` contributing `(v, v+1)`;
  the inner scanning `for` loops and the outer `for(;;)` loops are written
  as structurally recursive functions (the outer loop takes explicit fuel,
  one unit per iteration; each iteration advances exactly one iterator, so
  `sumLens + 1` units are always enough and the fuel-exhausted branch is
  unreachable under the stated preconditions).
-/

/-- Half-open range `[first, second)`, the `value_type` of
`IntegralRangeVector` (`std::pair<T, T>`). -/
abbrev RangePair : Type := Nat × Nat

/-- Membership of a value in a half-open range `[r.1, r.2)`. -/
def memR (v : Nat) (r : RangePair) : Bool :=
  decide (r.1 ≤ v) && decide (v < r.2)

/-- Membership of a value in the set denoted by a list of half-open ranges. -/
def memRs (v : Nat) (rs : List RangePair) : Bool :=
  rs.any (memR v)

/-- Membership in an optional pending range (the merger's `pendingRange`). -/
def memO (v : Nat) (p : Option RangePair) : Bool :=
  match p with
  | none => false
  | some r => memR v r

/-- Canonical form of a list of ranges starting no lower than `lb`:
every range is non-empty (`a < b`), ranges are strictly ascending and
adjacent ranges do not touch (`b <` next `a`, threaded as the bound `b+1`).
This is the invariant of section 3 of the specification at the decoded
level. -/
def canonicalFrom (lb : Nat) : List RangePair → Bool
  | [] => true
  | (a, b) :: rest => decide (lb ≤ a) && decide (a < b) && canonicalFrom (b + 1) rest

/-- Weakly ascending form: non-empty ranges, in ascending order, allowed to
touch (`b ≤` next `a`).  This is what the `get_first`/`get_last` view of an
enumerated-value input satisfies (consecutive values give touching unit
ranges); `canonicalFrom` implies it. -/
def ascRangesFrom (lb : Nat) : List RangePair → Bool
  | [] => true
  | (a, b) :: rest => decide (lb ≤ a) && decide (a < b) && ascRangesFrom b rest

/-- Strictly ascending list of values (an enumerated-value input in
canonical form), all values at least `lb`. -/
def ascValsFrom (lb : Nat) : List Nat → Bool
  | [] => true
  | v :: rest => decide (lb ≤ v) && ascValsFrom (v + 1) rest

theorem canonicalFrom_mono {lb lb' : Nat} {rs : List RangePair}
    (h : canonicalFrom lb rs = true) (hle : lb' ≤ lb) :
    canonicalFrom lb' rs = true := by
  cases rs with
  | nil => rfl
  | cons r rest =>
    obtain ⟨a, b⟩ := r
    simp only [canonicalFrom, Bool.and_eq_true, decide_eq_true_eq] at h ⊢
    exact ⟨⟨Nat.le_trans hle h.1.1, h.1.2⟩, h.2⟩

theorem ascRangesFrom_mono {lb lb' : Nat} {rs : List RangePair}
    (h : ascRangesFrom lb rs = true) (hle : lb' ≤ lb) :
    ascRangesFrom lb' rs = true := by
  cases rs with
  | nil => rfl
  | cons r rest =>
    obtain ⟨a, b⟩ := r
    simp only [ascRangesFrom, Bool.and_eq_true, decide_eq_true_eq] at h ⊢
    exact ⟨⟨Nat.le_trans hle h.1.1, h.1.2⟩, h.2⟩

theorem ascRangesFrom_of_canonicalFrom {lb : Nat} {rs : List RangePair}
    (h : canonicalFrom lb rs = true) : ascRangesFrom lb rs = true := by
  induction rs generalizing lb with
  | nil => rfl
  | cons r rest ih =>
    obtain ⟨a, b⟩ := r
    simp only [canonicalFrom, Bool.and_eq_true, decide_eq_true_eq] at h
    simp only [ascRangesFrom, Bool.and_eq_true, decide_eq_true_eq]
    exact ⟨⟨h.1.1, h.1.2⟩, ascRangesFrom_mono (ih h.2) (Nat.le_succ b)⟩

/-- Every member of a weakly ascending list of ranges is at least `lb`. -/
theorem ascRangesFrom_mem_lb {lb v : Nat} {rs : List RangePair}
    (h : ascRangesFrom lb rs = true) (hv : memRs v rs = true) : lb ≤ v := by
  induction rs generalizing lb with
  | nil => simp [memRs] at hv
  | cons r rest ih =>
    obtain ⟨a, b⟩ := r
    simp only [ascRangesFrom, Bool.and_eq_true, decide_eq_true_eq] at h
    simp only [memRs, List.any_cons, Bool.or_eq_true] at hv
    rcases hv with hv | hv
    · simp only [memR, Bool.and_eq_true, decide_eq_true_eq] at hv
      exact Nat.le_trans h.1.1 hv.1
    · exact Nat.le_trans (Nat.le_trans h.1.1 (Nat.le_of_lt h.1.2)) (ih h.2 hv)

/-- In a weakly ascending list, a member below the head's end is in the head. -/
theorem ascRangesFrom_mem_head {lb v a b : Nat} {rest : List RangePair}
    (h : ascRangesFrom lb ((a, b) :: rest) = true)
    (hv : memRs v ((a, b) :: rest) = true) (hlt : v < b) :
    memR v (a, b) = true := by
  simp only [ascRangesFrom, Bool.and_eq_true, decide_eq_true_eq] at h
  simp only [memRs, List.any_cons, Bool.or_eq_true] at hv
  rcases hv with hv | hv
  · exact hv
  · exact absurd (ascRangesFrom_mem_lb h.2 hv) (by omega)

/-- In a weakly ascending list every range's first is at least `lb`. -/
theorem ascRangesFrom_mem_first {lb : Nat} {rs : List RangePair}
    (h : ascRangesFrom lb rs = true) : ∀ r ∈ rs, lb ≤ r.1 := by
  induction rs generalizing lb with
  | nil => intro r hr; simp at hr
  | cons r' rest ih =>
    obtain ⟨c, d⟩ := r'
    simp only [ascRangesFrom, Bool.and_eq_true, decide_eq_true_eq] at h
    intro r hr
    rcases List.mem_cons.mp hr with hr | hr
    · subst hr; exact h.1.1
    · have := ih h.2 r hr
      omega

/-- All range firsts in the tail of a weakly ascending list are at least the
head's end. -/
theorem ascRangesFrom_first_le {lb a b : Nat} {rest : List RangePair}
    (h : ascRangesFrom lb ((a, b) :: rest) = true) :
    ∀ r ∈ rest, b ≤ r.1 := by
  simp only [ascRangesFrom, Bool.and_eq_true, decide_eq_true_eq] at h
  exact ascRangesFrom_mem_first h.2

/-- Two canonical lists of ranges denoting the same set are equal:
the canonical decomposition of a set into maximal runs is unique. -/
theorem canonicalFrom_unique {rs1 rs2 : List RangePair}
    (h1 : canonicalFrom 0 rs1 = true) (h2 : canonicalFrom 0 rs2 = true)
    (hset : ∀ v, memRs v rs1 = memRs v rs2) : rs1 = rs2 := by
  induction rs1 generalizing rs2 with
  | nil =>
    cases rs2 with
    | nil => rfl
    | cons r rest =>
      obtain ⟨a, b⟩ := r
      simp only [canonicalFrom, Bool.and_eq_true, decide_eq_true_eq] at h2
      have := hset a
      simp [memRs, memR, h2.1.2] at this
  | cons r rest ih =>
    obtain ⟨a, b⟩ := r
    cases rs2 with
    | nil =>
      simp only [canonicalFrom, Bool.and_eq_true, decide_eq_true_eq] at h1
      have := hset a
      simp [memRs, memR, h1.1.2] at this
    | cons r2 rest2 =>
      obtain ⟨c, d⟩ := r2
      simp only [canonicalFrom, Bool.and_eq_true, decide_eq_true_eq] at h1 h2
      have hasc1 : ascRangesFrom 0 ((a, b) :: rest) = true :=
        ascRangesFrom_of_canonicalFrom (by
          simp only [canonicalFrom, Bool.and_eq_true, decide_eq_true_eq]
          exact h1)
      have hasc2 : ascRangesFrom 0 ((c, d) :: rest2) = true :=
        ascRangesFrom_of_canonicalFrom (by
          simp only [canonicalFrom, Bool.and_eq_true, decide_eq_true_eq]
          exact h2)
      -- the least members agree, so a = c
      have hac : a = c := by
        have hma : memRs a ((c, d) :: rest2) = true := by
          rw [← hset a]; simp [memRs, memR, h1.1.2]
        have hmc : memRs c ((a, b) :: rest) = true := by
          rw [hset c]; simp [memRs, memR, h2.1.2]
        have h1' := ascRangesFrom_mem_lb (by
          simpa only [ascRangesFrom, Bool.and_eq_true, decide_eq_true_eq] using
            ⟨⟨Nat.le_refl a, h1.1.2⟩, ascRangesFrom_mono
              (ascRangesFrom_of_canonicalFrom h1.2) (by omega)⟩ :
          ascRangesFrom a ((a, b) :: rest) = true) hmc
        have h2' := ascRangesFrom_mem_lb (by
          simpa only [ascRangesFrom, Bool.and_eq_true, decide_eq_true_eq] using
            ⟨⟨Nat.le_refl c, h2.1.2⟩, ascRangesFrom_mono
              (ascRangesFrom_of_canonicalFrom h2.2) (by omega)⟩ :
          ascRangesFrom c ((c, d) :: rest2) = true) hma
        omega
      subst hac
      -- the first gap agrees, so b = d
      have hbd : b = d := by
        by_contra hne
        rcases Nat.lt_or_ge b d with hlt | hge
        · -- b would be a member of rs2 but not of rs1
          have hmb : memRs b ((a, d) :: rest2) = true := by
            simp [memRs, memR]; omega
          rw [← hset b] at hmb
          simp only [memRs, List.any_cons, Bool.or_eq_true] at hmb
          rcases hmb with hmb | hmb
          · simp only [memR, Bool.and_eq_true, decide_eq_true_eq] at hmb; omega
          · have := ascRangesFrom_mem_lb
              (ascRangesFrom_of_canonicalFrom h1.2) hmb
            omega
        · have hlt : d < b := by omega
          have hmd : memRs d ((a, b) :: rest) = true := by
            simp [memRs, memR]; omega
          rw [hset d] at hmd
          simp only [memRs, List.any_cons, Bool.or_eq_true] at hmd
          rcases hmd with hmd | hmd
          · simp only [memR, Bool.and_eq_true, decide_eq_true_eq] at hmd; omega
          · have := ascRangesFrom_mem_lb
              (ascRangesFrom_of_canonicalFrom h2.2) hmd
            omega
      subst hbd
      -- tails denote the same set
      have htails : ∀ v, memRs v rest = memRs v rest2 := by
        intro v
        rcases Nat.lt_or_ge v (b + 1) with hlt | hge
        · have e1 : memRs v rest = false := by
            cases hm : memRs v rest with
            | false => rfl
            | true =>
              have := ascRangesFrom_mem_lb
                (ascRangesFrom_of_canonicalFrom h1.2) hm
              omega
          have e2 : memRs v rest2 = false := by
            cases hm : memRs v rest2 with
            | false => rfl
            | true =>
              have := ascRangesFrom_mem_lb
                (ascRangesFrom_of_canonicalFrom h2.2) hm
              omega
          rw [e1, e2]
        · have := hset v
          simp only [memRs, List.any_cons] at this
          have hv : memR v (a, b) = false := by simp [memR]; omega
          rw [hv] at this
          simpa using this
      rw [ih (canonicalFrom_mono h1.2 (Nat.zero_le _))
        (canonicalFrom_mono h2.2 (Nat.zero_le _)) htails]

/-- Every member of a strictly ascending value list is at least `lb`. -/
theorem ascValsFrom_mem_lb {lb v : Nat} {vs : List Nat}
    (h : ascValsFrom lb vs = true) (hv : v ∈ vs) : lb ≤ v := by
  induction vs generalizing lb with
  | nil => simp at hv
  | cons x rest ih =>
    simp only [ascValsFrom, Bool.and_eq_true, decide_eq_true_eq] at h
    rcases List.mem_cons.mp hv with hv | hv
    · omega
    · have := ih h.2 hv; omega

/-- Two strictly ascending value lists with the same members are equal. -/
theorem ascValsFrom_unique {vs1 vs2 : List Nat}
    (h1 : ascValsFrom 0 vs1 = true) (h2 : ascValsFrom 0 vs2 = true)
    (hset : ∀ v, (v ∈ vs1) ↔ (v ∈ vs2)) : vs1 = vs2 := by
  induction vs1 generalizing vs2 with
  | nil =>
    cases vs2 with
    | nil => rfl
    | cons x rest => exact absurd ((hset x).mpr (List.mem_cons_self x rest)) (by simp)
  | cons x rest ih =>
    cases vs2 with
    | nil => exact absurd ((hset x).mp (List.mem_cons_self x rest)) (by simp)
    | cons y rest2 =>
      simp only [ascValsFrom, Bool.and_eq_true, decide_eq_true_eq] at h1 h2
      have hxy : x = y := by
        have hx := (hset x).mp (List.mem_cons_self x rest)
        have hy := (hset y).mpr (List.mem_cons_self y rest2)
        rcases List.mem_cons.mp hx with hx | hx
        · exact hx
        · rcases List.mem_cons.mp hy with hy | hy
          · exact hy.symm
          · have := ascValsFrom_mem_lb h2.2 hx
            have := ascValsFrom_mem_lb h1.2 hy
            omega
      subst hxy
      have htails : ∀ v, (v ∈ rest) ↔ (v ∈ rest2) := by
        intro v
        constructor
        · intro hv
          have hlb := ascValsFrom_mem_lb h1.2 hv
          rcases List.mem_cons.mp ((hset v).mp (List.mem_cons.mpr (Or.inr hv))) with h | h
          · omega
          · exact h
        · intro hv
          have hlb := ascValsFrom_mem_lb h2.2 hv
          rcases List.mem_cons.mp ((hset v).mpr (List.mem_cons.mpr (Or.inr hv))) with h | h
          · omega
          · exact h
      rw [ih (by
          cases rest with
          | nil => rfl
          | cons z r =>
            simp only [ascValsFrom, Bool.and_eq_true, decide_eq_true_eq] at h1 ⊢
            exact ⟨Nat.zero_le z, h1.2.2⟩)
        (by
          cases rest2 with
          | nil => rfl
          | cons z r =>
            simp only [ascValsFrom, Bool.and_eq_true, decide_eq_true_eq] at h2 ⊢
            exact ⟨Nat.zero_le z, h2.2.2⟩) htails]

/-!
## The `IntegralRangeVector` container

`mask` is the compile-time constant
`std::numeric_limits<T>::max() ^ (std::numeric_limits<T>::max() >> 1)`,
i.e. the most significant bit `2^(w-1)` of the `w`-bit unsigned type `T`.
A value of type `T` is a natural number `< 2*mask`; on that domain
`x | mask` is `orMask mask x`, `x & ~mask` is `x % mask`, `(x & mask) != 0`
is `mask ≤ x`, and `x - 1` (unsigned wrap-around) is `wsub mask x 1`.
-/

/-- Bitwise-or with the tag bit: for `x < 2*mask` this equals `x ||| mask`
(it adds the tag bit if clear, and is the identity if it is already set). -/
def orMask (mask x : Nat) : Nat :=
  if x < mask then x + mask else x

/-- Wrap-around subtraction in the `w`-bit unsigned type (`2^w = 2*mask`):
models `a - b` computed in `T`, for `a, b < 2*mask`. -/
def wsub (mask a b : Nat) : Nat :=
  (a + 2 * mask - b) % (2 * mask)

/-- Decoding of the stored word sequence `_rangeVect` into the logical
ranges it denotes, exactly as `const_iterator::calculate_value` reads it:
a word with the tag bit clear is the singleton range `[w, w+1)`; two
consecutive tagged words `a|MASK, b|MASK` are the range `[a, b)`.  A final
dangling tagged word (ill-formed; the C++ iterator would read past the end
of the vector) decodes reading a zero. -/
def decodeWords (mask : Nat) : List Nat → List RangePair
  | [] => []
  | x :: rest =>
    if mask ≤ x then
      match rest with
      | [] => [(x % mask, 0)]
      | y :: rest2 => (x % mask, y % mask) :: decodeWords mask rest2
    else (x, x + 1) :: decodeWords mask rest

/-- Word-sequence well-formedness (section 3 invariants of the spec), with
all decoded firsts at least `lb`: tagged words occur in consecutive pairs,
every stored word is a value of `T` (`< 2*mask`) with payload `< mask`,
decoded ranges are non-empty (`a < b`), strictly ascending, and adjacent
decoded ranges do not touch (threaded through the bound `lb`). -/
def wfFrom (mask lb : Nat) : List Nat → Bool
  | [] => true
  | x :: rest =>
    if x < mask then
      decide (lb ≤ x) && wfFrom mask (x + 2) rest
    else
      match rest with
      | [] => false
      | y :: rest2 =>
        decide (x < 2 * mask) && decide (mask ≤ y) && decide (y < 2 * mask) &&
        decide (lb ≤ x % mask) && decide (x % mask < y % mask) &&
        wfFrom mask (y % mask + 1) rest2

/-- The `last` endpoint of the currently stored maximal decoded range
(0 for an empty container): the bound referred to by the `push_back`
precondition "appends must be monotonically non-decreasing". -/
def decEnd (mask : Nat) (ws : List Nat) : Nat :=
  ((decodeWords mask ws).getLastD (0, 0)).2

/-- Encoding of one canonical range as words: a unit range uses the
singleton encoding (one untagged word), a longer range a tagged pair. -/
def encodeRange (mask : Nat) (r : RangePair) : List Nat :=
  if r.2 = r.1 + 1 then [r.1] else [orMask mask r.1, orMask mask r.2]

/-- Encoding of a canonical list of ranges as a word sequence. -/
def encodeList (mask : Nat) (rs : List RangePair) : List Nat :=
  rs.flatMap (encodeRange mask)

/-- `push_back(value_type val)` (the range overload), effect on the stored
word sequence.  Mirrors the source: if the container is non-empty and the
incoming range is non-empty, try the two coalescing branches (rewrite the
tagged tail in place, or tag a singleton tail and append); otherwise fall
through to the `switch` on `val.second - val.first`.  All `T` arithmetic
(`val.second - val.first`, `val.first - 1`) wraps modulo `2^w = 2*mask`. -/
def pushRangeWords (mask : Nat) (ws : List Nat) (f l : Nat) : List Nat :=
  let d := wsub mask l f
  let back := ws.getLastD 0
  if ws ≠ [] ∧ 0 < d ∧ mask ≤ back ∧ back % mask = f then
    ws.dropLast ++ [orMask mask l]
  else if ws ≠ [] ∧ 0 < d ∧ back < mask ∧ back % mask = wsub mask f 1 then
    ws.dropLast ++ [orMask mask back, orMask mask l]
  else if d = 0 then ws
  else if d = 1 then ws ++ [f]
  else ws ++ [orMask mask f, orMask mask l]

/-- `push_back(T val)` (the single-value overload), effect on the stored
word sequence. -/
def pushValueWords (mask : Nat) (ws : List Nat) (v : Nat) : List Nat :=
  let back := ws.getLastD 0
  if ws ≠ [] ∧ mask ≤ back ∧ back % mask = v then
    ws.dropLast ++ [orMask mask (v + 1)]
  else if ws ≠ [] ∧ back < mask ∧ back % mask = wsub mask v 1 then
    ws.dropLast ++ [orMask mask back, orMask mask (v + 1)]
  else ws ++ [v]

/-- The `assert` preconditions of `push_back(value_type)`:
`(val.first & mask) == 0 && (val.second & mask) == 0`. -/
def pushRangeAssertOk (mask f l : Nat) : Bool :=
  decide (f < mask) && decide (l < mask)

/-- The `assert` precondition of `push_back(T)`: `(val & mask) == 0`. -/
def pushValueAssertOk (mask v : Nat) : Bool :=
  decide (v < mask)

/-- The `IntegralRangeVector<T>` state: the word storage `_rangeVect` and
the mutable cached `_length` (`std::optional<size_type>`). -/
structure IRV where
  rangeVect : List Nat
  lengthCache : Option Nat
deriving DecidableEq

/-- The default constructor: empty storage, `_length` engaged at `0`. -/
def IRVdefault : IRV := ⟨[], some 0⟩

/-- The vector constructors (`IntegralRangeVector(vect)` and the iterator
pair constructor): they adopt the words and leave `_length` disengaged. -/
def IRVfromWords (ws : List Nat) : IRV := ⟨ws, none⟩

/-- `push_back(value_type val)` on the whole container state: the cache,
when engaged, is incremented by `val.second - val.first` (computed in `T`)
before the storage is updated. -/
def pushRange (mask : Nat) (c : IRV) (f l : Nat) : IRV :=
  ⟨pushRangeWords mask c.rangeVect f l,
   c.lengthCache.map (fun n => n + wsub mask l f)⟩

/-- `push_back(T val)` on the whole container state: the cache, when
engaged, is incremented by one. -/
def pushValue (mask : Nat) (c : IRV) (v : Nat) : IRV :=
  ⟨pushValueWords mask c.rangeVect v,
   c.lengthCache.map (fun n => n + 1)⟩

/-- `getBase()`: the read-only view of the stored words. -/
def getBase (c : IRV) : List Nat := c.rangeVect

/-- `operator==`: compares the stored word sequences. -/
def eqOp (c1 c2 : IRV) : Bool := decide (c1.rangeVect = c2.rangeVect)

/-- `empty()`. -/
def IRVempty (c : IRV) : Bool := c.rangeVect.isEmpty

/-- Sum of `range.second - range.first` (computed in `T`) over the decoded
ranges: the value `length()` accumulates when the cache is disengaged. -/
def sumRangeLens (mask : Nat) (rs : List RangePair) : Nat :=
  (rs.map (fun r => wsub mask r.2 r.1)).sum

/-- `length()`: the cached value if engaged, otherwise the sum over the
decoded ranges (which the C++ code memoizes into the mutable cache; the
returned value is the same either way). -/
def IRVlength (mask : Nat) (c : IRV) : Nat :=
  match c.lengthCache with
  | some n => n
  | none => sumRangeLens mask (decodeWords mask c.rangeVect)

/-- `toVector()`: expands every decoded range `[f, l)` into the values
`f, f+1, …, l-1`, in order. -/
def expandR (r : RangePair) : List Nat := List.range' r.1 (r.2 - r.1)

/-- `toVector()` on the container. -/
def toVector (mask : Nat) (c : IRV) : List Nat :=
  (decodeWords mask c.rangeVect).flatMap expandR

/-!
## The `const_iterator`

The iterator holds positions into the word storage (`_base_iter`,
`_end_iter`); its `_current_value` is recomputed from the position by
`calculate_value` after construction and after every advance, so the whole
iterator state is a function of `(words, base)` and we model just those.
Comparisons compare base positions only.
-/

/-- A `const_iterator`: the word storage it points into and the offset of
`_base_iter` from the beginning (`_end_iter` is the storage's length). -/
structure ConstIterator where
  words : List Nat
  base : Nat
deriving DecidableEq

/-- `calculate_value`: the decoded `(first, last)` at the current position
(`{0, 0}` at or past the end). -/
def calcValue (mask : Nat) (it : ConstIterator) : RangePair :=
  if it.base ≥ it.words.length then (0, 0)
  else if mask ≤ it.words.getD it.base 0 then
    (it.words.getD it.base 0 % mask, it.words.getD (it.base + 1) 0 % mask)
  else (it.words.getD it.base 0, it.words.getD it.base 0 + 1)

/-- The `assert(_base_iter < _end_iter)` executed by `operator*`. -/
def derefAssertOk (it : ConstIterator) : Bool :=
  decide (it.base < it.words.length)

/-- The `assert(_base_iter < _end_iter)` executed by `operator->`. -/
def arrowAssertOk (it : ConstIterator) : Bool :=
  decide (it.base < it.words.length)

/-- `operator*`: returns `_current_value`. -/
def deref (mask : Nat) (it : ConstIterator) : RangePair := calcValue mask it

/-- The advance performed by both increment operators: skip one extra word
when the current word exists and is tagged, then advance by one. -/
def incBase (mask : Nat) (it : ConstIterator) : Nat :=
  if it.base < it.words.length ∧ mask ≤ it.words.getD it.base 0 then it.base + 2
  else it.base + 1

/-- `operator++()` (prefix): advances and returns the advanced iterator. -/
def preInc (mask : Nat) (it : ConstIterator) : ConstIterator :=
  ⟨it.words, incBase mask it⟩

/-- `operator++(int)` (postfix): returns the copy made before advancing,
paired with the advanced iterator that the variable now holds. -/
def postInc (mask : Nat) (it : ConstIterator) : ConstIterator × ConstIterator :=
  (⟨it.words, it.base⟩, ⟨it.words, incBase mask it⟩)

/-- The increment operators execute no assertion; the conjunction of the
assert conditions they evaluate is vacuously true.  (Contrast
`derefAssertOk`: `operator*` and `operator->` do assert.) -/
def preIncAssertOk (it : ConstIterator) : Bool := true

/-- Same for the postfix increment: it contains no `assert`. -/
def postIncAssertOk (it : ConstIterator) : Bool := true

/-- `operator==` on iterators: compares base positions. -/
def iterEq (i1 i2 : ConstIterator) : Bool := decide (i1.base = i2.base)

/-- `operator>` on iterators: compares base positions. -/
def iterGt (i1 i2 : ConstIterator) : Bool := decide (i1.base > i2.base)

/-- `cbegin()` / `begin()`. -/
def cbegin (c : IRV) : ConstIterator := ⟨c.rangeVect, 0⟩

/-- `cend()` / `end()`. -/
def cend (c : IRV) : ConstIterator := ⟨c.rangeVect, c.rangeVect.length⟩

/-!
## The N-ary range merger (`RangeMerger.h`)

Both algorithms consume each input through the `get_first` / `get_last`
adaptor, so they are modelled on the adaptor's view: an input is a
`List RangePair` of half-open ranges (`(v, v+1)` per element for an
enumerated-value container, the decoded ranges for an
`IntegralRangeVector`).  An iterator into an input is its remaining
suffix; `iters[i]` advancing by one drops the head of input `i`.
`LAST` is `std::numeric_limits<value_type>::max()`.
-/

/-- Total number of remaining ranges across all inputs; an upper bound on
the number of remaining outer-loop iterations (each advances exactly one
iterator). -/
def sumLens (rem : List (List RangePair)) : Nat :=
  (rem.map List.length).sum

/-- The inner `for (i …)` scan of `intersect_ranges`: folds over the current
heads, raising `curRangeBegin` to each `get_first` that exceeds it and
lowering `curRangeEnd` to each `get_last` strictly below it, remembering in
`containerToForward` the index of the last input that lowered it. -/
def windowScan : List RangePair → Nat → Nat → Nat → Nat → Nat × Nat × Nat
  | [], _, cb, ce, k => (cb, ce, k)
  | (b, e) :: rest, i, cb, ce, k =>
    let cb' := if cb < b then b else cb
    if e < ce then windowScan rest (i + 1) cb' e i
    else windowScan rest (i + 1) cb' ce k

/-- The emission step shared by both algorithms' intersection variant:
merge the window `(cb, ce)` into `pendingRange` / flush through
`insert_back` (accumulated in order into `acc`). -/
def emitIntersect (cb ce : Nat) (pending : Option RangePair)
    (acc : List RangePair) : Option RangePair × List RangePair :=
  match pending with
  | some p => if p.2 = cb then (some (p.1, ce), acc) else (some (cb, ce), acc ++ [p])
  | none => (some (cb, ce), acc)

/-- The outer `for (;;)` loop of `intersect_ranges`.  `rem` holds the
remaining suffix of every input, `cb0` the persistent `curRangeBegin`,
`ctf` the persistent `containerToForward`, `pending` the pending output
range and `acc` the ranges already flushed through `insert_back`.
`curRangeEnd` is re-initialised to `LAST` at the start of each iteration
(the source resets it at the bottom of the loop).  Fuel counts iterations;
each iteration drops one range, so `sumLens rem + 1` units always suffice
and the fuel-exhausted branch is unreachable.  The branch taken when some
input is already exhausted models the per-input
`assert(iters[i] != ranges[i].end())` (unreachable under the
preconditions), and the branch for an out-of-range `containerToForward`
cannot occur either. -/
def intersectLoopF (LAST : Nat) :
    Nat → List (List RangePair) → Nat → Nat → Option RangePair → List RangePair →
    List RangePair
  | 0, _, _, _, pending, acc => acc ++ pending.toList
  | fuel + 1, rem, cb0, ctf, pending, acc =>
    if rem.any List.isEmpty then acc ++ pending.toList
    else
      let s := windowScan (rem.map (fun l => l.headD (0, 0))) 0 cb0 LAST ctf
      let cb := s.1
      let ce := s.2.1
      let k := s.2.2
      let pa := if cb < ce then emitIntersect cb ce pending acc else (pending, acc)
      match (rem.get? k).getD [] with
      | [] => acc ++ pending.toList
      | _ :: t =>
        if t.isEmpty then pa.2 ++ pa.1.toList
        else intersectLoopF LAST fuel (rem.set k t) cb k pa.1 pa.2

/-- `intersect_ranges`, on the adaptor's view of the inputs.  The special
paths of the source: an empty collection and a collection containing an
empty input give an empty result, a single input is returned as-is. -/
def intersect_ranges (LAST : Nat) (ranges : List (List RangePair)) : List RangePair :=
  if ranges.isEmpty then []
  else if ranges.length = 1 then ranges.headD []
  else if ranges.any List.isEmpty then []
  else intersectLoopF LAST (sumLens ranges + 1) ranges 0 0 none []

/-- The inner scan of `unite_ranges`: over the inputs whose iterator is not
past the end, find the one whose current `get_first` is smallest (strict
comparison, so ties keep the smallest index), recording its window and
index.  `curRangeBegin`, `curRangeEnd` and `containerToForward` are reset
to `LAST, LAST, 0` before every scan. -/
def uniteScan : List (List RangePair) → Nat → Nat → Nat → Nat → Nat × Nat × Nat
  | [], _, cb, ce, k => (cb, ce, k)
  | l :: rest, i, cb, ce, k =>
    match l with
    | [] => uniteScan rest (i + 1) cb ce k
    | (b, e) :: _ =>
      if b < cb then uniteScan rest (i + 1) b e i
      else uniteScan rest (i + 1) cb ce k

/-- The emission step of `unite_ranges`: extend `pendingRange` when the
next range overlaps or touches it, flush and restart otherwise. -/
def emitUnite (cb ce : Nat) (pending : Option RangePair)
    (acc : List RangePair) : Option RangePair × List RangePair :=
  match pending with
  | some p =>
    if p.2 ≥ cb then (some (p.1, if p.2 < ce then ce else p.2), acc)
    else (some (cb, ce), acc ++ [p])
  | none => (some (cb, ce), acc)

/-- The outer `for (;;)` loop of `unite_ranges`.  The loop terminates when
the scan leaves `curRangeEnd` at `LAST` (which the source uses as the
"no input had a range left" sentinel); otherwise `curRangeBegin <
curRangeEnd` is checked, the window is emitted, and the chosen input's
iterator advances by one. -/
def uniteLoopF (LAST : Nat) :
    Nat → List (List RangePair) → Option RangePair → List RangePair → List RangePair
  | 0, _, pending, acc => acc ++ pending.toList
  | fuel + 1, rem, pending, acc =>
    let s := uniteScan rem 0 LAST LAST 0
    let cb := s.1
    let ce := s.2.1
    let k := s.2.2
    if ce = LAST then acc ++ pending.toList
    else
      let pa := if cb < ce then emitUnite cb ce pending acc else (pending, acc)
      match (rem.get? k).getD [] with
      | [] => pa.2 ++ pa.1.toList
      | _ :: t => uniteLoopF LAST fuel (rem.set k t) pa.1 pa.2

/-- `unite_ranges`, on the adaptor's view of the inputs. -/
def unite_ranges (LAST : Nat) (ranges : List (List RangePair)) : List RangePair :=
  if ranges.isEmpty then []
  else if ranges.length = 1 then ranges.headD []
  else uniteLoopF LAST (sumLens ranges + 1) ranges none []

/-!
## Container-level instantiations of the merger

`Cont = std::vector<T>` (enumerated values): `get_first(it) = *it`,
`get_last(it) = T(*it + 1)` (wrapping in `T`, i.e. modulo `2*mask`), and
`insert_back` expands each emitted range into its individual values.
`Cont = IntegralRangeVector<T>`: the iterator view is `decodeWords`, and
`insert_back` forwards each emitted range to `push_back`.  In both cases
`value_type` of the merger is `T`, so `LAST = 2*mask - 1`.
-/

/-- The `get_first`/`get_last` view of an enumerated-value input. -/
def valView (mask : Nat) (vs : List Nat) : List RangePair :=
  vs.map (fun v => (v, (v + 1) % (2 * mask)))

/-- The `get_first`/`get_last` view of an `IntegralRangeVector` input
(its iterator decodes the stored words). -/
def decView (mask : Nat) (c : IRV) : List RangePair :=
  decodeWords mask c.rangeVect

/-- `intersect_ranges` instantiated at `Cont = std::vector<T>`. -/
def intersectVecC (mask : Nat) (inputs : List (List Nat)) : List Nat :=
  if inputs.isEmpty then []
  else if inputs.length = 1 then inputs.headD []
  else if inputs.any List.isEmpty then []
  else
    let views := inputs.map (valView mask)
    (intersectLoopF (2 * mask - 1) (sumLens views + 1) views 0 0 none []).flatMap expandR

/-- `intersect_ranges` instantiated at `Cont = IntegralRangeVector<T>`:
the emitted ranges are pushed into a default-constructed container. -/
def intersectIRVC (mask : Nat) (inputs : List IRV) : IRV :=
  if inputs.isEmpty then IRVdefault
  else if inputs.length = 1 then inputs.headD IRVdefault
  else if inputs.any (fun c => c.rangeVect.isEmpty) then IRVdefault
  else
    let views := inputs.map (decView mask)
    (intersectLoopF (2 * mask - 1) (sumLens views + 1) views 0 0 none []).foldl
      (fun c r => pushRange mask c r.1 r.2) IRVdefault

/-- `unite_ranges` instantiated at `Cont = std::vector<T>`. -/
def uniteVecC (mask : Nat) (inputs : List (List Nat)) : List Nat :=
  if inputs.isEmpty then []
  else if inputs.length = 1 then inputs.headD []
  else
    let views := inputs.map (valView mask)
    (uniteLoopF (2 * mask - 1) (sumLens views + 1) views none []).flatMap expandR

/-- `unite_ranges` instantiated at `Cont = IntegralRangeVector<T>`. -/
def uniteIRVC (mask : Nat) (inputs : List IRV) : IRV :=
  if inputs.isEmpty then IRVdefault
  else if inputs.length = 1 then inputs.headD IRVdefault
  else
    let views := inputs.map (decView mask)
    (uniteLoopF (2 * mask - 1) (sumLens views + 1) views none []).foldl
      (fun c r => pushRange mask c r.1 r.2) IRVdefault

/-!
## Arithmetic facts about the modelled machine operations
-/

theorem orMask_of_lt {mask x : Nat} (h : x < mask) : orMask mask x = x + mask := by
  simp [orMask, h]

theorem wsub_of_le {mask a b : Nat} (hb : b ≤ a) (ha : a - b < 2 * mask) :
    wsub mask a b = a - b := by
  unfold wsub
  have h1 : a + 2 * mask - b = (a - b) + 2 * mask := by omega
  rw [h1, Nat.add_mod_right, Nat.mod_eq_of_lt ha]

theorem wsub_one_of_pos {mask f : Nat} (hf : 0 < f) (hm : f ≤ 2 * mask) :
    wsub mask f 1 = f - 1 := by
  unfold wsub
  have h1 : f + 2 * mask - 1 = (f - 1) + 2 * mask := by omega
  rw [h1, Nat.add_mod_right, Nat.mod_eq_of_lt (by omega)]

theorem wsub_zero_one {mask : Nat} (hm : 0 < mask) : wsub mask 0 1 = 2 * mask - 1 := by
  unfold wsub
  rw [Nat.zero_add, Nat.mod_eq_of_lt (by omega)]

theorem add_mask_mod {mask x : Nat} (h : x < mask) : (x + mask) % mask = x := by
  rw [Nat.add_mod_right, Nat.mod_eq_of_lt h]

/-!
## Decoding and well-formedness: structural lemmas
-/

theorem decodeWords_nil (mask : Nat) : decodeWords mask [] = [] := rfl

theorem decodeWords_cons_untagged {mask x : Nat} (rest : List Nat) (h : x < mask) :
    decodeWords mask (x :: rest) = (x, x + 1) :: decodeWords mask rest := by
  rw [decodeWords.eq_def]
  simp only [Nat.not_le_of_lt h, if_false]

theorem decodeWords_cons_pair {mask x : Nat} (y : Nat) (rest2 : List Nat)
    (h : mask ≤ x) :
    decodeWords mask (x :: y :: rest2) = (x % mask, y % mask) :: decodeWords mask rest2 := by
  rw [decodeWords.eq_def]
  simp only [h, if_true]

theorem wfFrom_nil (mask lb : Nat) : wfFrom mask lb [] = true := rfl

theorem wfFrom_cons_untagged {mask lb x : Nat} {rest : List Nat} (h : x < mask) :
    wfFrom mask lb (x :: rest) = (decide (lb ≤ x) && wfFrom mask (x + 2) rest) := by
  rw [wfFrom.eq_def]
  simp only [h, if_true]

theorem wfFrom_cons_pair {mask lb x y : Nat} {rest2 : List Nat} (h : ¬ x < mask) :
    wfFrom mask lb (x :: y :: rest2) =
      (decide (x < 2 * mask) && decide (mask ≤ y) && decide (y < 2 * mask) &&
       decide (lb ≤ x % mask) && decide (x % mask < y % mask) &&
       wfFrom mask (y % mask + 1) rest2) := by
  rw [wfFrom.eq_def]
  simp only [h, if_false]

theorem wfFrom_mono {mask lb lb' : Nat} {ws : List Nat}
    (h : wfFrom mask lb ws = true) (hle : lb' ≤ lb) : wfFrom mask lb' ws = true := by
  cases ws with
  | nil => rfl
  | cons x rest =>
    by_cases hx : x < mask
    · rw [wfFrom_cons_untagged hx] at h ⊢
      simp only [Bool.and_eq_true, decide_eq_true_eq] at h ⊢
      exact ⟨by omega, h.2⟩
    · cases rest with
      | nil => simp [wfFrom, hx] at h
      | cons y rest2 =>
        rw [wfFrom_cons_pair hx] at h ⊢
        simp only [Bool.and_eq_true, decide_eq_true_eq] at h ⊢
        exact ⟨⟨⟨h.1.1.1, by omega⟩, h.1.2⟩, h.2⟩

/-- A well-formed word sequence decodes to a canonical list of ranges. -/
theorem wf_decode_canonical {mask : Nat} :
    ∀ (lb : Nat) (ws : List Nat), wfFrom mask lb ws = true →
      canonicalFrom lb (decodeWords mask ws) = true := by
  intro lb ws
  induction lb, ws using wfFrom.induct mask with
  | case1 lb => intro _; rfl
  | case2 lb x rest hx ih =>
    rw [wfFrom_cons_untagged hx, decodeWords_cons_untagged rest hx]
    simp only [Bool.and_eq_true, decide_eq_true_eq]
    intro h
    simp only [canonicalFrom, Bool.and_eq_true, decide_eq_true_eq]
    exact ⟨⟨h.1, Nat.lt_succ_self x⟩, ih h.2⟩
  | case3 lb x hx =>
    intro h
    simp [wfFrom, hx] at h
  | case4 lb x hx y rest2 ih =>
    rw [wfFrom_cons_pair hx, decodeWords_cons_pair y rest2 (Nat.le_of_not_lt hx)]
    simp only [Bool.and_eq_true, decide_eq_true_eq]
    intro h
    simp only [canonicalFrom, Bool.and_eq_true, decide_eq_true_eq]
    exact ⟨⟨h.1.1.2, h.1.2⟩, ih h.2⟩

/-- A well-formed word sequence decodes every range end at most `mask`. -/
theorem wf_decode_ends {mask : Nat} :
    ∀ (lb : Nat) (ws : List Nat), wfFrom mask lb ws = true →
      ∀ r ∈ decodeWords mask ws, r.2 ≤ mask := by
  intro lb ws
  induction lb, ws using wfFrom.induct mask with
  | case1 lb => intro _ r hr; simp [decodeWords] at hr
  | case2 lb x rest hx ih =>
    rw [wfFrom_cons_untagged hx, decodeWords_cons_untagged rest hx]
    simp only [Bool.and_eq_true, decide_eq_true_eq]
    intro h r hr
    rcases List.mem_cons.mp hr with hr | hr
    · subst hr; simpa using hx
    · exact ih h.2 r hr
  | case3 lb x hx =>
    intro h
    simp [wfFrom, hx] at h
  | case4 lb x hx y rest2 ih =>
    rw [wfFrom_cons_pair hx, decodeWords_cons_pair y rest2 (Nat.le_of_not_lt hx)]
    simp only [Bool.and_eq_true, decide_eq_true_eq]
    intro h r hr
    rcases List.mem_cons.mp hr with hr | hr
    · subst hr
      exact Nat.le_of_lt (Nat.mod_lt y (by omega))
    · exact ih h.2 r hr

/-- A non-empty well-formed word sequence decodes to a non-empty range list. -/
theorem wf_decode_ne_nil {mask lb : Nat} {ws : List Nat}
    (h : wfFrom mask lb ws = true) (hne : ws ≠ []) :
    decodeWords mask ws ≠ [] := by
  cases ws with
  | nil => exact absurd rfl hne
  | cons x rest =>
    by_cases hx : x < mask
    · rw [decodeWords_cons_untagged rest hx]; simp
    · cases rest with
      | nil => simp [wfFrom, hx] at h
      | cons y rest2 =>
        rw [decodeWords_cons_pair y rest2 (Nat.le_of_not_lt hx)]; simp

/-- For a non-empty canonical range list the final end exceeds `lb`. -/
theorem canonicalFrom_lastLast {lb : Nat} {rs : List RangePair}
    (h : canonicalFrom lb rs = true) (hne : rs ≠ []) :
    lb < (rs.getLastD (0, 0)).2 := by
  induction rs generalizing lb with
  | nil => exact absurd rfl hne
  | cons r rest ih =>
    obtain ⟨a, b⟩ := r
    simp only [canonicalFrom, Bool.and_eq_true, decide_eq_true_eq] at h
    cases rest with
    | nil => simpa [List.getLastD] using by omega
    | cons r2 rest2 =>
      have := ih h.2 (by simp)
      have hgl : ((a, b) :: r2 :: rest2).getLastD ((0 : Nat), (0 : Nat)) =
          (r2 :: rest2).getLastD (0, 0) := by
        simp [List.getLastD_cons]
      rw [hgl]
      omega

/-!
## The effect of `push_back` on the decoded ranges

`appendR rs f l` is the decoded-level effect of appending the range
`[f, l)` to a container whose decoded ranges are `rs`, under the append
precondition: an empty range is a no-op; a range that touches the stored
tail (`tail.last == f`) is coalesced into it; otherwise it is appended.
-/

/-- The last decoded end of a range list (`0` when empty). -/
def lastLastR (rs : List RangePair) : Nat := (rs.getLastD (0, 0)).2

/-- Decoded-level effect of `push_back((f, l))` under the preconditions. -/
def appendR (rs : List RangePair) (f l : Nat) : List RangePair :=
  if l ≤ f then rs
  else
    match rs.getLast? with
    | some (a, b) => if b = f then rs.dropLast ++ [(a, l)] else rs ++ [(f, l)]
    | none => [(f, l)]

/-- No tagged pair encodes a unit range (those use the singleton encoding).
Word sequences built by `push_back` from an empty container satisfy this;
together with well-formedness it makes the stored words a function of the
decoded ranges. -/
def noUnitPairs (mask : Nat) : List Nat → Bool
  | [] => true
  | x :: rest =>
    if x < mask then noUnitPairs mask rest
    else
      match rest with
      | [] => true
      | y :: rest2 => decide (x % mask + 1 ≠ y % mask) && noUnitPairs mask rest2

theorem getLastD_cons_of_ne_nil {α : Type} (r d : α) {rs : List α} (h : rs ≠ []) :
    (r :: rs).getLastD d = rs.getLastD d := by
  cases rs with
  | nil => exact absurd rfl h
  | cons y t => simp [List.getLastD_cons]

theorem noUnitPairs_cons_untagged {mask x : Nat} {rest : List Nat} (h : x < mask) :
    noUnitPairs mask (x :: rest) = noUnitPairs mask rest := by
  rw [noUnitPairs.eq_def]
  simp only [h, if_true]

theorem noUnitPairs_cons_pair {mask x y : Nat} {rest2 : List Nat} (h : ¬ x < mask) :
    noUnitPairs mask (x :: y :: rest2)
      = (decide (x % mask + 1 ≠ y % mask) && noUnitPairs mask rest2) := by
  rw [noUnitPairs.eq_def]
  simp only [h, if_false]

theorem appendR_nil (f l : Nat) :
    appendR [] f l = if l ≤ f then [] else [(f, l)] := by
  unfold appendR
  split_ifs <;> simp

theorem appendR_cons {f l : Nat} (r : RangePair) {rs : List RangePair} (h : rs ≠ []) :
    appendR (r :: rs) f l = r :: appendR rs f l := by
  unfold appendR
  have h1 : (r :: rs).getLast? = rs.getLast? := by
    cases rs with
    | nil => exact absurd rfl h
    | cons y t => simp [List.getLast?_cons_cons]
  have h2 : (r :: rs).dropLast = r :: rs.dropLast := List.dropLast_cons_of_ne_nil h
  rw [h1, h2]
  split_ifs with hlf
  · rfl
  · cases hg : rs.getLast? with
    | none =>
      exact absurd (List.getLast?_eq_none_iff.mp hg) h
    | some p =>
      obtain ⟨a, b⟩ := p
      by_cases hbf : b = f <;> simp [hbf]

theorem appendR_single {a b f l : Nat} :
    appendR [(a, b)] f l =
      (if l ≤ f then [(a, b)]
       else if b = f then [(a, l)] else [(a, b), (f, l)]) := by
  unfold appendR
  split_ifs <;> simp_all

/-- `push_back` on a longer container only inspects and rewrites the back,
so it commutes with `cons`. -/
theorem pushRangeWords_cons {mask x f l : Nat} {rest : List Nat} (h : rest ≠ []) :
    pushRangeWords mask (x :: rest) f l = x :: pushRangeWords mask rest f l := by
  unfold pushRangeWords
  have hb : (x :: rest).getLastD 0 = rest.getLastD 0 := getLastD_cons_of_ne_nil x 0 h
  have hd : (x :: rest).dropLast = x :: rest.dropLast := List.dropLast_cons_of_ne_nil h
  rw [hb, hd]
  have hne1 : x :: rest ≠ [] := by simp
  simp only [hne1, h, ne_eq, not_false_eq_true, true_and]
  split_ifs <;> simp

/-- Same for the single-value overload. -/
theorem pushValueWords_cons {mask x v : Nat} {rest : List Nat} (h : rest ≠ []) :
    pushValueWords mask (x :: rest) v = x :: pushValueWords mask rest v := by
  unfold pushValueWords
  have hb : (x :: rest).getLastD 0 = rest.getLastD 0 := getLastD_cons_of_ne_nil x 0 h
  have hd : (x :: rest).dropLast = x :: rest.dropLast := List.dropLast_cons_of_ne_nil h
  rw [hb, hd]
  have hne1 : x :: rest ≠ [] := by simp
  simp only [hne1, h, ne_eq, not_false_eq_true, true_and]
  split_ifs <;> simp

/-- The single-value overload performs exactly the word-level update of the
range overload at `(v, v+1)` (`val.second - val.first` is then `1`, so the
same branches fire with the same effects). -/
theorem pushValueWords_eq {mask : Nat} (hm : 0 < mask) (ws : List Nat) (v : Nat) :
    pushValueWords mask ws v = pushRangeWords mask ws v (v + 1) := by
  unfold pushValueWords pushRangeWords
  have hd : wsub mask (v + 1) v = 1 := by
    unfold wsub
    have h1 : v + 1 + 2 * mask - v = 1 + 2 * mask := by omega
    rw [h1, Nat.add_mod_right, Nat.mod_eq_of_lt (by omega)]
  rw [hd]
  norm_num

theorem pushRangeWords_nil {mask f l : Nat} :
    pushRangeWords mask [] f l =
      (if wsub mask l f = 0 then [] else if wsub mask l f = 1 then [f]
       else [orMask mask f, orMask mask l]) := by
  unfold pushRangeWords
  simp

/-- Master lemma for `push_back((f, l))` at the word level: under the
append precondition (`f ≤ l`, `l < MASK`, `f ≥` the stored final end), a
well-formed word sequence stays well-formed, its decoding evolves by
`appendR`, and the no-unit-pair property is preserved. -/
theorem pushRangeWords_master {mask : Nat} :
    ∀ (lb : Nat) (ws : List Nat), wfFrom mask lb ws = true →
    ∀ f l : Nat, f ≤ l → l < mask → lb ≤ f →
      lastLastR (decodeWords mask ws) ≤ f →
      wfFrom mask lb (pushRangeWords mask ws f l) = true
      ∧ decodeWords mask (pushRangeWords mask ws f l) = appendR (decodeWords mask ws) f l
      ∧ (noUnitPairs mask ws = true → noUnitPairs mask (pushRangeWords mask ws f l) = true) := by
  intro lb ws
  induction lb, ws using wfFrom.induct mask with
  | case1 lb =>
    intro _ f l hfl hlm hlb _
    have hm : 0 < mask := by omega
    have hd : wsub mask l f = l - f := wsub_of_le hfl (by omega)
    rw [pushRangeWords_nil, hd]
    rcases Nat.lt_or_ge f l with hlt | hge
    · rcases Nat.eq_or_lt_of_le (Nat.succ_le_of_lt hlt) with h1 | h2
      · -- l = f + 1 : singleton encoding
        rw [if_neg (by omega : ¬ (l - f = 0)), if_pos (by omega : l - f = 1)]
        refine ⟨?_, ?_, fun _ => ?_⟩
        · rw [wfFrom_cons_untagged (by omega)]
          simp only [Bool.and_eq_true, decide_eq_true_eq]
          exact ⟨hlb, rfl⟩
        · rw [decodeWords_cons_untagged [] (by omega), decodeWords_nil, appendR_nil]
          simp only [Nat.not_le_of_lt hlt, if_false]
          have hl1 : l = f + 1 := by omega
          rw [hl1]
        · rw [noUnitPairs_cons_untagged (by omega)]
          rfl
      · -- l ≥ f + 2 : tagged pair encoding
        rw [if_neg (by omega : ¬ (l - f = 0)), if_neg (by omega : ¬ (l - f = 1))]
        have hfm : f < mask := by omega
        rw [orMask_of_lt hfm, orMask_of_lt hlm]
        refine ⟨?_, ?_, fun _ => ?_⟩
        · rw [wfFrom_cons_pair (by omega)]
          simp only [Bool.and_eq_true, decide_eq_true_eq]
          rw [add_mask_mod hfm, add_mask_mod hlm]
          exact ⟨⟨⟨⟨⟨by omega, by omega⟩, by omega⟩, hlb⟩, by omega⟩, rfl⟩
        · rw [decodeWords_cons_pair (l + mask) [] (by omega), decodeWords_nil, appendR_nil]
          rw [add_mask_mod hfm, add_mask_mod hlm]
          simp only [Nat.not_le_of_lt hlt, if_false]
        · rw [noUnitPairs_cons_pair (by omega)]
          simp only [Bool.and_eq_true, decide_eq_true_eq]
          rw [add_mask_mod hfm, add_mask_mod hlm]
          exact ⟨by omega, rfl⟩
    · -- l ≤ f together with f ≤ l forces l = f : no-op
      rw [if_pos (by omega : l - f = 0)]
      refine ⟨rfl, ?_, fun h => h⟩
      rw [decodeWords_nil, appendR_nil, if_pos hge]
  | case2 lb x rest hx ih =>
    intro hwf f l hfl hlm hlb hend
    rw [wfFrom_cons_untagged hx] at hwf
    simp only [Bool.and_eq_true, decide_eq_true_eq] at hwf
    have hm : 0 < mask := by omega
    cases rest with
    | nil =>
      -- the container is the single untagged word [x], i.e. the range [x, x+1)
      have hdec : decodeWords mask [x] = [(x, x + 1)] := by
        rw [decodeWords_cons_untagged [] hx, decodeWords_nil]
      rw [hdec] at hend
      have hend' : x + 1 ≤ f := by simpa [lastLastR] using hend
      have hd : wsub mask l f = l - f := wsub_of_le hfl (by omega)
      have hxm : x % mask = x := Nat.mod_eq_of_lt hx
      have hf1 : 0 < f := by omega
      have hw1 : wsub mask f 1 = f - 1 := wsub_one_of_pos hf1 (by omega)
      have hback : ([x] : List Nat).getLastD 0 = x := rfl
      rcases Nat.lt_or_ge f l with hlt | hge
      · by_cases hxf : x = f - 1
        · -- coalesce: tag the singleton in place and append l|MASK
          have hres : pushRangeWords mask [x] f l = [x + mask, l + mask] := by
            unfold pushRangeWords
            rw [hback]
            simp only [hd, hxm, hw1]
            have hc1 : ¬ (([x] : List Nat) ≠ [] ∧ 0 < l - f ∧ mask ≤ x ∧ x = f) := by
              push_neg
              intro _ _ hmx
              omega
            rw [if_neg hc1]
            have hc2 : (([x] : List Nat) ≠ [] ∧ 0 < l - f ∧ x < mask ∧ x = f - 1) := by
              refine ⟨by simp, by omega, hx, hxf⟩
            rw [if_pos hc2]
            simp [orMask_of_lt hx, orMask_of_lt hlm]
          rw [hres, hdec]
          have hxf' : x + 1 = f := by omega
          refine ⟨?_, ?_, fun _ => ?_⟩
          · rw [wfFrom_cons_pair (by omega)]
            simp only [Bool.and_eq_true, decide_eq_true_eq]
            rw [add_mask_mod hx, add_mask_mod hlm]
            exact ⟨⟨⟨⟨⟨by omega, by omega⟩, by omega⟩, hwf.1⟩, by omega⟩, rfl⟩
          · rw [decodeWords_cons_pair (l + mask) [] (by omega), decodeWords_nil]
            rw [add_mask_mod hx, add_mask_mod hlm, appendR_single]
            simp only [Nat.not_le_of_lt hlt, if_false, hxf', if_pos]
          · rw [noUnitPairs_cons_pair (by omega)]
            simp only [Bool.and_eq_true, decide_eq_true_eq]
            rw [add_mask_mod hx, add_mask_mod hlm]
            exact ⟨by omega, rfl⟩
        · -- fresh append after the singleton
          have hx2f : x + 2 ≤ f := by omega
          have hc1 : ¬ (([x] : List Nat) ≠ [] ∧ 0 < wsub mask l f ∧ mask ≤ x ∧ x % mask = f) := by
            push_neg
            intro _ _ hmx
            omega
          have hc2 : ¬ (([x] : List Nat) ≠ [] ∧ 0 < wsub mask l f ∧ x < mask ∧
              x % mask = wsub mask f 1) := by
            push_neg
            intro _ _ _
            rw [hxm, hw1]
            omega
          rcases Nat.eq_or_lt_of_le (Nat.succ_le_of_lt hlt) with h1 | h2
          · -- l = f + 1 : append a singleton word
            have hres : pushRangeWords mask [x] f l = [x, f] := by
              unfold pushRangeWords
              rw [hback, if_neg hc1, if_neg hc2]
              simp only [hd]
              have h0 : ¬ (l - f = 0) := by omega
              rw [if_neg h0, if_pos (by omega : l - f = 1)]
              rfl
            rw [hres, hdec]
            refine ⟨?_, ?_, fun _ => ?_⟩
            · rw [wfFrom_cons_untagged hx]
              simp only [Bool.and_eq_true, decide_eq_true_eq]
              refine ⟨hwf.1, ?_⟩
              rw [wfFrom_cons_untagged (by omega)]
              simp only [Bool.and_eq_true, decide_eq_true_eq]
              exact ⟨hx2f, rfl⟩
            · rw [decodeWords_cons_untagged [f] hx,
                decodeWords_cons_untagged [] (by omega), decodeWords_nil, appendR_single]
              simp only [Nat.not_le_of_lt hlt, if_false]
              have hne1 : ¬ (x + 1 = f) := by omega
              have hl1 : l = f + 1 := by omega
              rw [if_neg hne1, hl1]
            · rw [noUnitPairs_cons_untagged hx, noUnitPairs_cons_untagged (by omega)]
              rfl
          · -- l ≥ f + 2 : append a tagged pair
            have hres : pushRangeWords mask [x] f l = [x, f + mask, l + mask] := by
              unfold pushRangeWords
              rw [hback, if_neg hc1, if_neg hc2]
              simp only [hd]
              rw [if_neg (by omega : ¬ (l - f = 0)), if_neg (by omega : ¬ (l - f = 1))]
              rw [orMask_of_lt (by omega), orMask_of_lt hlm]
              rfl
            rw [hres, hdec]
            refine ⟨?_, ?_, fun _ => ?_⟩
            · rw [wfFrom_cons_untagged hx]
              simp only [Bool.and_eq_true, decide_eq_true_eq]
              refine ⟨hwf.1, ?_⟩
              rw [wfFrom_cons_pair (by omega)]
              simp only [Bool.and_eq_true, decide_eq_true_eq]
              rw [add_mask_mod (by omega), add_mask_mod hlm]
              exact ⟨⟨⟨⟨⟨by omega, by omega⟩, by omega⟩, hx2f⟩, by omega⟩, rfl⟩
            · rw [decodeWords_cons_untagged [f + mask, l + mask] hx,
                decodeWords_cons_pair (l + mask) [] (by omega), decodeWords_nil]
              rw [add_mask_mod (by omega), add_mask_mod hlm, appendR_single]
              simp only [Nat.not_le_of_lt hlt, if_false]
              rw [if_neg (by omega : ¬ (x + 1 = f))]
            · rw [noUnitPairs_cons_untagged hx, noUnitPairs_cons_pair (by omega)]
              simp only [Bool.and_eq_true, decide_eq_true_eq]
              rw [add_mask_mod (by omega), add_mask_mod hlm]
              exact ⟨by omega, rfl⟩
      · -- l = f : no-op
        have hlf : l = f := by omega
        have hres : pushRangeWords mask [x] f l = [x] := by
          unfold pushRangeWords
          rw [hback]
          simp only [hd]
          have hz : l - f = 0 := by omega
          rw [if_neg (by simp [hz]), if_neg (by simp [hz]), if_pos hz]
        rw [hres, hdec, appendR_single, if_pos hge]
        refine ⟨?_, rfl, fun h => h⟩
        rw [wfFrom_cons_untagged hx]
        simp only [Bool.and_eq_true, decide_eq_true_eq]
        exact ⟨hwf.1, rfl⟩
    | cons w rest' =>
      -- longer container: push only touches the back, recurse on the tail
      have hne : (w :: rest' : List Nat) ≠ [] := by simp
      have hdecne : decodeWords mask (w :: rest') ≠ [] := wf_decode_ne_nil hwf.2 hne
      have hdec : decodeWords mask (x :: w :: rest')
          = (x, x + 1) :: decodeWords mask (w :: rest') :=
        decodeWords_cons_untagged (w :: rest') hx
      have hendr : lastLastR (decodeWords mask (w :: rest')) ≤ f := by
        rw [hdec] at hend
        unfold lastLastR at hend ⊢
        rwa [getLastD_cons_of_ne_nil _ _ hdecne] at hend
      have hlb' : x + 2 ≤ f := by
        have h1 := canonicalFrom_lastLast (wf_decode_canonical (x + 2) (w :: rest') hwf.2)
          hdecne
        unfold lastLastR at hendr
        omega
      obtain ⟨ihwf, ihdec, ihnu⟩ := ih hwf.2 f l hfl hlm hlb' hendr
      rw [pushRangeWords_cons hne]
      refine ⟨?_, ?_, fun hnu => ?_⟩
      · rw [wfFrom_cons_untagged hx]
        simp only [Bool.and_eq_true, decide_eq_true_eq]
        exact ⟨hwf.1, ihwf⟩
      · rw [decodeWords_cons_untagged _ hx, ihdec, hdec, appendR_cons _ hdecne]
      · rw [noUnitPairs_cons_untagged hx] at hnu
        rw [noUnitPairs_cons_untagged hx]
        exact ihnu hnu
  | case3 lb x hx =>
    intro hwf
    simp [wfFrom, hx] at hwf
  | case4 lb x hx y rest2 ih =>
    intro hwf f l hfl hlm hlb hend
    rw [wfFrom_cons_pair hx] at hwf
    simp only [Bool.and_eq_true, decide_eq_true_eq] at hwf
    obtain ⟨⟨⟨⟨⟨hx2m, hmy⟩, hy2m⟩, hlbx⟩, hxy⟩, hwfr⟩ := hwf
    have hm : 0 < mask := by omega
    have hxm : mask ≤ x := Nat.le_of_not_lt hx
    cases rest2 with
    | nil =>
      -- the container is exactly one tagged pair [x, y] = [x%m, y%m)
      have hdec : decodeWords mask [x, y] = [(x % mask, y % mask)] := by
        rw [decodeWords_cons_pair y [] hxm, decodeWords_nil]
      rw [hdec] at hend
      have hend' : y % mask ≤ f := by simpa [lastLastR] using hend
      have hd : wsub mask l f = l - f := wsub_of_le hfl (by omega)
      have hback : ([x, y] : List Nat).getLastD 0 = y := rfl
      have hym : y % mask < mask := Nat.mod_lt y (by omega)
      rcases Nat.lt_or_ge f l with hlt | hge
      · by_cases hyf : y % mask = f
        · -- coalesce: overwrite the second tagged word with l|MASK
          have hres : pushRangeWords mask [x, y] f l = [x, l + mask] := by
            unfold pushRangeWords
            rw [hback]
            simp only [hd]
            rw [if_pos ⟨by simp, by omega, hmy, hyf⟩, orMask_of_lt hlm]
            simp
          rw [hres, hdec]
          refine ⟨?_, ?_, fun _ => ?_⟩
          · rw [wfFrom_cons_pair hx]
            simp only [Bool.and_eq_true, decide_eq_true_eq]
            rw [add_mask_mod hlm]
            exact ⟨⟨⟨⟨⟨hx2m, by omega⟩, by omega⟩, hlbx⟩, by omega⟩, rfl⟩
          · rw [decodeWords_cons_pair (l + mask) [] (by omega), decodeWords_nil]
            rw [add_mask_mod hlm, appendR_single]
            simp only [Nat.not_le_of_lt hlt, if_false, hyf, if_pos]
          · rw [noUnitPairs_cons_pair hx]
            simp only [Bool.and_eq_true, decide_eq_true_eq]
            rw [add_mask_mod hlm]
            exact ⟨by omega, rfl⟩
        · -- fresh append after the pair
          have hyf' : y % mask < f := by omega
          have hc1 : ¬ (([x, y] : List Nat) ≠ [] ∧ 0 < wsub mask l f ∧ mask ≤ y ∧
              y % mask = f) := by
            push_neg
            intro _ _ _
            exact hyf
          have hc2 : ¬ (([x, y] : List Nat) ≠ [] ∧ 0 < wsub mask l f ∧ y < mask ∧
              y % mask = wsub mask f 1) := by
            push_neg
            intro _ _ hym'
            omega
          rcases Nat.eq_or_lt_of_le (Nat.succ_le_of_lt hlt) with h1 | h2
          · -- l = f + 1 : append a singleton word
            have hres : pushRangeWords mask [x, y] f l = [x, y, f] := by
              unfold pushRangeWords
              rw [hback, if_neg hc1, if_neg hc2]
              simp only [hd]
              rw [if_neg (by omega : ¬ (l - f = 0)), if_pos (by omega : l - f = 1)]
              rfl
            rw [hres, hdec]
            refine ⟨?_, ?_, fun hnu => ?_⟩
            · rw [wfFrom_cons_pair hx]
              simp only [Bool.and_eq_true, decide_eq_true_eq]
              refine ⟨⟨⟨⟨⟨hx2m, hmy⟩, hy2m⟩, hlbx⟩, hxy⟩, ?_⟩
              rw [wfFrom_cons_untagged (by omega)]
              simp only [Bool.and_eq_true, decide_eq_true_eq]
              exact ⟨by omega, rfl⟩
            · rw [decodeWords_cons_pair y [f] hxm,
                decodeWords_cons_untagged [] (by omega), decodeWords_nil, appendR_single]
              simp only [Nat.not_le_of_lt hlt, if_false]
              have hl1 : l = f + 1 := by omega
              rw [if_neg hyf, hl1]
            · rw [noUnitPairs_cons_pair hx] at hnu
              rw [noUnitPairs_cons_pair hx]
              simp only [Bool.and_eq_true, decide_eq_true_eq] at hnu ⊢
              exact ⟨hnu.1, by rw [noUnitPairs_cons_untagged (by omega)]; rfl⟩
          · -- l ≥ f + 2 : append a tagged pair
            have hres : pushRangeWords mask [x, y] f l = [x, y, f + mask, l + mask] := by
              unfold pushRangeWords
              rw [hback, if_neg hc1, if_neg hc2]
              simp only [hd]
              rw [if_neg (by omega : ¬ (l - f = 0)), if_neg (by omega : ¬ (l - f = 1))]
              rw [orMask_of_lt (by omega), orMask_of_lt hlm]
              rfl
            rw [hres, hdec]
            refine ⟨?_, ?_, fun hnu => ?_⟩
            · rw [wfFrom_cons_pair hx]
              simp only [Bool.and_eq_true, decide_eq_true_eq]
              refine ⟨⟨⟨⟨⟨hx2m, hmy⟩, hy2m⟩, hlbx⟩, hxy⟩, ?_⟩
              rw [wfFrom_cons_pair (by omega)]
              simp only [Bool.and_eq_true, decide_eq_true_eq]
              rw [add_mask_mod (by omega), add_mask_mod hlm]
              exact ⟨⟨⟨⟨⟨by omega, by omega⟩, by omega⟩, by omega⟩, by omega⟩, rfl⟩
            · rw [decodeWords_cons_pair y [f + mask, l + mask] hxm,
                decodeWords_cons_pair (l + mask) [] (by omega), decodeWords_nil]
              rw [add_mask_mod (by omega), add_mask_mod hlm, appendR_single]
              simp only [Nat.not_le_of_lt hlt, if_false]
              rw [if_neg hyf]
            · rw [noUnitPairs_cons_pair hx] at hnu
              rw [noUnitPairs_cons_pair hx]
              simp only [Bool.and_eq_true, decide_eq_true_eq] at hnu ⊢
              refine ⟨hnu.1, ?_⟩
              rw [noUnitPairs_cons_pair (by omega)]
              simp only [Bool.and_eq_true, decide_eq_true_eq]
              rw [add_mask_mod (by omega), add_mask_mod hlm]
              exact ⟨by omega, rfl⟩
      · -- l = f : no-op
        have hres : pushRangeWords mask [x, y] f l = [x, y] := by
          unfold pushRangeWords
          rw [hback]
          simp only [hd]
          have hz : l - f = 0 := by omega
          rw [if_neg (by simp [hz]), if_neg (by simp [hz]), if_pos hz]
        rw [hres, hdec, appendR_single, if_pos hge]
        refine ⟨?_, rfl, fun h => h⟩
        rw [wfFrom_cons_pair hx]
        simp only [Bool.and_eq_true, decide_eq_true_eq]
        exact ⟨⟨⟨⟨⟨hx2m, hmy⟩, hy2m⟩, hlbx⟩, hxy⟩, rfl⟩
    | cons w rest' =>
      have hne : (w :: rest' : List Nat) ≠ [] := by simp
      have hdecne : decodeWords mask (w :: rest') ≠ [] := wf_decode_ne_nil hwfr hne
      have hdec : decodeWords mask (x :: y :: w :: rest')
          = (x % mask, y % mask) :: decodeWords mask (w :: rest') :=
        decodeWords_cons_pair y (w :: rest') hxm
      have hendr : lastLastR (decodeWords mask (w :: rest')) ≤ f := by
        rw [hdec] at hend
        unfold lastLastR at hend ⊢
        rwa [getLastD_cons_of_ne_nil _ _ hdecne] at hend
      have hlb' : y % mask + 1 ≤ f := by
        have h1 := canonicalFrom_lastLast
          (wf_decode_canonical (y % mask + 1) (w :: rest') hwfr) hdecne
        unfold lastLastR at hendr
        omega
      obtain ⟨ihwf, ihdec, ihnu⟩ := ih hwfr f l hfl hlm hlb' hendr
      have hstep : pushRangeWords mask (x :: y :: w :: rest') f l
          = x :: y :: pushRangeWords mask (w :: rest') f l := by
        rw [pushRangeWords_cons (by simp : (y :: w :: rest' : List Nat) ≠ []),
          pushRangeWords_cons hne]
      rw [hstep]
      refine ⟨?_, ?_, fun hnu => ?_⟩
      · rw [wfFrom_cons_pair hx]
        simp only [Bool.and_eq_true, decide_eq_true_eq]
        exact ⟨⟨⟨⟨⟨hx2m, hmy⟩, hy2m⟩, hlbx⟩, hxy⟩, ihwf⟩
      · rw [decodeWords_cons_pair _ _ hxm, ihdec, hdec, appendR_cons _ hdecne]
      · rw [noUnitPairs_cons_pair hx] at hnu
        rw [noUnitPairs_cons_pair hx]
        simp only [Bool.and_eq_true, decide_eq_true_eq] at hnu ⊢
        exact ⟨hnu.1, ihnu hnu.2⟩

theorem lastLastR_cons {r : RangePair} {rs : List RangePair} (h : rs ≠ []) :
    lastLastR (r :: rs) = lastLastR rs := by
  unfold lastLastR
  rw [getLastD_cons_of_ne_nil _ _ h]

theorem lastLastR_single {a b : Nat} : lastLastR [(a, b)] = b := rfl

/-- `appendR` preserves canonical form when the append is monotone. -/
theorem appendR_canonical {f l : Nat} :
    ∀ (lb : Nat) (rs : List RangePair), canonicalFrom lb rs = true →
      lastLastR rs ≤ f → (rs = [] → lb ≤ f) →
      canonicalFrom lb (appendR rs f l) = true := by
  intro lb rs
  induction rs generalizing lb with
  | nil =>
    intro _ _ hlb
    rw [appendR_nil]
    split_ifs with hlf
    · rfl
    · simp only [canonicalFrom, Bool.and_eq_true, decide_eq_true_eq]
      exact ⟨⟨hlb rfl, by omega⟩, trivial⟩
  | cons r rest ih =>
    obtain ⟨a, b⟩ := r
    intro hc hlast _
    simp only [canonicalFrom, Bool.and_eq_true, decide_eq_true_eq] at hc
    cases rest with
    | nil =>
      rw [lastLastR_single] at hlast
      rw [appendR_single]
      split_ifs with hlf hbf
      · simp only [canonicalFrom, Bool.and_eq_true, decide_eq_true_eq]
        exact ⟨⟨hc.1.1, hc.1.2⟩, trivial⟩
      · simp only [canonicalFrom, Bool.and_eq_true, decide_eq_true_eq]
        exact ⟨⟨hc.1.1, by omega⟩, trivial⟩
      · simp only [canonicalFrom, Bool.and_eq_true, decide_eq_true_eq]
        exact ⟨⟨hc.1.1, hc.1.2⟩, ⟨⟨by omega, by omega⟩, trivial⟩⟩
    | cons r2 rest2 =>
      have hne : (r2 :: rest2 : List RangePair) ≠ [] := by simp
      rw [appendR_cons _ hne]
      simp only [canonicalFrom, Bool.and_eq_true, decide_eq_true_eq]
      refine ⟨⟨hc.1.1, hc.1.2⟩, ?_⟩
      exact ih (b + 1) hc.2 (by rwa [lastLastR_cons hne] at hlast) (by simp)

/-- The set denoted by `appendR rs f l` is the union of the old set and
`[f, l)`. -/
theorem bool_eq_of_iff {x y : Bool} (h : x = true ↔ y = true) : x = y := by
  cases x <;> cases y <;> simp_all

theorem appendR_mem (f l : Nat) :
    ∀ (lb : Nat) (rs : List RangePair), ascRangesFrom lb rs = true →
      lastLastR rs ≤ f →
      ∀ v, memRs v (appendR rs f l) = (memRs v rs || memR v (f, l)) := by
  intro lb rs
  induction rs generalizing lb with
  | nil =>
    intro _ _ v
    rw [appendR_nil]
    split_ifs with hlf
    · have hmf : memR v (f, l) = false := by
        simp only [memR, Bool.and_eq_false_iff, decide_eq_false_iff_not]
        omega
      simp [memRs, hmf]
    · simp [memRs]
  | cons r rest ih =>
    obtain ⟨a, b⟩ := r
    intro hc hlast v
    simp only [ascRangesFrom, Bool.and_eq_true, decide_eq_true_eq] at hc
    have hab : a < b := hc.1.2
    cases rest with
    | nil =>
      rw [lastLastR_single] at hlast
      rw [appendR_single]
      split_ifs with hlf hbf <;>
        apply bool_eq_of_iff <;>
        simp only [memRs, memR, List.any_cons, List.any_nil, Bool.or_false, Bool.or_eq_true,
          Bool.and_eq_true, decide_eq_true_eq] <;>
        omega
    | cons r2 rest2 =>
      have hne : (r2 :: rest2 : List RangePair) ≠ [] := by simp
      rw [appendR_cons _ hne]
      rw [lastLastR_cons hne] at hlast
      have hstep := ih b hc.2 hlast v
      have h1 : memRs v ((a, b) :: appendR (r2 :: rest2) f l)
          = (memR v (a, b) || memRs v (appendR (r2 :: rest2) f l)) := by
        simp [memRs]
      have h2 : memRs v ((a, b) :: r2 :: rest2)
          = (memR v (a, b) || memRs v (r2 :: rest2)) := by
        simp [memRs]
      rw [h1, h2, hstep, Bool.or_assoc]

/-- The final end after `appendR` (an actual append or merge ends at `l`). -/
theorem appendR_lastLast {f l : Nat} (rs : List RangePair) (hlf : f < l) :
    lastLastR (appendR rs f l) = l := by
  unfold appendR
  rw [if_neg (by omega : ¬ l ≤ f)]
  cases hg : rs.getLast? with
  | none => rfl
  | some p =>
    obtain ⟨a, b⟩ := p
    by_cases hbf : b = f <;> simp [hbf, lastLastR]

/-- Total length bookkeeping: `appendR` adds exactly `l - f` elements. -/
theorem appendR_sum (f l : Nat) :
    ∀ (lb : Nat) (rs : List RangePair), ascRangesFrom lb rs = true →
      lastLastR rs ≤ f →
      ((appendR rs f l).map (fun r => r.2 - r.1)).sum
        = (rs.map (fun r => r.2 - r.1)).sum + (l - f) := by
  intro lb rs
  induction rs generalizing lb with
  | nil =>
    intro _ _
    rw [appendR_nil]
    split_ifs with hlf
    · simp only [List.map_nil, List.sum_nil]
      omega
    · simp only [List.map_nil, List.map_cons, List.sum_nil, List.sum_cons]
      omega
  | cons r rest ih =>
    obtain ⟨a, b⟩ := r
    intro hc hlast
    simp only [ascRangesFrom, Bool.and_eq_true, decide_eq_true_eq] at hc
    cases rest with
    | nil =>
      rw [lastLastR_single] at hlast
      rw [appendR_single]
      split_ifs with hlf hbf <;>
        simp only [List.map_nil, List.map_cons, List.sum_nil, List.sum_cons] <;>
        omega
    | cons r2 rest2 =>
      have hne : (r2 :: rest2 : List RangePair) ≠ [] := by simp
      rw [appendR_cons _ hne]
      rw [lastLastR_cons hne] at hlast
      simp only [List.map_cons, List.sum_cons]
      rw [ih b hc.2 hlast]
      simp only [List.map_cons, List.sum_cons]
      omega

theorem mod_add_mask_of_tagged {mask x : Nat} (h1 : mask ≤ x) (h2 : x < 2 * mask) :
    x % mask + mask = x := by
  have hm : 0 < mask := by omega
  rw [Nat.mod_eq_sub_mod h1, Nat.mod_eq_of_lt (by omega)]
  omega

/-- A well-formed word sequence without unit pairs is recovered exactly by
re-encoding its decoded ranges: the stored form is a function of the
content. -/
theorem wf_reconstruct {mask : Nat} :
    ∀ (lb : Nat) (ws : List Nat), wfFrom mask lb ws = true →
      noUnitPairs mask ws = true →
      encodeList mask (decodeWords mask ws) = ws := by
  intro lb ws
  induction lb, ws using wfFrom.induct mask with
  | case1 lb => intro _ _; rfl
  | case2 lb x rest hx ih =>
    rw [wfFrom_cons_untagged hx, noUnitPairs_cons_untagged hx]
    simp only [Bool.and_eq_true, decide_eq_true_eq]
    intro hwf hnu
    rw [decodeWords_cons_untagged rest hx]
    unfold encodeList
    rw [List.flatMap_cons]
    unfold encodeList at ih
    rw [ih hwf.2 hnu]
    unfold encodeRange
    simp
  | case3 lb x hx =>
    intro hwf
    simp [wfFrom, hx] at hwf
  | case4 lb x hx y rest2 ih =>
    rw [wfFrom_cons_pair hx, noUnitPairs_cons_pair hx]
    simp only [Bool.and_eq_true, decide_eq_true_eq] at *
    intro hwf hnu
    rw [decodeWords_cons_pair y rest2 (Nat.le_of_not_lt hx)]
    unfold encodeList
    rw [List.flatMap_cons]
    unfold encodeList at ih
    rw [ih hwf.2 hnu.2]
    unfold encodeRange
    have hunit : ¬ ((x % mask, y % mask).2 = (x % mask, y % mask).1 + 1) := by
      simpa using fun h => hnu.1 h.symm
    rw [if_neg hunit]
    have hox : orMask mask (x % mask) = x := by
      rw [orMask_of_lt (Nat.mod_lt x (by omega))]
      exact mod_add_mask_of_tagged (Nat.le_of_not_lt hx) hwf.1.1.1.1.1
    have hoy : orMask mask (y % mask) = y := by
      rw [orMask_of_lt (Nat.mod_lt y (by omega))]
      exact mod_add_mask_of_tagged hwf.1.1.1.1.2 hwf.1.1.1.2
    rw [hox, hoy]
    simp

/-!
## Sequences of `push_back` calls (claims C3, C4, C5)
-/

/-- One `push_back` call: the range overload or the single-value overload. -/
inductive PushOp where
  | range (f l : Nat)
  | single (v : Nat)
deriving DecidableEq

/-- Apply one `push_back` call to a container. -/
def applyOp (mask : Nat) (c : IRV) : PushOp → IRV
  | .range f l => pushRange mask c f l
  | .single v => pushValue mask c v

/-- Run a sequence of `push_back` calls. -/
def runOps (mask : Nat) (c : IRV) (ops : List PushOp) : IRV :=
  ops.foldl (applyOp mask) c

/-- Decoded-level effect of one call. -/
def appendOp (rs : List RangePair) : PushOp → List RangePair
  | .range f l => appendR rs f l
  | .single v => appendR rs v (v + 1)

/-- The append precondition of one call against the current decoded ranges
(section 4.1 of the spec: `first ≤ last`, both endpoints below `MASK`, and
`first ≥` the stored final end; for `push_value(v)` the endpoints are `v`
and `v+1`). -/
def opOk (mask : Nat) (rs : List RangePair) : PushOp → Bool
  | .range f l => decide (f ≤ l) && decide (l < mask) && decide (lastLastR rs ≤ f)
  | .single v => decide (v + 1 < mask) && decide (lastLastR rs ≤ v)

/-- A sequence of calls honours the preconditions when each call does,
against the state left by the previous calls. -/
def opsOkFrom (mask : Nat) (rs : List RangePair) : List PushOp → Bool
  | [] => true
  | op :: rest => opOk mask rs op && opsOkFrom mask (appendOp rs op) rest

/-- The cumulative logical set of integers a sequence of calls inserts. -/
def opsSet (ops : List PushOp) (v : Nat) : Bool :=
  ops.any fun op =>
    match op with
    | .range f l => decide (f ≤ v) && decide (v < l)
    | .single u => decide (v = u)

/-- Running precondition-honouring calls preserves well-formedness and the
no-unit-pair property, and tracks `appendOp` at the decoded level. -/
theorem runOps_spec {mask : Nat} :
    ∀ (ops : List PushOp) (c : IRV) (rs : List RangePair),
      wfFrom mask 0 c.rangeVect = true →
      noUnitPairs mask c.rangeVect = true →
      decodeWords mask c.rangeVect = rs →
      opsOkFrom mask rs ops = true →
      wfFrom mask 0 (runOps mask c ops).rangeVect = true
      ∧ noUnitPairs mask (runOps mask c ops).rangeVect = true
      ∧ decodeWords mask (runOps mask c ops).rangeVect = ops.foldl appendOp rs := by
  intro ops
  induction ops with
  | nil =>
    intro c rs hwf hnu hdec _
    exact ⟨hwf, hnu, hdec⟩
  | cons op rest ih =>
    intro c rs hwf hnu hdec hok
    simp only [opsOkFrom, Bool.and_eq_true] at hok
    have hstep : wfFrom mask 0 (applyOp mask c op).rangeVect = true
        ∧ decodeWords mask (applyOp mask c op).rangeVect = appendOp rs op
        ∧ noUnitPairs mask (applyOp mask c op).rangeVect = true := by
      cases op with
      | range f l =>
        simp only [opOk, Bool.and_eq_true, decide_eq_true_eq] at hok
        obtain ⟨⟨⟨hfl, hlm⟩, hend⟩, _⟩ := hok
        have hmaster := pushRangeWords_master 0 c.rangeVect hwf f l hfl hlm (Nat.zero_le f)
          (by rw [hdec]; exact hend)
        have heq : (applyOp mask c (PushOp.range f l)).rangeVect
            = pushRangeWords mask c.rangeVect f l := rfl
        rw [heq]
        refine ⟨hmaster.1, ?_, hmaster.2.2 hnu⟩
        rw [hmaster.2.1, hdec]
        rfl
      | single v =>
        simp only [opOk, Bool.and_eq_true, decide_eq_true_eq] at hok
        obtain ⟨⟨hvm, hend⟩, _⟩ := hok
        have hm : 0 < mask := by omega
        have hmaster := pushRangeWords_master 0 c.rangeVect hwf v (v + 1)
          (Nat.le_succ v) hvm (Nat.zero_le v) (by rw [hdec]; exact hend)
        have heq : (applyOp mask c (PushOp.single v)).rangeVect
            = pushRangeWords mask c.rangeVect v (v + 1) := by
          simp only [applyOp, pushValue]
          exact pushValueWords_eq hm c.rangeVect v
        rw [heq]
        refine ⟨hmaster.1, ?_, hmaster.2.2 hnu⟩
        rw [hmaster.2.1, hdec]
        rfl
    have := ih (applyOp mask c op) (appendOp rs op) hstep.1 hstep.2.2 hstep.2.1 hok.2
    simpa [runOps, List.foldl_cons] using this

/-- Running precondition-honouring calls keeps the decoded ranges canonical. -/
theorem foldOps_canonical {mask : Nat} :
    ∀ (ops : List PushOp) (rs : List RangePair),
      canonicalFrom 0 rs = true →
      opsOkFrom mask rs ops = true →
      canonicalFrom 0 (ops.foldl appendOp rs) = true := by
  intro ops
  induction ops with
  | nil => intro rs h _; exact h
  | cons op rest ih =>
    intro rs hc hok
    simp only [opsOkFrom, Bool.and_eq_true] at hok
    have hstep : canonicalFrom 0 (appendOp rs op) = true := by
      cases op with
      | range f l =>
        simp only [opOk, Bool.and_eq_true, decide_eq_true_eq] at hok
        exact appendR_canonical 0 rs hc hok.1.2 (fun _ => Nat.zero_le f)
      | single v =>
        simp only [opOk, Bool.and_eq_true, decide_eq_true_eq] at hok
        exact appendR_canonical 0 rs hc hok.1.2 (fun _ => Nat.zero_le v)
    exact ih (appendOp rs op) hstep hok.2

/-- The set denoted after running the calls is the initial set united with
the cumulative inserted set. -/
theorem foldOps_mem {mask : Nat} :
    ∀ (ops : List PushOp) (rs : List RangePair),
      canonicalFrom 0 rs = true →
      opsOkFrom mask rs ops = true →
      ∀ v, memRs v (ops.foldl appendOp rs) = (memRs v rs || opsSet ops v) := by
  intro ops
  induction ops with
  | nil =>
    intro rs _ _ v
    simp [opsSet]
  | cons op rest ih =>
    intro rs hc hok v
    simp only [opsOkFrom, Bool.and_eq_true] at hok
    have hasc : ascRangesFrom 0 rs = true := ascRangesFrom_of_canonicalFrom hc
    have hstep : canonicalFrom 0 (appendOp rs op) = true := by
      cases op with
      | range f l =>
        simp only [opOk, Bool.and_eq_true, decide_eq_true_eq] at hok
        exact appendR_canonical 0 rs hc hok.1.2 (fun _ => Nat.zero_le f)
      | single v' =>
        simp only [opOk, Bool.and_eq_true, decide_eq_true_eq] at hok
        exact appendR_canonical 0 rs hc hok.1.2 (fun _ => Nat.zero_le v')
    have hrec := ih (appendOp rs op) hstep hok.2 v
    simp only [List.foldl_cons]
    rw [hrec]
    cases op with
    | range f l =>
      simp only [opOk, Bool.and_eq_true, decide_eq_true_eq] at hok
      have := appendR_mem f l 0 rs hasc hok.1.2 v
      simp only [appendOp]
      rw [this]
      simp only [opsSet, List.any_cons]
      rw [Bool.or_assoc]
      rfl
    | single u =>
      simp only [opOk, Bool.and_eq_true, decide_eq_true_eq] at hok
      have := appendR_mem u (u + 1) 0 rs hasc hok.1.2 v
      simp only [appendOp]
      rw [this]
      simp only [opsSet, List.any_cons]
      have hmv : memR v (u, u + 1) = decide (v = u) := by
        simp only [memR]
        rcases Nat.decEq v u with h | h
        · simp_all
          omega
        · simp_all
      rw [hmv, Bool.or_assoc]

theorem canonicalFrom_mem_lt {lb : Nat} {rs : List RangePair}
    (h : canonicalFrom lb rs = true) : ∀ r ∈ rs, r.1 < r.2 := by
  induction rs generalizing lb with
  | nil => intro r hr; simp at hr
  | cons r' rest ih =>
    obtain ⟨a, b⟩ := r'
    simp only [canonicalFrom, Bool.and_eq_true, decide_eq_true_eq] at h
    intro r hr
    rcases List.mem_cons.mp hr with hr | hr
    · subst hr; exact h.1.2
    · exact ih h.2 r hr

theorem sumRangeLens_eq {mask : Nat} :
    ∀ rs : List RangePair, (∀ r ∈ rs, r.1 < r.2 ∧ r.2 ≤ mask) →
      sumRangeLens mask rs = (rs.map (fun r => r.2 - r.1)).sum := by
  intro rs
  induction rs with
  | nil => intro _; rfl
  | cons r rest ih =>
    intro hb
    obtain ⟨a, b⟩ := r
    have h1 := hb (a, b) (List.mem_cons_self _ _)
    unfold sumRangeLens at ih ⊢
    simp only [List.map_cons, List.sum_cons]
    rw [ih (fun r hr => hb r (List.mem_cons.mpr (Or.inr hr)))]
    rw [wsub_of_le (Nat.le_of_lt h1.1) (by omega)]

/-- Containers reachable through the public API: default construction,
adoption of a well-formed word sequence, and precondition-honouring
`push_back` calls of either overload, in any interleaving. -/
inductive Reached (mask : Nat) : IRV → Prop where
  | empty : Reached mask IRVdefault
  | fromWords (ws : List Nat) : wfFrom mask 0 ws = true → Reached mask (IRVfromWords ws)
  | pushRangeStep (c : IRV) (f l : Nat) : Reached mask c → f ≤ l → l < mask →
      decEnd mask c.rangeVect ≤ f → Reached mask (pushRange mask c f l)
  | pushValueStep (c : IRV) (v : Nat) : Reached mask c → v + 1 < mask →
      decEnd mask c.rangeVect ≤ v → Reached mask (pushValue mask c v)

/-- Reachable containers are well-formed and their engaged length cache is
the sum of the decoded range lengths. -/
theorem Reached_inv {mask : Nat} {c : IRV} (h : Reached mask c) :
    wfFrom mask 0 c.rangeVect = true
    ∧ ∀ n, c.lengthCache = some n →
        n = ((decodeWords mask c.rangeVect).map (fun r => r.2 - r.1)).sum := by
  induction h with
  | empty =>
    refine ⟨rfl, fun n hn => ?_⟩
    simp only [IRVdefault, Option.some_inj] at hn
    subst hn
    rfl
  | fromWords ws hwf =>
    refine ⟨hwf, fun n hn => ?_⟩
    simp [IRVfromWords] at hn
  | pushRangeStep c f l _ hfl hlm hend ih =>
    obtain ⟨hwf, hcache⟩ := ih
    have hmaster := pushRangeWords_master 0 c.rangeVect hwf f l hfl hlm (Nat.zero_le f) hend
    refine ⟨hmaster.1, fun n hn => ?_⟩
    simp only [pushRange, Option.map_eq_some'] at hn
    obtain ⟨n0, hn0, hadd⟩ := hn
    have hsum := appendR_sum f l 0 (decodeWords mask c.rangeVect)
      (ascRangesFrom_of_canonicalFrom (wf_decode_canonical 0 c.rangeVect hwf)) hend
    have hws : wsub mask l f = l - f := wsub_of_le hfl (by omega)
    rw [show (pushRange mask c f l).rangeVect = pushRangeWords mask c.rangeVect f l from rfl,
      hmaster.2.1, hsum, ← hcache n0 hn0, ← hadd, hws]
  | pushValueStep c v _ hvm hend ih =>
    obtain ⟨hwf, hcache⟩ := ih
    have hm : 0 < mask := by omega
    have hmaster := pushRangeWords_master 0 c.rangeVect hwf v (v + 1)
      (Nat.le_succ v) hvm (Nat.zero_le v) hend
    refine ⟨?_, fun n hn => ?_⟩
    · rw [show (pushValue mask c v).rangeVect = pushValueWords mask c.rangeVect v from rfl,
        pushValueWords_eq hm]
      exact hmaster.1
    · simp only [pushValue, Option.map_eq_some'] at hn
      obtain ⟨n0, hn0, hadd⟩ := hn
      have hsum := appendR_sum v (v + 1) 0 (decodeWords mask c.rangeVect)
        (ascRangesFrom_of_canonicalFrom (wf_decode_canonical 0 c.rangeVect hwf)) hend
      rw [show (pushValue mask c v).rangeVect = pushValueWords mask c.rangeVect v from rfl,
        pushValueWords_eq hm, hmaster.2.1, hsum, ← hcache n0 hn0, ← hadd]
      omega

/-- C4: every `push_back` call (range or single-value overload) honouring
the append precondition (`first ≤ last`, both endpoints `< MASK`, `first ≥`
the last endpoint of the currently stored maximal range) preserves
word-sequence well-formedness: tagged words occur in consecutive pairs,
decoded ranges are strictly ascending, pairwise non-touching and
non-empty, and all stored endpoints are below `MASK`. -/
theorem push_back_preserves_wellformedness (mask : Nat) (ws : List Nat) (f l v : Nat)
    (hwf : wfFrom mask 0 ws = true) :
    (f ≤ l → l < mask → decEnd mask ws ≤ f →
      wfFrom mask 0 (pushRangeWords mask ws f l) = true)
    ∧ (v + 1 < mask → decEnd mask ws ≤ v →
      wfFrom mask 0 (pushValueWords mask ws v) = true) := by
  constructor
  · intro hfl hlm hend
    exact (pushRangeWords_master 0 ws hwf f l hfl hlm (Nat.zero_le f) hend).1
  · intro hvm hend
    rw [pushValueWords_eq (by omega) ws v]
    exact (pushRangeWords_master 0 ws hwf v (v + 1) (Nat.le_succ v) hvm
      (Nat.zero_le v) hend).1

/-- Witness for C4 at `mask = 128` (uint8), container `[5]`. -/
theorem push_back_preserves_wellformedness_witness :
    wfFrom 128 0 [5] = true
    ∧ wfFrom 128 0 (pushRangeWords 128 [5] 7 9) = true
    ∧ wfFrom 128 0 (pushValueWords 128 [5] 12) = true := by
  refine ⟨by decide, ?_, ?_⟩
  · exact (push_back_preserves_wellformedness 128 [5] 7 9 12 (by decide)).1
      (by decide) (by decide) (by decide)
  · exact (push_back_preserves_wellformedness 128 [5] 7 9 12 (by decide)).2
      (by decide) (by decide)

/-- C3: any two precondition-honouring `push_back` sequences from an empty
container that insert the same cumulative set of integers produce
containers with equal stored word sequences (`getBase`) that compare equal
with `operator==`. -/
theorem push_back_canonicalization (mask : Nat) (ops1 ops2 : List PushOp)
    (h1 : opsOkFrom mask [] ops1 = true) (h2 : opsOkFrom mask [] ops2 = true)
    (hset : ∀ v, opsSet ops1 v = opsSet ops2 v) :
    getBase (runOps mask IRVdefault ops1) = getBase (runOps mask IRVdefault ops2)
    ∧ eqOp (runOps mask IRVdefault ops1) (runOps mask IRVdefault ops2) = true := by
  obtain ⟨hw1, hn1, hd1⟩ := runOps_spec ops1 IRVdefault [] rfl rfl rfl h1
  obtain ⟨hw2, hn2, hd2⟩ := runOps_spec ops2 IRVdefault [] rfl rfl rfl h2
  have hc1 := foldOps_canonical ops1 [] rfl h1
  have hc2 := foldOps_canonical ops2 [] rfl h2
  have hmem : ∀ v, memRs v (ops1.foldl appendOp []) = memRs v (ops2.foldl appendOp []) := by
    intro v
    rw [foldOps_mem ops1 [] rfl h1 v, foldOps_mem ops2 [] rfl h2 v, hset v]
  have heq := canonicalFrom_unique hc1 hc2 hmem
  have hbase : (runOps mask IRVdefault ops1).rangeVect
      = (runOps mask IRVdefault ops2).rangeVect := by
    rw [← wf_reconstruct 0 _ hw1 hn1, ← wf_reconstruct 0 _ hw2 hn2, hd1, hd2, heq]
  exact ⟨hbase, by simp [eqOp, hbase]⟩

/-- Witness for C3: pushing the range `[0, 2)` at once, and pushing the
values `0` then `1`, produce identical containers. -/
theorem push_back_canonicalization_witness :
    opsOkFrom 128 [] [PushOp.range 0 2] = true
    ∧ opsOkFrom 128 [] [PushOp.single 0, PushOp.single 1] = true
    ∧ getBase (runOps 128 IRVdefault [PushOp.range 0 2])
        = getBase (runOps 128 IRVdefault [PushOp.single 0, PushOp.single 1]) := by
  refine ⟨by decide, by decide, ?_⟩
  exact (push_back_canonicalization 128 [PushOp.range 0 2] [PushOp.single 0, PushOp.single 1]
    (by decide) (by decide) (fun v => by
      apply bool_eq_of_iff
      simp only [opsSet, List.any_cons, List.any_nil, Bool.or_false, Bool.or_eq_true,
        Bool.and_eq_true, decide_eq_true_eq]
      omega)).1

/-- C5: for every container reachable through the public API, `length()`
returns the sum of `(last - first)` over the decoded ranges, and the cache
(maintained incrementally by `push_back`, or recomputed lazily after bulk
construction) agrees with that sum whenever it is engaged. -/
theorem length_returns_sum (mask : Nat) (c : IRV) (h : Reached mask c) :
    IRVlength mask c = ((decodeWords mask c.rangeVect).map (fun r => r.2 - r.1)).sum
    ∧ ∀ n, c.lengthCache = some n →
        n = ((decodeWords mask c.rangeVect).map (fun r => r.2 - r.1)).sum := by
  obtain ⟨hwf, hcache⟩ := Reached_inv h
  refine ⟨?_, hcache⟩
  unfold IRVlength
  cases hc : c.lengthCache with
  | some n => exact hcache n hc
  | none =>
    apply sumRangeLens_eq
    intro r hr
    exact ⟨canonicalFrom_mem_lt (wf_decode_canonical 0 c.rangeVect hwf) r hr,
      wf_decode_ends 0 c.rangeVect hwf r hr⟩

/-- Witness for C5: push `[2, 5)` then the value `7` from empty. -/
theorem length_returns_sum_witness :
    IRVlength 128 (pushValue 128 (pushRange 128 IRVdefault 2 5) 7)
      = ((decodeWords 128 (pushValue 128 (pushRange 128 IRVdefault 2 5) 7).rangeVect).map
          (fun r => r.2 - r.1)).sum := by
  exact (length_returns_sum 128 _
    (Reached.pushValueStep _ 7
      (Reached.pushRangeStep _ 2 5 Reached.empty (by decide) (by decide) (by decide))
      (by decide) (by decide))).1

/-- Appending an untagged word strictly beyond the stored final end keeps
the sequence well-formed (this also covers `v = MASK - 1`, whose decoded
range ends exactly at `MASK`). -/
theorem wf_append_singleton {mask : Nat} :
    ∀ (lb : Nat) (ws : List Nat), wfFrom mask lb ws = true →
      ∀ v : Nat, v < mask → (ws = [] → lb ≤ v) → (ws ≠ [] → decEnd mask ws < v) →
      wfFrom mask lb (ws ++ [v]) = true := by
  intro lb ws
  induction lb, ws using wfFrom.induct mask with
  | case1 lb =>
    intro _ v hv hnil _
    rw [List.nil_append, wfFrom_cons_untagged hv]
    simp only [Bool.and_eq_true, decide_eq_true_eq]
    exact ⟨hnil rfl, rfl⟩
  | case2 lb x rest hx ih =>
    intro hwf v hv _ hend
    rw [wfFrom_cons_untagged hx] at hwf
    simp only [Bool.and_eq_true, decide_eq_true_eq] at hwf
    rw [List.cons_append, wfFrom_cons_untagged hx]
    simp only [Bool.and_eq_true, decide_eq_true_eq]
    refine ⟨hwf.1, ?_⟩
    apply ih hwf.2 v hv
    · intro hrest
      subst hrest
      have : decEnd mask [x] = x + 1 := by
        unfold decEnd
        rw [decodeWords_cons_untagged [] hx, decodeWords_nil]
        rfl
      have := hend (by simp)
      omega
    · intro hrest
      have hde : decEnd mask (x :: rest) = decEnd mask rest := by
        unfold decEnd
        rw [decodeWords_cons_untagged rest hx]
        rw [getLastD_cons_of_ne_nil _ _ (wf_decode_ne_nil hwf.2 hrest)]
      have := hend (by simp)
      omega
  | case3 lb x hx =>
    intro hwf
    simp [wfFrom, hx] at hwf
  | case4 lb x hx y rest2 ih =>
    intro hwf v hv _ hend
    rw [wfFrom_cons_pair hx] at hwf
    simp only [Bool.and_eq_true, decide_eq_true_eq] at hwf
    rw [List.cons_append, List.cons_append, wfFrom_cons_pair hx]
    simp only [Bool.and_eq_true, decide_eq_true_eq]
    refine ⟨hwf.1, ?_⟩
    apply ih hwf.2 v hv
    · intro hrest
      subst hrest
      have hde : decEnd mask [x, y] = y % mask := by
        unfold decEnd
        rw [decodeWords_cons_pair y [] (Nat.le_of_not_lt hx), decodeWords_nil]
        rfl
      have := hend (by simp)
      omega
    · intro hrest
      have hde : decEnd mask (x :: y :: rest2) = decEnd mask rest2 := by
        unfold decEnd
        rw [decodeWords_cons_pair y rest2 (Nat.le_of_not_lt hx)]
        rw [getLastD_cons_of_ne_nil _ _ (wf_decode_ne_nil hwf.2 hrest)]
      have := hend (by simp)
      omega

/-- When the pushed value lies strictly beyond the stored final end,
`push_back(T)` takes no coalescing branch and appends the untagged word. -/
theorem pushValueWords_fresh {mask : Nat} :
    ∀ (lb : Nat) (ws : List Nat), wfFrom mask lb ws = true →
      ∀ v : Nat, v < mask → decEnd mask ws < v →
      pushValueWords mask ws v = ws ++ [v] := by
  intro lb ws
  induction lb, ws using wfFrom.induct mask with
  | case1 lb =>
    intro _ v _ _
    unfold pushValueWords
    simp
  | case2 lb x rest hx ih =>
    intro hwf v hv hend
    rw [wfFrom_cons_untagged hx] at hwf
    simp only [Bool.and_eq_true, decide_eq_true_eq] at hwf
    cases rest with
    | nil =>
      have hde : decEnd mask [x] = x + 1 := by
        unfold decEnd
        rw [decodeWords_cons_untagged [] hx, decodeWords_nil]
        rfl
      rw [hde] at hend
      unfold pushValueWords
      have hback : ([x] : List Nat).getLastD 0 = x := rfl
      rw [hback]
      rw [if_neg (by push_neg; intro _ hmx; omega)]
      rw [if_neg ?hc]
      case hc =>
        push_neg
        intro _ _
        rw [Nat.mod_eq_of_lt hx]
        have hv2 : 2 ≤ v := by omega
        rw [wsub_one_of_pos (by omega) (by omega)]
        omega
    | cons w rest' =>
      have hne : (w :: rest' : List Nat) ≠ [] := by simp
      have hde : decEnd mask (x :: w :: rest') = decEnd mask (w :: rest') := by
        unfold decEnd
        rw [decodeWords_cons_untagged (w :: rest') hx]
        rw [getLastD_cons_of_ne_nil _ _ (wf_decode_ne_nil hwf.2 hne)]
      rw [hde] at hend
      rw [pushValueWords_cons hne, ih hwf.2 v hv hend]
      rfl
  | case3 lb x hx =>
    intro hwf
    simp [wfFrom, hx] at hwf
  | case4 lb x hx y rest2 ih =>
    intro hwf v hv hend
    rw [wfFrom_cons_pair hx] at hwf
    simp only [Bool.and_eq_true, decide_eq_true_eq] at hwf
    obtain ⟨⟨⟨⟨⟨hx2m, hmy⟩, hy2m⟩, hlbx⟩, hxy⟩, hwfr⟩ := hwf
    cases rest2 with
    | nil =>
      have hde : decEnd mask [x, y] = y % mask := by
        unfold decEnd
        rw [decodeWords_cons_pair y [] (Nat.le_of_not_lt hx), decodeWords_nil]
        rfl
      rw [hde] at hend
      unfold pushValueWords
      have hback : ([x, y] : List Nat).getLastD 0 = y := rfl
      rw [hback]
      rw [if_neg (by push_neg; intro _ _; omega)]
      rw [if_neg (by push_neg; intro _ hy; omega)]
    | cons w rest' =>
      have hne : (w :: rest' : List Nat) ≠ [] := by simp
      have hde : decEnd mask (x :: y :: w :: rest') = decEnd mask (w :: rest') := by
        unfold decEnd
        rw [decodeWords_cons_pair y (w :: rest') (Nat.le_of_not_lt hx)]
        rw [getLastD_cons_of_ne_nil _ _ (wf_decode_ne_nil hwfr hne)]
      rw [hde] at hend
      rw [pushValueWords_cons (by simp : (y :: w :: rest' : List Nat) ≠ []),
        pushValueWords_cons hne, ih hwfr v hv hend]
      rfl

/-- C8 counterexample: at `mask = 128` (uint8), the single-value overload
accepts `MASK - 1 = 127` (the assert passes) after a precondition-honouring
`push_back((0, 127))`, yet the resulting word sequence `[128, 128]`
violates the section-3 invariants: the coalescing branch writes
`(127 + 1) | MASK = MASK`, whose payload is `0`, producing an empty,
non-ascending decoded range.  So "the resulting container still satisfies
the section-3 invariants" is false as stated. -/
theorem push_back_mask_minus_one_counterexample :
    pushRangeAssertOk 128 0 127 = true
    ∧ wfFrom 128 0 (pushRangeWords 128 [] 0 127) = true
    ∧ pushValueAssertOk 128 127 = true
    ∧ decEnd 128 (pushRangeWords 128 [] 0 127) ≤ 127
    ∧ wfFrom 128 0 (pushValueWords 128 (pushRangeWords 128 [] 0 127) 127) = false := by
  decide

/-- C8 amended: both overloads accept exactly the values below `MASK`
(so `MASK - 1` passes the precondition checks) and reject `MASK` and every
value with the tag bit set; and the container resulting from pushing a
value below `MASK` still satisfies the section-3 invariants provided the
push does not coalesce with a stored tail ending at that value (in
particular, pushing `MASK - 1` beyond the stored final end is safe; only
the coalescing push of `MASK - 1` of the counterexample corrupts the
encoding). -/
theorem push_back_boundary_amended (mask : Nat) (v f l : Nat) (ws : List Nat) :
    (v < mask → pushValueAssertOk mask v = true)
    ∧ (mask ≤ v → pushValueAssertOk mask v = false)
    ∧ (f < mask → l < mask → pushRangeAssertOk mask f l = true)
    ∧ (mask ≤ l → pushRangeAssertOk mask f l = false)
    ∧ (wfFrom mask 0 ws = true → v < mask → decEnd mask ws < v →
        wfFrom mask 0 (pushValueWords mask ws v) = true) := by
  refine ⟨?_, ?_, ?_, ?_, ?_⟩
  · intro hv
    simp [pushValueAssertOk, hv]
  · intro hv
    simp [pushValueAssertOk]
    omega
  · intro hf hl
    simp [pushRangeAssertOk, hf, hl]
  · intro hl
    simp [pushRangeAssertOk]
    omega
  · intro hwf hv hend
    rw [pushValueWords_fresh 0 ws hwf v hv hend]
    apply wf_append_singleton 0 ws hwf v hv
    · intro _
      exact Nat.zero_le v
    · intro hne
      exact hend

/-- Witness for the amended C8 at `mask = 128`. -/
theorem push_back_boundary_amended_witness :
    pushValueAssertOk 128 127 = true
    ∧ pushValueAssertOk 128 128 = false
    ∧ pushRangeAssertOk 128 3 5 = true
    ∧ pushRangeAssertOk 128 3 128 = false
    ∧ wfFrom 128 0 (pushValueWords 128 [5] 127) = true := by
  refine ⟨(push_back_boundary_amended 128 127 3 5 [5]).1 (by decide),
    (push_back_boundary_amended 128 128 3 5 [5]).2.1 (by decide),
    (push_back_boundary_amended 128 127 3 5 [5]).2.2.1 (by decide) (by decide),
    (push_back_boundary_amended 128 127 3 128 [5]).2.2.2.1 (by decide),
    (push_back_boundary_amended 128 127 3 5 [5]).2.2.2.2 (by decide) (by decide) (by decide)⟩

/-- C9 counterexample: the `end()` iterator of the container `[5]` is not
before the end, and `operator*` and `operator->` do fail their assertion
check there, but neither increment operator contains an assertion, so "the
dereference, member-access, and both increment operators each fail an
assertion check" is false. -/
theorem iterator_increment_assert_counterexample :
    (cend (IRVfromWords [5])).words.length ≤ (cend (IRVfromWords [5])).base
    ∧ ¬ (derefAssertOk (cend (IRVfromWords [5])) = false
        ∧ arrowAssertOk (cend (IRVfromWords [5])) = false
        ∧ preIncAssertOk (cend (IRVfromWords [5])) = false
        ∧ postIncAssertOk (cend (IRVfromWords [5])) = false) := by
  decide

/-- C9 amended: for every iterator whose base position is not before the
end, dereference and member access fail their assertion check, while the
two increment operators execute no assertion at all (their assert
conditions hold vacuously; they simply advance the base). -/
theorem iterator_misuse_assertions_amended (it : ConstIterator)
    (h : it.words.length ≤ it.base) :
    derefAssertOk it = false ∧ arrowAssertOk it = false
    ∧ preIncAssertOk it = true ∧ postIncAssertOk it = true := by
  refine ⟨?_, ?_, rfl, rfl⟩ <;>
    simp only [derefAssertOk, arrowAssertOk, decide_eq_false_iff_not, Nat.not_lt] <;>
    exact h

/-- Witness for the amended C9. -/
theorem iterator_misuse_assertions_amended_witness :
    (cend (IRVfromWords [5])).words.length ≤ (cend (IRVfromWords [5])).base
    ∧ (derefAssertOk (cend (IRVfromWords [5])) = false
       ∧ arrowAssertOk (cend (IRVfromWords [5])) = false
       ∧ preIncAssertOk (cend (IRVfromWords [5])) = true
       ∧ postIncAssertOk (cend (IRVfromWords [5])) = true) :=
  ⟨by decide, iterator_misuse_assertions_amended (cend (IRVfromWords [5])) (by decide)⟩

/-- C10: incrementing an iterator at or past the end passes no assertion
and advances the base by exactly one word position; the prefix-incremented
result compares greater than `end()` and not equal to it, the postfix
increment returns the prior iterator value, and `cbegin()++` on an empty
container returns an iterator equal to `cend()`. -/
theorem past_end_increment_behaviour (mask : Nat) (it : ConstIterator)
    (h : it.words.length ≤ it.base) :
    preIncAssertOk it = true ∧ postIncAssertOk it = true
    ∧ (preInc mask it).base = it.base + 1
    ∧ iterGt (preInc mask it) (cend (IRVfromWords it.words)) = true
    ∧ iterEq (preInc mask it) (cend (IRVfromWords it.words)) = false
    ∧ (postInc mask it).1 = it
    ∧ iterEq (postInc mask (cbegin IRVdefault)).1 (cend IRVdefault) = true := by
  have hinc : incBase mask it = it.base + 1 := by
    unfold incBase
    rw [if_neg]
    push_neg
    intro hlt
    omega
  refine ⟨rfl, rfl, ?_, ?_, ?_, rfl, rfl⟩
  · simp [preInc, hinc]
  · simp only [iterGt, preInc, hinc, cend, IRVfromWords, decide_eq_true_eq]
    omega
  · simp only [iterEq, preInc, hinc, cend, IRVfromWords, decide_eq_false_iff_not]
    omega

/-- Witness for C10 at the `end()` iterator of `[5]` (`mask = 128`). -/
theorem past_end_increment_behaviour_witness :
    (cend (IRVfromWords [5])).words.length ≤ (cend (IRVfromWords [5])).base
    ∧ (preInc 128 (cend (IRVfromWords [5]))).base = (cend (IRVfromWords [5])).base + 1
    ∧ iterEq (postInc 128 (cbegin IRVdefault)).1 (cend IRVdefault) = true := by
  have h := past_end_increment_behaviour 128 (cend (IRVfromWords [5])) (by decide)
  exact ⟨by decide, h.2.2.1, h.2.2.2.2.2.2⟩

/-!
## Properties of the intersection window scan
-/

theorem windowScan_cons (b e : Nat) (rest : List RangePair) (i cb ce k : Nat) :
    windowScan ((b, e) :: rest) i cb ce k =
      (if e < ce then windowScan rest (i + 1) (if cb < b then b else cb) e i
       else windowScan rest (i + 1) (if cb < b then b else cb) ce k) := by
  rw [windowScan]

/-- The scanned `curRangeBegin` dominates its initial value and every
scanned `get_first`. -/
theorem windowScan_cb (hs : List RangePair) :
    ∀ i cb ce k, cb ≤ (windowScan hs i cb ce k).1
      ∧ ∀ h ∈ hs, h.1 ≤ (windowScan hs i cb ce k).1 := by
  induction hs with
  | nil =>
    intro i cb ce k
    exact ⟨Nat.le_refl cb, by simp⟩
  | cons r rest ih =>
    intro i cb ce k
    obtain ⟨b, e⟩ := r
    rw [windowScan_cons]
    obtain ⟨cb2, hcb2, hcb1, hcb2b⟩ :
        ∃ cb2, (if cb < b then b else cb) = cb2 ∧ cb ≤ cb2 ∧ b ≤ cb2 := by
      refine ⟨if cb < b then b else cb, rfl, ?_, ?_⟩ <;> split_ifs <;> omega
    rw [hcb2]
    split_ifs with he
    · obtain ⟨ha, hb⟩ := ih (i + 1) cb2 e i
      refine ⟨Nat.le_trans hcb1 ha, ?_⟩
      intro h hh
      rcases List.mem_cons.mp hh with hh | hh
      · subst hh; exact Nat.le_trans hcb2b ha
      · exact hb h hh
    · obtain ⟨ha, hb⟩ := ih (i + 1) cb2 ce k
      refine ⟨Nat.le_trans hcb1 ha, ?_⟩
      intro h hh
      rcases List.mem_cons.mp hh with hh | hh
      · subst hh; exact Nat.le_trans hcb2b ha
      · exact hb h hh

/-- The scanned `curRangeBegin` is the initial value or one of the
scanned `get_first`s. -/
theorem windowScan_cb_cases (hs : List RangePair) :
    ∀ i cb ce k, (windowScan hs i cb ce k).1 = cb
      ∨ ∃ h ∈ hs, (windowScan hs i cb ce k).1 = h.1 := by
  induction hs with
  | nil =>
    intro i cb ce k
    exact Or.inl rfl
  | cons r rest ih =>
    intro i cb ce k
    obtain ⟨b, e⟩ := r
    rw [windowScan_cons]
    obtain ⟨cb2, hcb2, hcases⟩ :
        ∃ cb2, (if cb < b then b else cb) = cb2 ∧ (cb2 = b ∨ cb2 = cb) := by
      refine ⟨if cb < b then b else cb, rfl, ?_⟩
      split_ifs <;> simp
    rw [hcb2]
    have hrec : ∀ ce' k', (windowScan rest (i + 1) cb2 ce' k').1 = cb
        ∨ ∃ h ∈ (b, e) :: rest, (windowScan rest (i + 1) cb2 ce' k').1 = h.1 := by
      intro ce' k'
      rcases ih (i + 1) cb2 ce' k' with h | ⟨h, hh, heq⟩
      · rcases hcases with hc | hc
        · exact Or.inr ⟨(b, e), List.mem_cons_self _ _, by rw [h, hc]⟩
        · exact Or.inl (by rw [h, hc])
      · exact Or.inr ⟨h, List.mem_cons.mpr (Or.inr hh), heq⟩
    split_ifs with he
    · exact hrec e i
    · exact hrec ce k

/-- The scanned `curRangeEnd` is at most its initial value and at most
every scanned `get_last`. -/
theorem windowScan_ce (hs : List RangePair) :
    ∀ i cb ce k, (windowScan hs i cb ce k).2.1 ≤ ce
      ∧ ∀ h ∈ hs, (windowScan hs i cb ce k).2.1 ≤ h.2 := by
  induction hs with
  | nil =>
    intro i cb ce k
    exact ⟨Nat.le_refl ce, by simp⟩
  | cons r rest ih =>
    intro i cb ce k
    obtain ⟨b, e⟩ := r
    rw [windowScan_cons]
    obtain ⟨cb2, hcb2⟩ : ∃ cb2, (if cb < b then b else cb) = cb2 :=
      ⟨if cb < b then b else cb, rfl⟩
    rw [hcb2]
    split_ifs with he
    · obtain ⟨ha, hb⟩ := ih (i + 1) cb2 e i
      refine ⟨by omega, ?_⟩
      intro h hh
      rcases List.mem_cons.mp hh with hh | hh
      · subst hh; exact ha
      · exact hb h hh
    · obtain ⟨ha, hb⟩ := ih (i + 1) cb2 ce k
      refine ⟨ha, ?_⟩
      intro h hh
      rcases List.mem_cons.mp hh with hh | hh
      · subst hh; omega
      · exact hb h hh

/-- `containerToForward` after the scan: either nothing lowered
`curRangeEnd` (it keeps its initial value, as does the index), or the
index points at a scanned input whose `get_last` equals the final
`curRangeEnd`. -/
theorem windowScan_k (hs : List RangePair) :
    ∀ i cb ce k, ((windowScan hs i cb ce k).2 = (ce, k))
      ∨ ∃ j, ∃ hj : j < hs.length, (windowScan hs i cb ce k).2.2 = i + j
          ∧ (hs.get ⟨j, hj⟩).2 = (windowScan hs i cb ce k).2.1 := by
  induction hs with
  | nil =>
    intro i cb ce k
    exact Or.inl rfl
  | cons r rest ih =>
    intro i cb ce k
    obtain ⟨b, e⟩ := r
    rw [windowScan_cons]
    obtain ⟨cb2, hcb2⟩ : ∃ cb2, (if cb < b then b else cb) = cb2 :=
      ⟨if cb < b then b else cb, rfl⟩
    rw [hcb2]
    split_ifs with he
    · rcases ih (i + 1) cb2 e i with h | ⟨j, hj, h1, h2⟩
      · refine Or.inr ⟨0, by simp, ?_, ?_⟩
        · rw [show (windowScan rest (i + 1) cb2 e i).2.2
              = ((windowScan rest (i + 1) cb2 e i).2).2 from rfl, h]
          simp
        · rw [show (windowScan rest (i + 1) cb2 e i).2.1
              = ((windowScan rest (i + 1) cb2 e i).2).1 from rfl, h]
          simp
      · refine Or.inr ⟨j + 1, by simpa using hj, ?_, ?_⟩
        · omega
        · simpa using h2
    · rcases ih (i + 1) cb2 ce k with h | ⟨j, hj, h1, h2⟩
      · exact Or.inl h
      · refine Or.inr ⟨j + 1, by simpa using hj, ?_, ?_⟩
        · omega
        · simpa using h2

theorem mem_set_cases {α : Type} :
    ∀ (l : List α) (k : Nat) (a x : α), x ∈ l.set k a → x = a ∨ x ∈ l := by
  intro l
  induction l with
  | nil =>
    intro k a x hx
    simp at hx
  | cons y t ih =>
    intro k a x hx
    cases k with
    | zero =>
      simp only [List.set_cons_zero] at hx
      rcases List.mem_cons.mp hx with hx | hx
      · exact Or.inl hx
      · exact Or.inr (List.mem_cons.mpr (Or.inr hx))
    | succ k' =>
      simp only [List.set_cons_succ] at hx
      rcases List.mem_cons.mp hx with hx | hx
      · exact Or.inr (List.mem_cons.mpr (Or.inl hx))
      · rcases ih k' a x hx with h | h
        · exact Or.inl h
        · exact Or.inr (List.mem_cons.mpr (Or.inr h))

theorem mem_set_or {α : Type} :
    ∀ (l : List α) (k : Nat) (a x : α) (hk : k < l.length),
      x ∈ l → x ∈ l.set k a ∨ x = l.get ⟨k, hk⟩ := by
  intro l
  induction l with
  | nil =>
    intro k a x hk
    simp at hk
  | cons y t ih =>
    intro k a x hk hx
    cases k with
    | zero =>
      rcases List.mem_cons.mp hx with hx | hx
      · exact Or.inr hx
      · exact Or.inl (by simp [hx])
    | succ k' =>
      rcases List.mem_cons.mp hx with hx | hx
      · exact Or.inl (by simp [hx])
      · rcases ih k' a x (by simpa using hk) hx with h | h
        · exact Or.inl (by simp [h])
        · exact Or.inr (by simpa using h)

theorem sumLens_set :
    ∀ (rem : List (List RangePair)) (k : Nat) (hk : k < rem.length)
      (hd : RangePair) (tl : List RangePair),
      rem.get ⟨k, hk⟩ = hd :: tl →
      sumLens (rem.set k tl) + 1 = sumLens rem := by
  intro rem
  induction rem with
  | nil =>
    intro k hk
    simp at hk
  | cons l rest ih =>
    intro k hk hd tl hget
    cases k with
    | zero =>
      simp only [List.get] at hget
      subst hget
      simp [sumLens, List.set_cons_zero]
      omega
    | succ k' =>
      simp only [List.get] at hget
      have := ih k' (by simpa using hk) hd tl hget
      simp only [sumLens, List.set_cons_succ, List.map_cons, List.sum_cons] at this ⊢
      omega

theorem mem_append_toList (v : Nat) (xs : List RangePair) (o : Option RangePair) :
    memRs v (xs ++ o.toList) = (memRs v xs || memO v o) := by
  cases o with
  | none => simp [memRs, memO]
  | some p => simp [memRs, memO, List.any_append]

theorem lastLastR_append_single (xs : List RangePair) (p : RangePair) :
    lastLastR (xs ++ [p]) = p.2 := by
  unfold lastLastR
  simp

theorem canonicalFrom_snoc {a b : Nat} :
    ∀ (lb : Nat) (rs : List RangePair), canonicalFrom lb rs = true →
      lastLastR rs < a → a < b → (rs = [] → lb ≤ a) →
      canonicalFrom lb (rs ++ [(a, b)]) = true := by
  intro lb rs
  induction rs generalizing lb with
  | nil =>
    intro _ _ hab hnil
    simp only [List.nil_append, canonicalFrom, Bool.and_eq_true, decide_eq_true_eq]
    exact ⟨⟨hnil rfl, hab⟩, trivial⟩
  | cons r rest ih =>
    obtain ⟨x, y⟩ := r
    intro hc hlast hab _
    simp only [canonicalFrom, Bool.and_eq_true, decide_eq_true_eq] at hc
    simp only [List.cons_append, canonicalFrom, Bool.and_eq_true, decide_eq_true_eq]
    refine ⟨⟨hc.1.1, hc.1.2⟩, ?_⟩
    cases rest with
    | nil =>
      have hya : y < a := by
        simpa [lastLastR, List.getLastD] using hlast
      simp only [List.nil_append, canonicalFrom, Bool.and_eq_true, decide_eq_true_eq]
      exact ⟨⟨by omega, hab⟩, trivial⟩
    | cons r2 rest2 =>
      apply ih (y + 1) hc.2
      · rwa [lastLastR_cons (by simp)] at hlast
      · exact hab
      · intro h
        simp at h

theorem canonicalFrom_extend_last {a b b' : Nat} :
    ∀ (lb : Nat) (rs : List RangePair), canonicalFrom lb (rs ++ [(a, b)]) = true →
      b ≤ b' → canonicalFrom lb (rs ++ [(a, b')]) = true := by
  intro lb rs
  induction rs generalizing lb with
  | nil =>
    intro hc hb
    simp only [List.nil_append, canonicalFrom, Bool.and_eq_true, decide_eq_true_eq] at hc ⊢
    exact ⟨⟨hc.1.1, by omega⟩, trivial⟩
  | cons r rest ih =>
    obtain ⟨x, y⟩ := r
    intro hc hb
    simp only [List.cons_append, canonicalFrom, Bool.and_eq_true, decide_eq_true_eq] at hc ⊢
    exact ⟨⟨hc.1.1, hc.1.2⟩, ih (y + 1) hc.2 hb⟩

/-- Effect of the intersection emission step on the pending/flushed state:
the chain stays canonical and bounded, the new pending range ends at the
window end, and the denoted set grows by exactly the window. -/
theorem emitIntersect_spec (LAST cb ce : Nat) (pending : Option RangePair)
    (acc : List RangePair)
    (hwin : cb < ce) (hce : ce ≤ LAST)
    (hchain : canonicalFrom 0 (acc ++ pending.toList) = true)
    (hbound : ∀ r ∈ acc ++ pending.toList, r.2 ≤ LAST)
    (hpn : pending = none → acc = [])
    (hple : ∀ p, pending = some p → p.2 ≤ cb) :
    canonicalFrom 0 ((emitIntersect cb ce pending acc).2
      ++ (emitIntersect cb ce pending acc).1.toList) = true
    ∧ (∀ r ∈ (emitIntersect cb ce pending acc).2
        ++ (emitIntersect cb ce pending acc).1.toList, r.2 ≤ LAST)
    ∧ (∀ p, (emitIntersect cb ce pending acc).1 = some p → p.2 = ce)
    ∧ (emitIntersect cb ce pending acc).1 ≠ none
    ∧ ∀ v, (memRs v (emitIntersect cb ce pending acc).2
        || memO v (emitIntersect cb ce pending acc).1)
      = (memRs v acc || memO v pending || memR v (cb, ce)) := by
  cases pending with
  | none =>
    have hacc : acc = [] := hpn rfl
    subst hacc
    refine ⟨?_, ?_, ?_, by simp [emitIntersect], ?_⟩
    · simp only [emitIntersect, List.nil_append, Option.toList_some, canonicalFrom,
        Bool.and_eq_true, decide_eq_true_eq]
      exact ⟨⟨Nat.zero_le cb, hwin⟩, trivial⟩
    · intro r hr
      simp only [emitIntersect, List.nil_append, Option.toList_some, List.mem_singleton] at hr
      subst hr
      exact hce
    · intro p hp
      simp only [emitIntersect, Option.some_inj] at hp
      rw [← hp]
    · intro v
      simp [emitIntersect, memRs, memO]
  | some p =>
    obtain ⟨p1, p2⟩ := p
    have hp12 : p1 < p2 :=
      canonicalFrom_mem_lt hchain (p1, p2) (by simp)
    have hp2cb : p2 ≤ cb := by simpa using hple (p1, p2) rfl
    by_cases hfuse : p2 = cb
    · have hemit : emitIntersect cb ce (some (p1, p2)) acc = (some (p1, ce), acc) := by
        simp [emitIntersect, hfuse]
      rw [hemit]
      refine ⟨?_, ?_, ?_, by simp, ?_⟩
      · simp only [Option.toList_some]
        simp only [Option.toList_some] at hchain
        exact canonicalFrom_extend_last 0 acc hchain (by omega)
      · intro r hr
        rcases List.mem_append.mp hr with hr | hr
        · exact hbound r (List.mem_append.mpr (Or.inl hr))
        · simp only [Option.toList_some, List.mem_singleton] at hr
          subst hr
          exact hce
      · intro q hq
        simp only [Option.some_inj] at hq
        rw [← hq]
      · intro v
        have hv : memR v (p1, ce) = (memR v (p1, p2) || memR v (cb, ce)) := by
          apply bool_eq_of_iff
          simp only [memR, Bool.or_eq_true, Bool.and_eq_true, decide_eq_true_eq]
          omega
        simp only [memO, hv]
        rw [← Bool.or_assoc]
    · have hp2lt : p2 < cb := by omega
      have hemit : emitIntersect cb ce (some (p1, p2)) acc
          = (some (cb, ce), acc ++ [(p1, p2)]) := by
        simp [emitIntersect, hfuse]
      rw [hemit]
      refine ⟨?_, ?_, ?_, by simp, ?_⟩
      · simp only [Option.toList_some]
        simp only [Option.toList_some] at hchain
        apply canonicalFrom_snoc 0 (acc ++ [(p1, p2)]) hchain ?_ hwin (by simp)
        rw [lastLastR_append_single]
        exact hp2lt
      · intro r hr
        simp only [Option.toList_some] at hr hbound
        rcases List.mem_append.mp hr with hr | hr
        · rcases List.mem_append.mp hr with hr | hr
          · exact hbound r (List.mem_append.mpr (Or.inl hr))
          · exact hbound r (List.mem_append.mpr (Or.inr hr))
        · simp only [List.mem_singleton] at hr
          subst hr
          exact hce
      · intro q hq
        simp only [Option.some_inj] at hq
        rw [← hq]
      · intro v
        simp only [memO, memRs, List.any_append, List.any_cons, List.any_nil]
        apply bool_eq_of_iff
        simp only [Bool.or_eq_true]
        tauto

theorem headD_mem_of_ne_nil (l : List RangePair) (h : l ≠ []) : l.headD (0, 0) ∈ l := by
  cases l with
  | nil => exact absurd rfl h
  | cons x t => simp

/-- Invariant of the outer loop of `intersect_ranges`: starting from any
state satisfying the loop invariant, the returned list is canonical, its
ends are bounded by `LAST`, and it denotes exactly the set already flushed
or pending together with the intersection of the remaining inputs. -/
theorem intersectLoopF_spec (LAST : Nat) :
    ∀ (fuel : Nat) (rem : List (List RangePair)) (cb0 ctf : Nat)
      (pending : Option RangePair) (acc : List RangePair),
      sumLens rem < fuel →
      (∀ l ∈ rem, l ≠ []) →
      (∀ l ∈ rem, ascRangesFrom 0 l = true) →
      (∀ l ∈ rem, ∀ r ∈ l, r.2 ≤ LAST) →
      ctf < rem.length →
      (∃ j, ∃ hj : j < rem.length, cb0 ≤ ((rem.get ⟨j, hj⟩).headD (0, 0)).1) →
      canonicalFrom 0 (acc ++ pending.toList) = true →
      (∀ r ∈ acc ++ pending.toList, r.2 ≤ LAST) →
      (pending = none → acc = []) →
      (∀ p, pending = some p →
        ∃ j, ∃ hj : j < rem.length, p.2 ≤ ((rem.get ⟨j, hj⟩).headD (0, 0)).1) →
      canonicalFrom 0 (intersectLoopF LAST fuel rem cb0 ctf pending acc) = true
      ∧ (∀ r ∈ intersectLoopF LAST fuel rem cb0 ctf pending acc, r.2 ≤ LAST)
      ∧ ∀ v, memRs v (intersectLoopF LAST fuel rem cb0 ctf pending acc)
          = (memRs v acc || memO v pending
             || decide (∀ l ∈ rem, memRs v l = true)) := by
  intro fuel
  induction fuel with
  | zero =>
    intro rem cb0 ctf pending acc hfuel
    exact absurd hfuel (Nat.not_lt_zero _)
  | succ fuel ih =>
    intro rem cb0 ctf pending acc hfuel hne hcanon hlast hctf hcb0 hchain hbound hpn hpend
    have hguard : rem.any List.isEmpty = false := by
      rw [List.any_eq_false]
      intro l hl
      simpa [List.isEmpty_iff] using hne l hl
    rw [intersectLoopF, hguard]
    simp only [Bool.false_eq_true, if_false]
    have hheadmem : ∀ l ∈ rem, l.headD (0, 0) ∈ rem.map (fun l => l.headD (0, 0)) :=
      fun l hl => List.mem_map.mpr ⟨l, hl, rfl⟩
    obtain ⟨hcb_ge0, hcb_geh⟩ :=
      windowScan_cb (rem.map (fun l => l.headD (0, 0))) 0 cb0 LAST ctf
    obtain ⟨hce_le, hce_leh⟩ :=
      windowScan_ce (rem.map (fun l => l.headD (0, 0))) 0 cb0 LAST ctf
    have hcbcases := windowScan_cb_cases (rem.map (fun l => l.headD (0, 0))) 0 cb0 LAST ctf
    have hkcases := windowScan_k (rem.map (fun l => l.headD (0, 0))) 0 cb0 LAST ctf
    generalize hs : windowScan (rem.map (fun l => l.headD (0, 0))) 0 cb0 LAST ctf = s
    rw [hs] at hcb_ge0 hcb_geh hce_le hce_leh hcbcases hkcases
    have hget_congr : ∀ (i1 i2 : Nat) (h1 : i1 < rem.length) (h2 : i2 < rem.length),
        i1 = i2 → rem.get ⟨i1, h1⟩ = rem.get ⟨i2, h2⟩ := by
      intro i1 i2 h1 h2 h
      subst h
      rfl
    -- the advanced input exists and its current range ends at the window end
    have hk : ∃ hkn : s.2.2 < rem.length,
        ((rem.get ⟨s.2.2, hkn⟩).headD (0, 0)).2 = s.2.1 := by
      rcases hkcases with h | ⟨j, hj, h1, h2⟩
      · have hk1 : s.2.2 = ctf := by rw [h]
        have hce1 : s.2.1 = LAST := by rw [h]
        have hkn : s.2.2 < rem.length := by omega
        refine ⟨hkn, ?_⟩
        have hmm := hheadmem (rem.get ⟨s.2.2, hkn⟩) (List.get_mem rem s.2.2 hkn)
        have h1 := hce_leh _ hmm
        have h2 := hlast (rem.get ⟨s.2.2, hkn⟩) (List.get_mem rem s.2.2 hkn) _
          (headD_mem_of_ne_nil _ (hne _ (List.get_mem rem s.2.2 hkn)))
        omega
      · have hj' : j < rem.length := by simpa using hj
        have hkn : s.2.2 < rem.length := by omega
        refine ⟨hkn, ?_⟩
        rw [hget_congr s.2.2 j hkn hj' (by omega)]
        have hmap : (rem.map (fun l => l.headD (0, 0))).get ⟨j, hj⟩
            = (rem.get ⟨j, hj'⟩).headD (0, 0) := by
          simp [List.get_eq_getElem]
        rw [hmap] at h2
        exact h2
    obtain ⟨hkn, hkend⟩ := hk
    obtain ⟨hd, tl, hlk⟩ :=
      List.exists_cons_of_ne_nil (hne _ (List.get_mem rem s.2.2 hkn))
    obtain ⟨hd1, hd2⟩ := hd
    have hheadk : (rem.get ⟨s.2.2, hkn⟩).headD (0, 0) = (hd1, hd2) := by
      rw [hlk]
      rfl
    have hdend : hd2 = s.2.1 := by
      rw [hheadk] at hkend
      exact hkend
    have hasck : ascRangesFrom 0 ((hd1, hd2) :: tl) = true := by
      rw [← hlk]
      exact hcanon _ (List.get_mem rem s.2.2 hkn)
    have hd12 : hd1 < hd2 := by
      simp only [ascRangesFrom, Bool.and_eq_true, decide_eq_true_eq] at hasck
      exact hasck.1.2
    -- the window is contained in every remaining input
    have hwin_sub : ∀ v, memR v (s.1, s.2.1) = true → ∀ l ∈ rem, memRs v l = true := by
      intro v hv l hl
      obtain ⟨h0, t0, hl0⟩ := List.exists_cons_of_ne_nil (hne l hl)
      simp only [memR, Bool.and_eq_true, decide_eq_true_eq] at hv
      have h1 := hcb_geh (l.headD (0, 0)) (hheadmem l hl)
      have h2 := hce_leh (l.headD (0, 0)) (hheadmem l hl)
      subst hl0
      simp only [List.headD_cons] at h1 h2
      obtain ⟨h01, h02⟩ := h0
      simp only [memRs, List.any_cons, Bool.or_eq_true]
      left
      simp only [memR, Bool.and_eq_true, decide_eq_true_eq]
      constructor <;> omega
    -- a common value below the window end lies in the window
    have hall_head : ∀ v, (∀ l ∈ rem, memRs v l = true) → v < s.2.1 →
        memR v (s.1, s.2.1) = true := by
      intro v hv hvce
      have hvfirst : ∀ l ∈ rem, (l.headD (0, 0)).1 ≤ v := by
        intro l hl
        obtain ⟨h0, t0, hl0⟩ := List.exists_cons_of_ne_nil (hne l hl)
        have h2 := hce_leh (l.headD (0, 0)) (hheadmem l hl)
        have hv0 := hv l hl
        have hca := hcanon l hl
        subst hl0
        simp only [List.headD_cons] at h2 ⊢
        obtain ⟨h01, h02⟩ := h0
        have hmem := ascRangesFrom_mem_head hca hv0 (by omega)
        simp only [memR, Bool.and_eq_true, decide_eq_true_eq] at hmem
        exact hmem.1
      have hs1v : s.1 ≤ v := by
        rcases hcbcases with h | ⟨h, hh, heq⟩
        · obtain ⟨j, hj, hcb⟩ := hcb0
          have := hvfirst (rem.get ⟨j, hj⟩) (List.get_mem rem j hj)
          omega
        · obtain ⟨l, hl, hlh⟩ := List.mem_map.mp hh
          have := hvfirst l hl
          rw [heq, ← hlh]
          exact this
      simp only [memR, Bool.and_eq_true, decide_eq_true_eq]
      exact ⟨hs1v, hvce⟩
    have hple : ∀ p, pending = some p → p.2 ≤ s.1 := by
      intro p hp
      obtain ⟨j, hj, hple'⟩ := hpend p hp
      have := hcb_geh ((rem.get ⟨j, hj⟩).headD (0, 0))
        (hheadmem _ (List.get_mem rem j hj))
      omega
    generalize hpa :
      (if s.1 < s.2.1 then emitIntersect s.1 s.2.1 pending acc else (pending, acc)) = pa
    have hpaf : canonicalFrom 0 (pa.2 ++ pa.1.toList) = true
        ∧ (∀ r ∈ pa.2 ++ pa.1.toList, r.2 ≤ LAST)
        ∧ (pa.1 = none → pa.2 = [])
        ∧ (∀ p, pa.1 = some p → p.2 = s.2.1 ∨ pending = some p)
        ∧ ∀ v, (memRs v pa.2 || memO v pa.1)
            = (memRs v acc || memO v pending || memR v (s.1, s.2.1)) := by
      rw [← hpa]
      by_cases hwin : s.1 < s.2.1
      · rw [if_pos hwin]
        obtain ⟨e1, e2, e3, e4, e5⟩ :=
          emitIntersect_spec LAST s.1 s.2.1 pending acc hwin hce_le hchain hbound hpn hple
        exact ⟨e1, e2, fun h => absurd h e4, fun p hp => Or.inl (e3 p hp), e5⟩
      · rw [if_neg hwin]
        refine ⟨hchain, hbound, hpn, fun p hp => Or.inr hp, ?_⟩
        intro v
        have hw : memR v (s.1, s.2.1) = false := by
          simp only [memR, Bool.and_eq_false_iff, decide_eq_false_iff_not]
          omega
        rw [hw, Bool.or_false]
    have hgetset_eq : (rem.set s.2.2 tl).get ⟨s.2.2, by simpa using hkn⟩ = tl := by
      simp [List.get_eq_getElem]
    have hgetset_ne : ∀ (j : Nat) (hj : j < rem.length), j ≠ s.2.2 →
        (rem.set s.2.2 tl).get ⟨j, by simpa using hj⟩ = rem.get ⟨j, hj⟩ := by
      intro j hj hne'
      simp [List.get_eq_getElem, List.getElem_set_ne (fun h => hne' h.symm)]
    have htlhead : tl ≠ [] → hd2 ≤ (tl.headD (0, 0)).1 := by
      intro htl
      obtain ⟨th, tt, htl'⟩ := List.exists_cons_of_ne_nil htl
      subst htl'
      simp only [List.headD_cons]
      exact ascRangesFrom_first_le hasck th (List.mem_cons_self _ _)
    have hremget : (rem.get? s.2.2).getD [] = (hd1, hd2) :: tl := by
      rw [List.get?_eq_get hkn, Option.getD_some, hlk]
    cases hrem : (rem.get? s.2.2).getD [] with
    | nil =>
      rw [hremget] at hrem
      exact absurd hrem (by simp)
    | cons hd' t =>
      rw [hremget] at hrem
      injection hrem with hrem1 hrem2
      subst hrem2
      by_cases ht : tl.isEmpty = true
      · -- the advanced iterator reached its end: flush and break
        have htl : tl = [] := List.isEmpty_iff.mp ht
        subst htl
        simp only [ht, if_true]
        refine ⟨hpaf.1, hpaf.2.1, ?_⟩
        intro v
        rw [mem_append_toList, hpaf.2.2.2.2 v]
        have hWR : memR v (s.1, s.2.1) = decide (∀ l ∈ rem, memRs v l = true) := by
          apply bool_eq_of_iff
          simp only [decide_eq_true_eq]
          constructor
          · exact hwin_sub v
          · intro hv
            have hvk := hv _ (List.get_mem rem s.2.2 hkn)
            rw [hlk] at hvk
            simp only [memRs, List.any_cons, List.any_nil, Bool.or_false] at hvk
            have hvlt : v < s.2.1 := by
              simp only [memR, Bool.and_eq_true, decide_eq_true_eq] at hvk
              omega
            exact hall_head v hv hvlt
        rw [hWR]
      · -- advance the chosen iterator and continue
        simp only [ht, Bool.false_eq_true, if_false]
        have htl : tl ≠ [] := fun h => by simp [h] at ht
        have hfuel' : sumLens (rem.set s.2.2 tl) < fuel := by
          have := sumLens_set rem s.2.2 hkn (hd1, hd2) tl hlk
          omega
        have hne' : ∀ l ∈ rem.set s.2.2 tl, l ≠ [] := by
          intro l hl
          rcases mem_set_cases _ _ _ _ hl with h | h
          · rw [h]; exact htl
          · exact hne l h
        have hcanon' : ∀ l ∈ rem.set s.2.2 tl, ascRangesFrom 0 l = true := by
          intro l hl
          rcases mem_set_cases _ _ _ _ hl with h | h
          · rw [h]
            simp only [ascRangesFrom, Bool.and_eq_true, decide_eq_true_eq] at hasck
            exact ascRangesFrom_mono hasck.2 (Nat.zero_le hd2)
          · exact hcanon l h
        have hlast' : ∀ l ∈ rem.set s.2.2 tl, ∀ r ∈ l, r.2 ≤ LAST := by
          intro l hl
          rcases mem_set_cases _ _ _ _ hl with h | h
          · intro r hr
            rw [h] at hr
            exact hlast _ (List.get_mem rem s.2.2 hkn) r (by rw [hlk]; exact List.mem_cons_of_mem _ hr)
          · exact hlast l h
        have hctf' : s.2.2 < (rem.set s.2.2 tl).length := by simpa using hkn
        have hcb0' : ∃ j, ∃ hj : j < (rem.set s.2.2 tl).length,
            s.1 ≤ (((rem.set s.2.2 tl).get ⟨j, hj⟩).headD (0, 0)).1 := by
          rcases hcbcases with h | ⟨hh, hhm, heq⟩
          · obtain ⟨j, hj, hcb⟩ := hcb0
            by_cases hjk : j = s.2.2
            · refine ⟨s.2.2, by simpa using hkn, ?_⟩
              rw [hgetset_eq]
              subst hjk
              rw [hheadk] at hcb
              have := htlhead htl
              simp only at hcb
              omega
            · refine ⟨j, by simpa using hj, ?_⟩
              rw [hgetset_ne j hj hjk]
              omega
          · obtain ⟨l, hl, hlh⟩ := List.mem_map.mp hhm
            obtain ⟨⟨j, hj⟩, hlj⟩ := List.mem_iff_get.mp hl
            by_cases hjk : j = s.2.2
            · refine ⟨s.2.2, by simpa using hkn, ?_⟩
              rw [hgetset_eq]
              have hlh2 : l.headD (0, 0) = hh := hlh
              have ha : s.1 = hd1 := by
                rw [heq, ← hlh2, ← hlj, hget_congr j s.2.2 hj hkn hjk, hheadk]
              have hb := htlhead htl
              omega
            · refine ⟨j, by simpa using hj, ?_⟩
              have hlh2 : l.headD (0, 0) = hh := hlh
              rw [hgetset_ne j hj hjk, hlj, hlh2]
              omega
        have hpend' : ∀ p, pa.1 = some p →
            ∃ j, ∃ hj : j < (rem.set s.2.2 tl).length,
              p.2 ≤ (((rem.set s.2.2 tl).get ⟨j, hj⟩).headD (0, 0)).1 := by
          intro p hp
          rcases hpaf.2.2.2.1 p hp with hend | hold
          · refine ⟨s.2.2, by simpa using hkn, ?_⟩
            rw [hgetset_eq]
            have := htlhead htl
            omega
          · obtain ⟨j, hj, hple'⟩ := hpend p hold
            by_cases hjk : j = s.2.2
            · refine ⟨s.2.2, by simpa using hkn, ?_⟩
              rw [hgetset_eq]
              subst hjk
              rw [hheadk] at hple'
              have := htlhead htl
              simp only at hple'
              omega
            · refine ⟨j, by simpa using hj, ?_⟩
              rw [hgetset_ne j hj hjk]
              exact hple'
        obtain ⟨i1, i2, i3⟩ := ih (rem.set s.2.2 tl) s.1 s.2.2 pa.1 pa.2 hfuel'
          hne' hcanon' hlast' hctf' hcb0' hpaf.1 hpaf.2.1 hpaf.2.2.1 hpend'
        refine ⟨i1, i2, ?_⟩
        intro v
        rw [i3 v]
        have hunit := hpaf.2.2.2.2 v
        rw [hunit]
        apply bool_eq_of_iff
        simp only [Bool.or_eq_true, decide_eq_true_eq]
        have hWtoR := hwin_sub v
        have hRtoWR' : (∀ l ∈ rem, memRs v l = true) →
            (memR v (s.1, s.2.1) = true ∨ ∀ l ∈ rem.set s.2.2 tl, memRs v l = true) := by
          intro hv
          have hvk := hv _ (List.get_mem rem s.2.2 hkn)
          rw [hlk] at hvk
          simp only [memRs, List.any_cons, Bool.or_eq_true] at hvk
          rcases hvk with hvk | hvk
          · left
            have hvlt : v < s.2.1 := by
              simp only [memR, Bool.and_eq_true, decide_eq_true_eq] at hvk
              omega
            exact hall_head v hv hvlt
          · right
            intro l hl
            rcases mem_set_cases _ _ _ _ hl with h | h
            · rw [h]
              exact hvk
            · exact hv l h
        have hR'toR : (∀ l ∈ rem.set s.2.2 tl, memRs v l = true) →
            ∀ l ∈ rem, memRs v l = true := by
          intro hv l hl
          rcases mem_set_or rem s.2.2 tl l hkn hl with h | h
          · exact hv l h
          · have htlmem : tl ∈ rem.set s.2.2 tl := by
              have hg := List.get_mem (rem.set s.2.2 tl) s.2.2 (by simpa using hkn)
              rw [hgetset_eq] at hg
              exact hg
            have hvtl := hv tl htlmem
            rw [h, hlk]
            simp only [memRs, List.any_cons, Bool.or_eq_true]
            right
            exact hvtl
        constructor
        · rintro (((h | h) | h) | h)
          · exact Or.inl (Or.inl h)
          · exact Or.inl (Or.inr h)
          · exact Or.inr (hWtoR h)
          · exact Or.inr (hR'toR h)
        · rintro ((h | h) | h)
          · exact Or.inl (Or.inl (Or.inl h))
          · exact Or.inl (Or.inl (Or.inr h))
          · rcases hRtoWR' h with h' | h'
            · exact Or.inl (Or.inr h')
            · exact Or.inr h'

theorem intersect_ranges_master (LAST : Nat) (ranges : List (List RangePair))
    (hcanon : ∀ l ∈ ranges, canonicalFrom 0 l = true)
    (hlast : ∀ l ∈ ranges, ∀ r ∈ l, r.2 ≤ LAST) :
    canonicalFrom 0 (intersect_ranges LAST ranges) = true
    ∧ (∀ r ∈ intersect_ranges LAST ranges, r.2 ≤ LAST)
    ∧ (ranges ≠ [] → ∀ v, memRs v (intersect_ranges LAST ranges)
        = decide (∀ l ∈ ranges, memRs v l = true)) := by
  rw [intersect_ranges]
  by_cases h0 : ranges.isEmpty
  · rw [if_pos h0]
    have : ranges = [] := List.isEmpty_iff.mp h0
    exact ⟨by trivial, by simp, fun h => absurd this h⟩
  · rw [if_neg h0]
    by_cases h1 : ranges.length = 1
    · rw [if_pos h1]
      obtain ⟨l0, hl0⟩ := List.length_eq_one.mp h1
      subst hl0
      simp only [List.headD_cons]
      refine ⟨hcanon l0 (by simp), fun r hr => hlast l0 (by simp) r hr, ?_⟩
      intro _ v
      apply bool_eq_of_iff
      simp only [decide_eq_true_eq, List.mem_singleton]
      constructor
      · intro hv l hl
        rw [hl]
        exact hv
      · intro hv
        exact hv l0 rfl
    · rw [if_neg h1]
      by_cases h2 : ranges.any List.isEmpty
      · rw [if_pos h2]
        refine ⟨by trivial, by simp, ?_⟩
        intro _ v
        simp only [List.any_eq_true] at h2
        obtain ⟨l, hl, hle⟩ := h2
        have hl0 : l = [] := List.isEmpty_iff.mp hle
        apply bool_eq_of_iff
        simp only [memRs, List.any_nil, decide_eq_true_eq]
        constructor
        · intro h
          exact absurd h (by simp)
        · intro hv
          have := hv l hl
          rw [hl0] at this
          simp [memRs] at this
      · rw [if_neg h2]
        have hne : ∀ l ∈ ranges, l ≠ [] := by
          intro l hl hle
          exact h2 (List.any_eq_true.mpr ⟨l, hl, by rw [hle]; rfl⟩)
        have hlen : 0 < ranges.length := by
          cases ranges with
          | nil => simp at h0
          | cons a t => simp
        obtain ⟨i1, i2, i3⟩ := intersectLoopF_spec LAST (sumLens ranges + 1) ranges 0 0
          none []
          (Nat.lt_succ_self _) hne
          (fun l hl => ascRangesFrom_of_canonicalFrom (hcanon l hl))
          hlast hlen
          ⟨0, hlen, Nat.zero_le _⟩
          (by trivial) (by simp) (fun _ => rfl) (fun p hp => by simp at hp)
        refine ⟨i1, i2, ?_⟩
        intro _ v
        rw [i3 v]
        simp [memRs, memO]

/-- C1: for every non-empty collection of inputs that each satisfy the
merger preconditions (strictly ascending, non-overlapping, non-touching
ranges with endpoints representable below the sentinel), `intersect_ranges`
returns an output containing exactly the values present in every input. -/
theorem intersect_ranges_correct (LAST : Nat) (ranges : List (List RangePair))
    (hne : ranges ≠ [])
    (hcanon : ∀ l ∈ ranges, canonicalFrom 0 l = true)
    (hlast : ∀ l ∈ ranges, ∀ r ∈ l, r.2 ≤ LAST) :
    ∀ v, memRs v (intersect_ranges LAST ranges) = true
      ↔ ∀ l ∈ ranges, memRs v l = true := by
  intro v
  obtain ⟨_, _, i3⟩ := intersect_ranges_master LAST ranges hcanon hlast
  rw [i3 hne v]
  simp

theorem intersect_ranges_correct_witness :
    ([[(1, 5), (10, 20)], [(3, 12)]] : List (List RangePair)) ≠ []
    ∧ (memRs 4 (intersect_ranges 255 [[(1, 5), (10, 20)], [(3, 12)]]) = true
        ↔ ∀ l ∈ ([[(1, 5), (10, 20)], [(3, 12)]] : List (List RangePair)),
            memRs 4 l = true) :=
  ⟨by decide,
   intersect_ranges_correct 255 [[(1, 5), (10, 20)], [(3, 12)]]
     (by decide) (by decide) (by decide) 4⟩

/-- Effect of the union emission step: the pending range absorbs a window
that overlaps or touches it and is flushed before a disjoint one; the
chain stays canonical and bounded and denotes the union of the previous
state with the window. -/
theorem emitUnite_spec (LAST cb ce : Nat) (pending : Option RangePair)
    (acc : List RangePair)
    (hwin : cb < ce) (hce : ce < LAST)
    (hchain : canonicalFrom 0 (acc ++ pending.toList) = true)
    (hbound : ∀ r ∈ acc ++ pending.toList, r.2 < LAST)
    (hpn : pending = none → acc = [])
    (hp1 : ∀ p, pending = some p → p.1 ≤ cb) :
    canonicalFrom 0 ((emitUnite cb ce pending acc).2
      ++ (emitUnite cb ce pending acc).1.toList) = true
    ∧ (∀ r ∈ (emitUnite cb ce pending acc).2
        ++ (emitUnite cb ce pending acc).1.toList, r.2 < LAST)
    ∧ (emitUnite cb ce pending acc).1 ≠ none
    ∧ (∀ q, (emitUnite cb ce pending acc).1 = some q → q.1 ≤ cb)
    ∧ ∀ v, (memRs v (emitUnite cb ce pending acc).2
        || memO v (emitUnite cb ce pending acc).1)
      = (memRs v acc || memO v pending || memR v (cb, ce)) := by
  cases pending with
  | none =>
    have hacc : acc = [] := hpn rfl
    subst hacc
    refine ⟨?_, ?_, by simp [emitUnite], ?_, ?_⟩
    · simp only [emitUnite, List.nil_append, Option.toList_some, canonicalFrom,
        Bool.and_eq_true, decide_eq_true_eq]
      exact ⟨⟨Nat.zero_le cb, hwin⟩, trivial⟩
    · intro r hr
      simp only [emitUnite, List.nil_append, Option.toList_some, List.mem_singleton] at hr
      subst hr
      exact hce
    · intro q hq
      simp only [emitUnite, Option.some_inj] at hq
      rw [← hq]
    · intro v
      simp [emitUnite, memRs, memO]
  | some p =>
    obtain ⟨p1, p2⟩ := p
    have hp12 : p1 < p2 :=
      canonicalFrom_mem_lt hchain (p1, p2) (by simp)
    have hp1cb : p1 ≤ cb := by simpa using hp1 (p1, p2) rfl
    by_cases hmerge : p2 ≥ cb
    · have hemit : emitUnite cb ce (some (p1, p2)) acc
          = (some (p1, if p2 < ce then ce else p2), acc) := by
        simp [emitUnite, hmerge]
      have hp2b : p2 < LAST := by
        simpa using hbound (p1, p2) (List.mem_append.mpr (Or.inr (by simp)))
      rw [hemit]
      refine ⟨?_, ?_, by simp, ?_, ?_⟩
      · simp only [Option.toList_some]
        simp only [Option.toList_some] at hchain
        exact canonicalFrom_extend_last 0 acc hchain (by split <;> omega)
      · intro r hr
        rcases List.mem_append.mp hr with hr | hr
        · exact hbound r (List.mem_append.mpr (Or.inl hr))
        · simp only [Option.toList_some, List.mem_singleton] at hr
          subst hr
          simp only
          split <;> omega
      · intro q hq
        simp only [Option.some_inj] at hq
        rw [← hq]
        exact hp1cb
      · intro v
        have hv : memR v (p1, if p2 < ce then ce else p2)
            = (memR v (p1, p2) || memR v (cb, ce)) := by
          apply bool_eq_of_iff
          by_cases hpe : p2 < ce
          · rw [if_pos hpe]
            simp only [memR, Bool.or_eq_true, Bool.and_eq_true, decide_eq_true_eq]
            omega
          · rw [if_neg hpe]
            simp only [memR, Bool.or_eq_true, Bool.and_eq_true, decide_eq_true_eq]
            omega
        simp only [memO, hv]
        rw [← Bool.or_assoc]
    · have hp2lt : p2 < cb := by omega
      have hemit : emitUnite cb ce (some (p1, p2)) acc
          = (some (cb, ce), acc ++ [(p1, p2)]) := by
        simp [emitUnite, hmerge]
      rw [hemit]
      refine ⟨?_, ?_, by simp, ?_, ?_⟩
      · simp only [Option.toList_some]
        simp only [Option.toList_some] at hchain
        apply canonicalFrom_snoc 0 (acc ++ [(p1, p2)]) hchain ?_ hwin (by simp)
        rw [lastLastR_append_single]
        exact hp2lt
      · intro r hr
        simp only [Option.toList_some] at hr hbound
        rcases List.mem_append.mp hr with hr | hr
        · rcases List.mem_append.mp hr with hr | hr
          · exact hbound r (List.mem_append.mpr (Or.inl hr))
          · exact hbound r (List.mem_append.mpr (Or.inr hr))
        · simp only [List.mem_singleton] at hr
          subst hr
          exact hce
      · intro q hq
        simp only [Option.some_inj] at hq
        rw [← hq]
      · intro v
        simp only [memO, memRs, List.any_append, List.any_cons, List.any_nil]
        apply bool_eq_of_iff
        simp only [Bool.or_eq_true]
        tauto

theorem uniteScan_all_nil : ∀ (rem : List (List RangePair)) (i cb ce k : Nat),
    (∀ l ∈ rem, l = []) → uniteScan rem i cb ce k = (cb, ce, k) := by
  intro rem
  induction rem with
  | nil =>
    intro i cb ce k _
    rfl
  | cons l rest ih =>
    intro i cb ce k h
    have hl : l = [] := h l (by simp)
    subst hl
    simp only [uniteScan]
    exact ih (i + 1) cb ce k (fun l hl => h l (List.mem_cons_of_mem _ hl))

theorem uniteScan_min (rem : List (List RangePair)) : ∀ (i cb ce k : Nat),
    (uniteScan rem i cb ce k).1 ≤ cb
    ∧ ∀ l ∈ rem, ∀ b e rest, l = (b, e) :: rest → (uniteScan rem i cb ce k).1 ≤ b := by
  induction rem with
  | nil =>
    intro i cb ce k
    exact ⟨Nat.le_refl _, by simp⟩
  | cons l rest ih =>
    intro i cb ce k
    cases l with
    | nil =>
      simp only [uniteScan]
      refine ⟨(ih (i + 1) cb ce k).1, ?_⟩
      intro l hl b e rest' hl'
      rcases List.mem_cons.mp hl with hl | hl
      · rw [hl] at hl'
        exact absurd hl'.symm (by simp)
      · exact (ih (i + 1) cb ce k).2 l hl b e rest' hl'
    | cons hd tail =>
      obtain ⟨b0, e0⟩ := hd
      simp only [uniteScan]
      by_cases hlt : b0 < cb
      · rw [if_pos hlt]
        refine ⟨Nat.le_trans (ih (i + 1) b0 e0 i).1 (by omega), ?_⟩
        intro l hl b e rest' hl'
        rcases List.mem_cons.mp hl with hl | hl
        · rw [hl] at hl'
          injection hl' with h1 h2
          injection h1 with hb he
          rw [← hb]
          exact (ih (i + 1) b0 e0 i).1
        · exact (ih (i + 1) b0 e0 i).2 l hl b e rest' hl'
      · rw [if_neg hlt]
        refine ⟨(ih (i + 1) cb ce k).1, ?_⟩
        intro l hl b e rest' hl'
        rcases List.mem_cons.mp hl with hl | hl
        · rw [hl] at hl'
          injection hl' with h1 h2
          injection h1 with hb he
          rw [← hb]
          exact Nat.le_trans (ih (i + 1) cb ce k).1 (by omega)
        · exact (ih (i + 1) cb ce k).2 l hl b e rest' hl'

theorem uniteScan_cases (rem : List (List RangePair)) : ∀ (i cb ce k : Nat),
    uniteScan rem i cb ce k = (cb, ce, k)
    ∨ ∃ j, ∃ hj : j < rem.length, (uniteScan rem i cb ce k).2.2 = i + j
        ∧ ∃ rest, rem.get ⟨j, hj⟩
            = ((uniteScan rem i cb ce k).1, (uniteScan rem i cb ce k).2.1) :: rest := by
  induction rem with
  | nil =>
    intro i cb ce k
    exact Or.inl rfl
  | cons l rest ih =>
    intro i cb ce k
    cases l with
    | nil =>
      simp only [uniteScan]
      rcases ih (i + 1) cb ce k with h | ⟨j, hj, h1, rest', h2⟩
      · exact Or.inl h
      · refine Or.inr ⟨j + 1, by simpa using hj, by omega, rest', ?_⟩
        simpa using h2
    | cons hd tail =>
      obtain ⟨b0, e0⟩ := hd
      simp only [uniteScan]
      by_cases hlt : b0 < cb
      · rw [if_pos hlt]
        rcases ih (i + 1) b0 e0 i with h | ⟨j, hj, h1, rest', h2⟩
        · refine Or.inr ⟨0, by simp, ?_, tail, ?_⟩
          · simp [h]
          · simp [h]
        · refine Or.inr ⟨j + 1, by simpa using hj, by omega, rest', ?_⟩
          simpa using h2
      · rw [if_neg hlt]
        rcases ih (i + 1) cb ce k with h | ⟨j, hj, h1, rest', h2⟩
        · exact Or.inl h
        · refine Or.inr ⟨j + 1, by simpa using hj, by omega, rest', ?_⟩
          simpa using h2

/-- Invariant of the outer loop of `unite_ranges`: starting from any state
satisfying the loop invariant (ascending inputs whose ranges all end below
the sentinel `LAST`), the returned list is canonical, its ends stay below
`LAST`, and it denotes exactly the set already flushed or pending together
with the union of the remaining inputs. -/
theorem uniteLoopF_spec (LAST : Nat) :
    ∀ (fuel : Nat) (rem : List (List RangePair)) (pending : Option RangePair)
      (acc : List RangePair),
      sumLens rem < fuel →
      (∀ l ∈ rem, ascRangesFrom 0 l = true) →
      (∀ l ∈ rem, ∀ r ∈ l, r.2 < LAST) →
      canonicalFrom 0 (acc ++ pending.toList) = true →
      (∀ r ∈ acc ++ pending.toList, r.2 < LAST) →
      (pending = none → acc = []) →
      (∀ p, pending = some p → ∀ l ∈ rem, ∀ r ∈ l, p.1 ≤ r.1) →
      canonicalFrom 0 (uniteLoopF LAST fuel rem pending acc) = true
      ∧ (∀ r ∈ uniteLoopF LAST fuel rem pending acc, r.2 < LAST)
      ∧ ∀ v, memRs v (uniteLoopF LAST fuel rem pending acc)
          = (memRs v acc || memO v pending || rem.any (fun l => memRs v l)) := by
  intro fuel
  induction fuel with
  | zero =>
    intro rem pending acc hfuel
    exact absurd hfuel (Nat.not_lt_zero _)
  | succ fuel ih =>
    intro rem pending acc hfuel hasc hend hchain hbound hpn hp1
    have hmin := uniteScan_min rem 0 LAST LAST 0
    have hcases := uniteScan_cases rem 0 LAST LAST 0
    rw [uniteLoopF]
    generalize hs : uniteScan rem 0 LAST LAST 0 = s
    rw [hs] at hmin hcases
    by_cases hterm : s.2.1 = LAST
    · rw [if_pos hterm]
      have hallnil : ∀ l ∈ rem, l = [] := by
        intro l hl
        cases hl0 : l with
        | nil => rfl
        | cons hd t =>
          obtain ⟨b0, e0⟩ := hd
          exfalso
          have hb := hmin.2 l hl b0 e0 t hl0
          have hbe : b0 < e0 := by
            have ha := hasc l hl
            rw [hl0] at ha
            simp only [ascRangesFrom, Bool.and_eq_true, decide_eq_true_eq] at ha
            exact ha.1.2
          have he0 : e0 < LAST := hend l hl (b0, e0) (by rw [hl0]; simp)
          rcases hcases with h | ⟨j, hj, h1, rest', h2⟩
          · have hs1 : s.1 = LAST := by rw [h]
            omega
          · have hende := hend (rem.get ⟨j, hj⟩) (List.get_mem rem j hj) (s.1, s.2.1)
              (by rw [h2]; simp)
            simp only at hende
            omega
      refine ⟨hchain, hbound, ?_⟩
      intro v
      rw [mem_append_toList]
      have hno : rem.any (fun l => memRs v l) = false := by
        rw [List.any_eq_false]
        intro l hl
        rw [hallnil l hl]
        simp [memRs]
      rw [hno, Bool.or_false]
    · rw [if_neg hterm]
      have hget_congr : ∀ (i1 i2 : Nat) (h1 : i1 < rem.length) (h2 : i2 < rem.length),
          i1 = i2 → rem.get ⟨i1, h1⟩ = rem.get ⟨i2, h2⟩ := by
        intro i1 i2 h1 h2 h
        subst h
        rfl
      have hk : ∃ hkn : s.2.2 < rem.length, ∃ tail,
          rem.get ⟨s.2.2, hkn⟩ = (s.1, s.2.1) :: tail := by
        rcases hcases with h | ⟨j, hj, h1, rest', h2⟩
        · exact absurd (by rw [h]) hterm
        · have hkn : s.2.2 < rem.length := by omega
          exact ⟨hkn, rest', by rw [hget_congr s.2.2 j hkn hj (by omega)]; exact h2⟩
      obtain ⟨hkn, tail, hlk⟩ := hk
      have hasck : ascRangesFrom 0 ((s.1, s.2.1) :: tail) = true := by
        rw [← hlk]
        exact hasc _ (List.get_mem rem s.2.2 hkn)
      have hwin : s.1 < s.2.1 := by
        simp only [ascRangesFrom, Bool.and_eq_true, decide_eq_true_eq] at hasck
        exact hasck.1.2
      have hceL : s.2.1 < LAST :=
        hend _ (List.get_mem rem s.2.2 hkn) (s.1, s.2.1) (by rw [hlk]; simp)
      rw [if_pos hwin]
      have hp1emit : ∀ p, pending = some p → p.1 ≤ s.1 := by
        intro p hp
        have := hp1 p hp (rem.get ⟨s.2.2, hkn⟩) (List.get_mem rem s.2.2 hkn)
          (s.1, s.2.1) (by rw [hlk]; simp)
        simpa using this
      generalize hpa : emitUnite s.1 s.2.1 pending acc = pa
      have hpaf := emitUnite_spec LAST s.1 s.2.1 pending acc hwin hceL
        hchain hbound hpn hp1emit
      rw [hpa] at hpaf
      obtain ⟨e1, e2, e3, e4, e5⟩ := hpaf
      have hremget : (rem.get? s.2.2).getD [] = (s.1, s.2.1) :: tail := by
        rw [List.get?_eq_get hkn, Option.getD_some, hlk]
      rw [hremget]
      show canonicalFrom 0 (uniteLoopF LAST fuel (rem.set s.2.2 tail) pa.1 pa.2) = true
        ∧ (∀ r ∈ uniteLoopF LAST fuel (rem.set s.2.2 tail) pa.1 pa.2, r.2 < LAST)
        ∧ ∀ v, memRs v (uniteLoopF LAST fuel (rem.set s.2.2 tail) pa.1 pa.2)
            = (memRs v acc || memO v pending || rem.any (fun l => memRs v l))
      have hgetset_eq : (rem.set s.2.2 tail).get ⟨s.2.2, by simpa using hkn⟩ = tail := by
        simp [List.get_eq_getElem]
      have hminfirst : ∀ l ∈ rem, ∀ r ∈ l, s.1 ≤ r.1 := by
        intro l hl r hr
        cases l with
        | nil => simp at hr
        | cons hd t =>
          obtain ⟨b0, e0⟩ := hd
          have hb := hmin.2 _ hl b0 e0 t rfl
          rcases List.mem_cons.mp hr with hr | hr
          · rw [hr]
            simpa using hb
          · have h1 := ascRangesFrom_first_le (hasc _ hl) r hr
            have hbe : b0 < e0 := by
              have ha := hasc _ hl
              simp only [ascRangesFrom, Bool.and_eq_true, decide_eq_true_eq] at ha
              exact ha.1.2
            omega
      have hfuel' : sumLens (rem.set s.2.2 tail) < fuel := by
        have := sumLens_set rem s.2.2 hkn (s.1, s.2.1) tail hlk
        omega
      have hasc' : ∀ l ∈ rem.set s.2.2 tail, ascRangesFrom 0 l = true := by
        intro l hl
        rcases mem_set_cases _ _ _ _ hl with h | h
        · rw [h]
          simp only [ascRangesFrom, Bool.and_eq_true, decide_eq_true_eq] at hasck
          exact ascRangesFrom_mono hasck.2 (Nat.zero_le _)
        · exact hasc l h
      have hend' : ∀ l ∈ rem.set s.2.2 tail, ∀ r ∈ l, r.2 < LAST := by
        intro l hl
        rcases mem_set_cases _ _ _ _ hl with h | h
        · intro r hr
          rw [h] at hr
          exact hend _ (List.get_mem rem s.2.2 hkn) r
            (by rw [hlk]; exact List.mem_cons_of_mem _ hr)
        · exact hend l h
      have hp1' : ∀ q, pa.1 = some q → ∀ l ∈ rem.set s.2.2 tail, ∀ r ∈ l, q.1 ≤ r.1 := by
        intro q hq l hl r hr
        have hq1 : q.1 ≤ s.1 := e4 q hq
        rcases mem_set_cases _ _ _ _ hl with h | h
        · have hrk : r ∈ rem.get ⟨s.2.2, hkn⟩ := by
            rw [hlk]
            exact List.mem_cons_of_mem _ (by rw [← h]; exact hr)
          have := hminfirst _ (List.get_mem rem s.2.2 hkn) r hrk
          omega
        · have := hminfirst l h r hr
          omega
      obtain ⟨i1, i2, i3⟩ := ih (rem.set s.2.2 tail) pa.1 pa.2 hfuel'
        hasc' hend' e1 e2 (fun h => absurd h e3) hp1'
      refine ⟨i1, i2, ?_⟩
      intro v
      rw [i3 v, e5 v]
      apply bool_eq_of_iff
      simp only [Bool.or_eq_true, List.any_eq_true]
      constructor
      · rintro (((h | h) | h) | h)
        · exact Or.inl (Or.inl h)
        · exact Or.inl (Or.inr h)
        · refine Or.inr ⟨rem.get ⟨s.2.2, hkn⟩, List.get_mem rem s.2.2 hkn, ?_⟩
          rw [hlk]
          simp only [memRs, List.any_cons, Bool.or_eq_true]
          exact Or.inl h
        · obtain ⟨l, hl, hv⟩ := h
          rcases mem_set_cases _ _ _ _ hl with h | h
          · refine Or.inr ⟨rem.get ⟨s.2.2, hkn⟩, List.get_mem rem s.2.2 hkn, ?_⟩
            rw [hlk]
            simp only [memRs, List.any_cons, Bool.or_eq_true]
            right
            rw [← h]
            exact hv
          · exact Or.inr ⟨l, h, hv⟩
      · rintro ((h | h) | h)
        · exact Or.inl (Or.inl (Or.inl h))
        · exact Or.inl (Or.inl (Or.inr h))
        · obtain ⟨l, hl, hv⟩ := h
          obtain ⟨⟨j, hj⟩, hlj⟩ := List.mem_iff_get.mp hl
          by_cases hjk : j = s.2.2
          · subst hjk
            rw [← hlj, hget_congr s.2.2 s.2.2 hj hkn rfl, hlk] at hv
            simp only [memRs, List.any_cons, Bool.or_eq_true] at hv
            rcases hv with hv | hv
            · exact Or.inl (Or.inr hv)
            · refine Or.inr ⟨tail, ?_, hv⟩
              have hg := List.get_mem (rem.set s.2.2 tail) s.2.2 (by simpa using hkn)
              rw [hgetset_eq] at hg
              exact hg
          · have hgs : (rem.set s.2.2 tail).get ⟨j, by simpa using hj⟩
                = rem.get ⟨j, hj⟩ := by
              simp [List.get_eq_getElem, List.getElem_set_ne (fun h => hjk h.symm)]
            refine Or.inr ⟨l, ?_, hv⟩
            rw [← hlj, ← hgs]
            exact List.get_mem _ j (by simpa using hj)

theorem unite_ranges_master (LAST : Nat) (ranges : List (List RangePair))
    (hcanon : ∀ l ∈ ranges, canonicalFrom 0 l = true)
    (hend : ∀ l ∈ ranges, ∀ r ∈ l, r.2 < LAST) :
    canonicalFrom 0 (unite_ranges LAST ranges) = true
    ∧ (∀ r ∈ unite_ranges LAST ranges, r.2 < LAST)
    ∧ ∀ v, memRs v (unite_ranges LAST ranges)
        = ranges.any (fun l => memRs v l) := by
  rw [unite_ranges]
  by_cases h0 : ranges.isEmpty
  · rw [if_pos h0]
    have h0' : ranges = [] := List.isEmpty_iff.mp h0
    subst h0'
    exact ⟨by trivial, by simp, by intro v; simp [memRs]⟩
  · rw [if_neg h0]
    by_cases h1 : ranges.length = 1
    · rw [if_pos h1]
      obtain ⟨l0, hl0⟩ := List.length_eq_one.mp h1
      subst hl0
      simp only [List.headD_cons]
      refine ⟨hcanon l0 (by simp), fun r hr => hend l0 (by simp) r hr, ?_⟩
      intro v
      simp
    · rw [if_neg h1]
      obtain ⟨i1, i2, i3⟩ := uniteLoopF_spec LAST (sumLens ranges + 1) ranges none []
        (Nat.lt_succ_self _)
        (fun l hl => ascRangesFrom_of_canonicalFrom (hcanon l hl))
        hend (by trivial) (by simp) (fun _ => rfl) (fun p hp => by simp at hp)
      refine ⟨i1, i2, ?_⟩
      intro v
      rw [i3 v]
      simp [memRs, memO]

/-- C2 (counterexample): the inputs `[[(2,255)], [(0,1)]]` with
`LAST = 255` satisfy the claim's preconditions — each input is canonical
and the value `LAST` is not present in any input — yet the union misses
the value `2`, which is present in the first input: when the range
`(2, 255)` becomes the minimum-begin window, its end equals the `LAST`
sentinel and the loop terminates, silently dropping it. -/
theorem unite_ranges_drops_last_counterexample :
    (∀ l ∈ ([[(2, 255)], [(0, 1)]] : List (List RangePair)),
        canonicalFrom 0 l = true)
    ∧ (∀ l ∈ ([[(2, 255)], [(0, 1)]] : List (List RangePair)),
        memRs 255 l = false)
    ∧ ([[(2, 255)], [(0, 1)]] : List (List RangePair)).any
        (fun l => memRs 2 l) = true
    ∧ memRs 2 (unite_ranges 255 [[(2, 255)], [(0, 1)]]) = false := by
  refine ⟨by decide, by decide, by decide, by decide⟩

/-- C2 (amended): for every collection of canonical inputs all of whose
ranges end strictly below the sentinel `LAST`, `unite_ranges` returns an
output containing exactly the values present in at least one input. -/
theorem unite_ranges_amended (LAST : Nat) (ranges : List (List RangePair))
    (hcanon : ∀ l ∈ ranges, canonicalFrom 0 l = true)
    (hend : ∀ l ∈ ranges, ∀ r ∈ l, r.2 < LAST) :
    ∀ v, memRs v (unite_ranges LAST ranges) = true
      ↔ ∃ l ∈ ranges, memRs v l = true := by
  intro v
  rw [(unite_ranges_master LAST ranges hcanon hend).2.2 v]
  simp [List.any_eq_true]

theorem unite_ranges_amended_witness :
    (∀ l ∈ ([[(2, 250)], [(0, 1)]] : List (List RangePair)),
        canonicalFrom 0 l = true)
    ∧ (memRs 2 (unite_ranges 255 [[(2, 250)], [(0, 1)]]) = true
        ↔ ∃ l ∈ ([[(2, 250)], [(0, 1)]] : List (List RangePair)),
            memRs 2 l = true) :=
  ⟨by decide,
   unite_ranges_amended 255 [[(2, 250)], [(0, 1)]] (by decide) (by decide) 2⟩

/-- C7 (counterexample): the two permuted collections
`[[(0,255)], [(0,1)]]` and `[[(0,1)], [(0,255)]]` with `LAST = 255` both
satisfy the claim's preconditions (canonical inputs, value `LAST` absent),
yet `unite_ranges` returns different outputs for them, so the operation is
not commutative over the multiset of inputs as claimed: the range ending
at the sentinel is dropped either before or after the disjoint `(0,1)`
window is emitted, depending on the input order. -/
theorem merger_commutativity_counterexample :
    List.Perm ([[(0, 255)], [(0, 1)]] : List (List RangePair))
      [[(0, 1)], [(0, 255)]]
    ∧ (∀ l ∈ ([[(0, 255)], [(0, 1)]] : List (List RangePair)),
        canonicalFrom 0 l = true)
    ∧ (∀ l ∈ ([[(0, 255)], [(0, 1)]] : List (List RangePair)),
        memRs 255 l = false)
    ∧ unite_ranges 255 [[(0, 255)], [(0, 1)]]
        ≠ unite_ranges 255 [[(0, 1)], [(0, 255)]] := by
  refine ⟨by decide, by decide, by decide, by decide⟩

/-- C7 (amended): over inputs whose ranges end at most at `LAST` for
intersection, respectively strictly below `LAST` for union, both mergers
are commutative (invariant under permutation of the input collection);
intersection is associative for groupings with no empty group, and union
is associative for every grouping. -/
theorem merger_algebra_amended (LAST : Nat) :
    (∀ ranges ranges' : List (List RangePair), ranges.Perm ranges' →
      (∀ l ∈ ranges, canonicalFrom 0 l = true) →
      (∀ l ∈ ranges, ∀ r ∈ l, r.2 ≤ LAST) →
      intersect_ranges LAST ranges = intersect_ranges LAST ranges')
    ∧ (∀ ranges ranges' : List (List RangePair), ranges.Perm ranges' →
      (∀ l ∈ ranges, canonicalFrom 0 l = true) →
      (∀ l ∈ ranges, ∀ r ∈ l, r.2 < LAST) →
      unite_ranges LAST ranges = unite_ranges LAST ranges')
    ∧ (∀ groups : List (List (List RangePair)), groups ≠ [] →
      (∀ g ∈ groups, g ≠ []) →
      (∀ g ∈ groups, ∀ l ∈ g, canonicalFrom 0 l = true) →
      (∀ g ∈ groups, ∀ l ∈ g, ∀ r ∈ l, r.2 ≤ LAST) →
      intersect_ranges LAST (groups.map (intersect_ranges LAST))
        = intersect_ranges LAST groups.flatten)
    ∧ (∀ groups : List (List (List RangePair)),
      (∀ g ∈ groups, ∀ l ∈ g, canonicalFrom 0 l = true) →
      (∀ g ∈ groups, ∀ l ∈ g, ∀ r ∈ l, r.2 < LAST) →
      unite_ranges LAST (groups.map (unite_ranges LAST))
        = unite_ranges LAST groups.flatten) := by
  refine ⟨?_, ?_, ?_, ?_⟩
  · -- intersect is commutative
    intro ranges ranges' hperm hcanon hlast
    by_cases hnil : ranges = []
    · have hnil' : ranges' = [] := by
        have := hperm.length_eq
        rw [hnil] at this
        exact List.length_eq_zero.mp this.symm
      rw [hnil, hnil']
    · have hnil' : ranges' ≠ [] := by
        intro h
        apply hnil
        have := hperm.length_eq
        rw [h] at this
        exact List.length_eq_zero.mp this
      have hcanon' : ∀ l ∈ ranges', canonicalFrom 0 l = true :=
        fun l hl => hcanon l (hperm.mem_iff.mpr hl)
      have hlast' : ∀ l ∈ ranges', ∀ r ∈ l, r.2 ≤ LAST :=
        fun l hl => hlast l (hperm.mem_iff.mpr hl)
      obtain ⟨a1, a2, a3⟩ := intersect_ranges_master LAST ranges hcanon hlast
      obtain ⟨b1, b2, b3⟩ := intersect_ranges_master LAST ranges' hcanon' hlast'
      apply canonicalFrom_unique a1 b1
      intro v
      rw [a3 hnil v, b3 hnil' v]
      apply bool_eq_of_iff
      simp only [decide_eq_true_eq]
      constructor
      · intro h l hl
        exact h l (hperm.mem_iff.mpr hl)
      · intro h l hl
        exact h l (hperm.mem_iff.mp hl)
  · -- unite is commutative
    intro ranges ranges' hperm hcanon hend
    have hcanon' : ∀ l ∈ ranges', canonicalFrom 0 l = true :=
      fun l hl => hcanon l (hperm.mem_iff.mpr hl)
    have hend' : ∀ l ∈ ranges', ∀ r ∈ l, r.2 < LAST :=
      fun l hl => hend l (hperm.mem_iff.mpr hl)
    obtain ⟨a1, a2, a3⟩ := unite_ranges_master LAST ranges hcanon hend
    obtain ⟨b1, b2, b3⟩ := unite_ranges_master LAST ranges' hcanon' hend'
    apply canonicalFrom_unique a1 b1
    intro v
    rw [a3 v, b3 v]
    apply bool_eq_of_iff
    simp only [List.any_eq_true]
    constructor
    · rintro ⟨l, hl, hv⟩
      exact ⟨l, hperm.mem_iff.mp hl, hv⟩
    · rintro ⟨l, hl, hv⟩
      exact ⟨l, hperm.mem_iff.mpr hl, hv⟩
  · -- intersect is associative
    intro groups hg0 hgne hcanon hend
    have hmapc : ∀ res ∈ groups.map (intersect_ranges LAST),
        canonicalFrom 0 res = true := by
      intro res hres
      obtain ⟨g, hg, hres⟩ := List.mem_map.mp hres
      rw [← hres]
      exact (intersect_ranges_master LAST g (hcanon g hg) (hend g hg)).1
    have hmapb : ∀ res ∈ groups.map (intersect_ranges LAST),
        ∀ r ∈ res, r.2 ≤ LAST := by
      intro res hres
      obtain ⟨g, hg, hres⟩ := List.mem_map.mp hres
      rw [← hres]
      exact (intersect_ranges_master LAST g (hcanon g hg) (hend g hg)).2.1
    have hfc : ∀ l ∈ groups.flatten, canonicalFrom 0 l = true := by
      intro l hl
      obtain ⟨g, hg, hl⟩ := List.mem_flatten.mp hl
      exact hcanon g hg l hl
    have hfb : ∀ l ∈ groups.flatten, ∀ r ∈ l, r.2 ≤ LAST := by
      intro l hl
      obtain ⟨g, hg, hl⟩ := List.mem_flatten.mp hl
      exact hend g hg l hl
    have hmne : groups.map (intersect_ranges LAST) ≠ [] := by
      intro h
      exact hg0 (by simpa using h)
    have hfne : groups.flatten ≠ [] := by
      intro h
      rw [List.flatten_eq_nil_iff] at h
      cases groups with
      | nil => exact hg0 rfl
      | cons g gs => exact hgne g (by simp) (h g (by simp))
    obtain ⟨a1, a2, a3⟩ := intersect_ranges_master LAST
      (groups.map (intersect_ranges LAST)) hmapc hmapb
    obtain ⟨b1, b2, b3⟩ := intersect_ranges_master LAST groups.flatten hfc hfb
    apply canonicalFrom_unique a1 b1
    intro v
    rw [a3 hmne v, b3 hfne v]
    apply bool_eq_of_iff
    simp only [decide_eq_true_eq]
    constructor
    · intro h l hl
      obtain ⟨g, hg, hlg⟩ := List.mem_flatten.mp hl
      have hres := h (intersect_ranges LAST g) (List.mem_map.mpr ⟨g, hg, rfl⟩)
      rw [(intersect_ranges_master LAST g (hcanon g hg) (hend g hg)).2.2
        (hgne g hg) v] at hres
      simp only [decide_eq_true_eq] at hres
      exact hres l hlg
    · intro h res hres
      obtain ⟨g, hg, hres⟩ := List.mem_map.mp hres
      rw [← hres,
        (intersect_ranges_master LAST g (hcanon g hg) (hend g hg)).2.2
          (hgne g hg) v]
      simp only [decide_eq_true_eq]
      intro l hl
      exact h l (List.mem_flatten.mpr ⟨g, hg, hl⟩)
  · -- unite is associative
    intro groups hcanon hend
    have hmapc : ∀ res ∈ groups.map (unite_ranges LAST),
        canonicalFrom 0 res = true := by
      intro res hres
      obtain ⟨g, hg, hres⟩ := List.mem_map.mp hres
      rw [← hres]
      exact (unite_ranges_master LAST g (hcanon g hg) (hend g hg)).1
    have hmapb : ∀ res ∈ groups.map (unite_ranges LAST),
        ∀ r ∈ res, r.2 < LAST := by
      intro res hres
      obtain ⟨g, hg, hres⟩ := List.mem_map.mp hres
      rw [← hres]
      exact (unite_ranges_master LAST g (hcanon g hg) (hend g hg)).2.1
    have hfc : ∀ l ∈ groups.flatten, canonicalFrom 0 l = true := by
      intro l hl
      obtain ⟨g, hg, hl⟩ := List.mem_flatten.mp hl
      exact hcanon g hg l hl
    have hfb : ∀ l ∈ groups.flatten, ∀ r ∈ l, r.2 < LAST := by
      intro l hl
      obtain ⟨g, hg, hl⟩ := List.mem_flatten.mp hl
      exact hend g hg l hl
    obtain ⟨a1, a2, a3⟩ := unite_ranges_master LAST
      (groups.map (unite_ranges LAST)) hmapc hmapb
    obtain ⟨b1, b2, b3⟩ := unite_ranges_master LAST groups.flatten hfc hfb
    apply canonicalFrom_unique a1 b1
    intro v
    rw [a3 v, b3 v]
    apply bool_eq_of_iff
    simp only [List.any_eq_true]
    constructor
    · rintro ⟨res, hres, hv⟩
      obtain ⟨g, hg, hres⟩ := List.mem_map.mp hres
      rw [← hres, (unite_ranges_master LAST g (hcanon g hg) (hend g hg)).2.2 v] at hv
      simp only [List.any_eq_true] at hv
      obtain ⟨l, hl, hv⟩ := hv
      exact ⟨l, List.mem_flatten.mpr ⟨g, hg, hl⟩, hv⟩
    · rintro ⟨l, hl, hv⟩
      obtain ⟨g, hg, hlg⟩ := List.mem_flatten.mp hl
      refine ⟨unite_ranges LAST g, List.mem_map.mpr ⟨g, hg, rfl⟩, ?_⟩
      rw [(unite_ranges_master LAST g (hcanon g hg) (hend g hg)).2.2 v]
      simp only [List.any_eq_true]
      exact ⟨l, hlg, hv⟩

theorem merger_algebra_amended_witness :
    intersect_ranges 255 [[(1, 5)], [(3, 12)]]
      = intersect_ranges 255 [[(3, 12)], [(1, 5)]]
    ∧ unite_ranges 255 [[(1, 5)], [(8, 12)]]
      = unite_ranges 255 [[(8, 12)], [(1, 5)]]
    ∧ intersect_ranges 255 ([[[(1, 5)]], [[(3, 12)]]].map (intersect_ranges 255))
      = intersect_ranges 255 ([[[(1, 5)]], [[(3, 12)]]] : List (List (List RangePair))).flatten
    ∧ unite_ranges 255 ([[[(1, 5)]], [[(8, 12)]]].map (unite_ranges 255))
      = unite_ranges 255 ([[[(1, 5)]], [[(8, 12)]]] : List (List (List RangePair))).flatten :=
  ⟨(merger_algebra_amended 255).1 [[(1, 5)], [(3, 12)]] [[(3, 12)], [(1, 5)]]
      (by decide) (by decide) (by decide),
   (merger_algebra_amended 255).2.1 [[(1, 5)], [(8, 12)]] [[(8, 12)], [(1, 5)]]
      (by decide) (by decide) (by decide),
   (merger_algebra_amended 255).2.2.1 [[[(1, 5)]], [[(3, 12)]]]
      (by decide) (by decide) (by decide) (by decide),
   (merger_algebra_amended 255).2.2.2 [[[(1, 5)]], [[(8, 12)]]]
      (by decide) (by decide)⟩

theorem ascValsFrom_mono {lb lb' : Nat} {vs : List Nat}
    (h : ascValsFrom lb' vs = true) (hle : lb ≤ lb') : ascValsFrom lb vs = true := by
  cases vs with
  | nil => rfl
  | cons v rest =>
    simp only [ascValsFrom, Bool.and_eq_true, decide_eq_true_eq] at h ⊢
    exact ⟨by omega, h.2⟩

/-- Membership in the range view of an enumerated input is membership in
the value list (no wrap-around occurs below `mask`). -/
theorem valView_mem (mask : Nat) (vs : List Nat)
    (hvlt : ∀ v ∈ vs, v + 1 < mask) :
    ∀ w, memRs w (valView mask vs) = decide (w ∈ vs) := by
  induction vs with
  | nil =>
    intro w
    simp [valView, memRs]
  | cons v rest ih =>
    intro w
    have hv1 : v + 1 < 2 * mask := by
      have := hvlt v (by simp)
      omega
    simp only [valView, List.map_cons, memRs, List.any_cons, Bool.or_eq_true]
    have hmod : (v + 1) % (2 * mask) = v + 1 := Nat.mod_eq_of_lt hv1
    apply bool_eq_of_iff
    simp only [Bool.or_eq_true, decide_eq_true_eq, List.mem_cons]
    have hrest := ih (fun x hx => hvlt x (List.mem_cons_of_mem _ hx)) w
    simp only [valView, memRs] at hrest
    rw [hrest]
    simp only [memR, hmod, Bool.and_eq_true, decide_eq_true_eq]
    constructor
    · rintro (h | h)
      · exact Or.inl (by omega)
      · exact Or.inr h
    · rintro (h | h)
      · exact Or.inl (by omega)
      · exact Or.inr h

/-- The range view of a strictly ascending value list is weakly
ascending. -/
theorem valView_asc (mask : Nat) :
    ∀ (vs : List Nat) (lb : Nat), ascValsFrom lb vs = true →
      (∀ v ∈ vs, v + 1 < mask) →
      ascRangesFrom lb (valView mask vs) = true := by
  intro vs
  induction vs with
  | nil =>
    intro lb _ _
    rfl
  | cons v rest ih =>
    intro lb h hvlt
    simp only [ascValsFrom, Bool.and_eq_true, decide_eq_true_eq] at h
    have hv1 : v + 1 < 2 * mask := by
      have := hvlt v (by simp)
      omega
    simp only [valView, List.map_cons, ascRangesFrom, Nat.mod_eq_of_lt hv1,
      Bool.and_eq_true, decide_eq_true_eq]
    exact ⟨⟨h.1, by omega⟩,
      ih (v + 1) h.2 (fun x hx => hvlt x (List.mem_cons_of_mem _ hx))⟩

theorem valView_ends (mask : Nat) (vs : List Nat)
    (hvlt : ∀ v ∈ vs, v + 1 < mask) :
    ∀ r ∈ valView mask vs, r.2 < mask := by
  intro r hr
  obtain ⟨v, hv, hr⟩ := List.mem_map.mp hr
  have hv1 : v + 1 < 2 * mask := by
    have := hvlt v hv
    omega
  rw [← hr]
  simp only [Nat.mod_eq_of_lt hv1]
  exact hvlt v hv

theorem ascVals_range_append :
    ∀ (n a lb : Nat) (tail : List Nat), lb ≤ a →
      ascValsFrom (a + n) tail = true →
      ascValsFrom lb (List.range' a n ++ tail) = true := by
  intro n
  induction n with
  | zero =>
    intro a lb tail hla htail
    simpa using ascValsFrom_mono htail (by omega)
  | succ n ih =>
    intro a lb tail hla htail
    rw [List.range'_succ]
    simp only [List.cons_append, ascValsFrom, Bool.and_eq_true, decide_eq_true_eq]
    refine ⟨hla, ih (a + 1) (a + 1) tail (Nat.le_refl _) ?_⟩
    have : a + 1 + n = a + (n + 1) := by omega
    rw [this]
    exact htail

/-- The enumeration of a canonical range list is strictly ascending. -/
theorem flatMap_expandR_asc :
    ∀ (rs : List RangePair) (lb : Nat), canonicalFrom lb rs = true →
      ascValsFrom lb (rs.flatMap expandR) = true := by
  intro rs
  induction rs with
  | nil =>
    intro lb _
    rfl
  | cons r rest ih =>
    intro lb h
    obtain ⟨a, b⟩ := r
    simp only [canonicalFrom, Bool.and_eq_true, decide_eq_true_eq] at h
    rw [List.flatMap_cons]
    apply ascVals_range_append (b - a) a lb _ h.1.1
    have hab : a + (b - a) = b := by omega
    rw [hab]
    exact ascValsFrom_mono (ih (b + 1) h.2) (by omega)

/-- The enumeration of a range list has exactly the denoted values. -/
theorem flatMap_expandR_mem (rs : List RangePair) :
    ∀ v, decide (v ∈ rs.flatMap expandR) = memRs v rs := by
  intro v
  apply bool_eq_of_iff
  simp only [decide_eq_true_eq, List.mem_flatMap, memRs, List.any_eq_true]
  constructor
  · rintro ⟨r, hr, hv⟩
    obtain ⟨a, b⟩ := r
    simp only [expandR, List.mem_range'_1] at hv
    refine ⟨(a, b), hr, ?_⟩
    simp only [memR, Bool.and_eq_true, decide_eq_true_eq]
    omega
  · rintro ⟨r, hr, hv⟩
    obtain ⟨a, b⟩ := r
    simp only [memR, Bool.and_eq_true, decide_eq_true_eq] at hv
    refine ⟨(a, b), hr, ?_⟩
    simp only [expandR, List.mem_range'_1]
    omega

/-- A canonical prefix before any element keeps a gap to it. -/
theorem canonicalFrom_append_gap :
    ∀ (xs : List RangePair) (lb : Nat) (r : RangePair) (ys : List RangePair),
      canonicalFrom lb (xs ++ r :: ys) = true →
      canonicalFrom lb xs = true ∧ (xs = [] ∨ lastLastR xs < r.1) := by
  intro xs
  induction xs with
  | nil =>
    intro lb r ys _
    exact ⟨rfl, Or.inl rfl⟩
  | cons x xt ih =>
    intro lb r ys h
    obtain ⟨a, b⟩ := x
    simp only [List.cons_append, canonicalFrom, Bool.and_eq_true,
      decide_eq_true_eq] at h
    obtain ⟨ih1, ih2⟩ := ih (b + 1) r ys h.2
    refine ⟨?_, ?_⟩
    · simp only [canonicalFrom, Bool.and_eq_true, decide_eq_true_eq]
      exact ⟨h.1, ih1⟩
    · right
      cases xt with
      | nil =>
        have hry : canonicalFrom (b + 1) (r :: ys) = true := h.2
        obtain ⟨c, d⟩ := r
        simp only [canonicalFrom, Bool.and_eq_true, decide_eq_true_eq] at hry
        rw [show lastLastR [(a, b)] = b from rfl]
        omega
      | cons y yt =>
        rw [lastLastR_cons (by simp)]
        rcases ih2 with hxt | hxt
        · simp at hxt
        · exact hxt

theorem appendR_eq_append {rs : List RangePair} {f l : Nat} (hfl : f < l)
    (h : rs = [] ∨ lastLastR rs < f) : appendR rs f l = rs ++ [(f, l)] := by
  unfold appendR
  rw [if_neg (by omega)]
  rcases h with h | h
  · subst h
    simp
  · cases hg : rs.getLast? with
    | none =>
      rw [List.getLast?_eq_none_iff.mp hg]
      simp
    | some p =>
      obtain ⟨a, b⟩ := p
      have hb : lastLastR rs = b := by
        unfold lastLastR
        rw [List.getLastD_eq_getLast?, hg]
        rfl
      show (if b = f then rs.dropLast ++ [(a, l)] else rs ++ [(f, l)]) = rs ++ [(f, l)]
      rw [if_neg (by omega)]

/-- Folding the output ranges of a merger run into a fresh container with
`push_back` rebuilds exactly those decoded ranges: each push appends a
range that keeps a gap to the stored tail, so no coalescing occurs and
well-formedness is preserved throughout. -/
theorem foldl_pushRange_decode (mask : Nat) :
    ∀ (rs : List RangePair) (c : IRV),
      0 < mask →
      wfFrom mask 0 c.rangeVect = true →
      (∀ r ∈ rs, r.2 < mask) →
      canonicalFrom 0 (decodeWords mask c.rangeVect ++ rs) = true →
      wfFrom mask 0 (rs.foldl (fun c r => pushRange mask c r.1 r.2) c).rangeVect = true
      ∧ decodeWords mask (rs.foldl (fun c r => pushRange mask c r.1 r.2) c).rangeVect
          = decodeWords mask c.rangeVect ++ rs := by
  intro rs
  induction rs with
  | nil =>
    intro c hm hwf _ _
    exact ⟨hwf, by simp⟩
  | cons r rest ih =>
    intro c hm hwf hb hcanon
    obtain ⟨f, l⟩ := r
    simp only [List.foldl_cons]
    have hgap := canonicalFrom_append_gap (decodeWords mask c.rangeVect) 0 (f, l)
      rest hcanon
    have hfl : f < l := by
      have := canonicalFrom_mem_lt hcanon (f, l) (List.mem_append.mpr (Or.inr (by simp)))
      simpa using this
    have hlast : lastLastR (decodeWords mask c.rangeVect) ≤ f := by
      rcases hgap.2 with h | h
      · rw [h]
        exact Nat.zero_le f
      · omega
    obtain ⟨hwf', hdec', _⟩ := pushRangeWords_master 0 c.rangeVect hwf f l
      (Nat.le_of_lt hfl) (by simpa using hb (f, l) (by simp)) (Nat.zero_le f) hlast
    have hdec2 : decodeWords mask (pushRange mask c f l).rangeVect
        = decodeWords mask c.rangeVect ++ [(f, l)] := by
      show decodeWords mask (pushRangeWords mask c.rangeVect f l)
        = decodeWords mask c.rangeVect ++ [(f, l)]
      rw [hdec', appendR_eq_append hfl hgap.2]
    have hwf2 : wfFrom mask 0 (pushRange mask c f l).rangeVect = true := hwf'
    obtain ⟨j1, j2⟩ := ih (pushRange mask c f l) hm hwf2
      (fun r hr => hb r (List.mem_cons_of_mem _ hr))
      (by rw [hdec2, List.append_assoc]; simpa using hcanon)
    refine ⟨j1, ?_⟩
    rw [j2, hdec2, List.append_assoc]
    simp

theorem ball_iff_pointwise {α β : Type} (p : α → Bool) (q : β → Bool) :
    ∀ (xs : List α) (ys : List β), xs.length = ys.length →
      (∀ (i : Nat) (hi : i < xs.length) (hi' : i < ys.length),
        p (xs.get ⟨i, hi⟩) = q (ys.get ⟨i, hi'⟩)) →
      ((∀ l ∈ xs, p l = true) ↔ (∀ l ∈ ys, q l = true)) := by
  intro xs ys hlen hpt
  constructor
  · intro h l hl
    obtain ⟨⟨i, hi⟩, hli⟩ := List.mem_iff_get.mp hl
    have hi' : i < xs.length := by omega
    rw [← hli, ← hpt i hi' hi]
    exact h _ (List.get_mem xs i hi')
  · intro h l hl
    obtain ⟨⟨i, hi⟩, hli⟩ := List.mem_iff_get.mp hl
    have hi' : i < ys.length := by omega
    rw [← hli, hpt i hi hi']
    exact h _ (List.get_mem ys i hi')

theorem any_eq_pointwise {α β : Type} (p : α → Bool) (q : β → Bool) :
    ∀ (xs : List α) (ys : List β), xs.length = ys.length →
      (∀ (i : Nat) (hi : i < xs.length) (hi' : i < ys.length),
        p (xs.get ⟨i, hi⟩) = q (ys.get ⟨i, hi'⟩)) →
      xs.any p = ys.any q := by
  intro xs ys hlen hpt
  apply bool_eq_of_iff
  simp only [List.any_eq_true]
  constructor
  · rintro ⟨l, hl, hv⟩
    obtain ⟨⟨i, hi⟩, hli⟩ := List.mem_iff_get.mp hl
    have hi' : i < ys.length := by omega
    refine ⟨ys.get ⟨i, hi'⟩, List.get_mem ys i hi', ?_⟩
    rw [← hpt i hi hi', hli]
    exact hv
  · rintro ⟨l, hl, hv⟩
    obtain ⟨⟨i, hi⟩, hli⟩ := List.mem_iff_get.mp hl
    have hi' : i < xs.length := by omega
    refine ⟨xs.get ⟨i, hi'⟩, List.get_mem xs i hi', ?_⟩
    rw [hpt i hi' hi, hli]
    exact hv

theorem memRs_false_of_ends_le {v : Nat} {rs : List RangePair}
    (h : ∀ r ∈ rs, r.2 ≤ v) : memRs v rs = false := by
  rw [memRs, List.any_eq_false]
  intro r hr
  have := h r hr
  simp only [memR, Bool.and_eq_true, decide_eq_true_eq]
  omega

/-- A container input and an enumerated input denoting the same set are
empty together. -/
theorem viewEmpty_eq (mask : Nat) (c : IRV) (vs : List Nat)
    (hwf : wfFrom mask 0 c.rangeVect = true)
    (hvlt : ∀ v ∈ vs, v + 1 < mask)
    (hsame : ∀ v, memRs v (decView mask c) = memRs v (valView mask vs)) :
    c.rangeVect.isEmpty = vs.isEmpty := by
  cases hc : c.rangeVect with
  | nil =>
    cases hv : vs with
    | nil => rfl
    | cons v rest =>
      exfalso
      have h1 := hsame v
      rw [show decView mask c = [] from by rw [decView, hc, decodeWords_nil]] at h1
      rw [valView_mem mask vs hvlt v, hv] at h1
      simp [memRs] at h1
  | cons w ws =>
    have hdne : decodeWords mask c.rangeVect ≠ [] :=
      wf_decode_ne_nil hwf (by rw [hc]; simp)
    have hcanon := wf_decode_canonical 0 c.rangeVect hwf
    obtain ⟨r, rest', hdr⟩ := List.exists_cons_of_ne_nil hdne
    obtain ⟨a, b⟩ := r
    have hab : a < b := by
      rw [hdr] at hcanon
      simp only [canonicalFrom, Bool.and_eq_true, decide_eq_true_eq] at hcanon
      exact hcanon.1.2
    have h1 := hsame a
    rw [show decView mask c = (a, b) :: rest' from by rw [decView]; exact hdr] at h1
    have h2 : memRs a ((a, b) :: rest') = true := by
      simp only [memRs, List.any_cons, Bool.or_eq_true]
      left
      simp only [memR, Bool.and_eq_true, decide_eq_true_eq]
      omega
    rw [h2, valView_mem mask vs hvlt a] at h1
    cases hv : vs with
    | nil =>
      rw [hv] at h1
      simp at h1
    | cons x rest => rfl

/-- A container and a strictly ascending value list denoting the same set
enumerate to the same vector. -/
theorem toVector_eq_of_same (mask : Nat) (c : IRV) (vs : List Nat)
    (hwf : wfFrom mask 0 c.rangeVect = true)
    (hasc : ascValsFrom 0 vs = true)
    (hvlt : ∀ v ∈ vs, v + 1 < mask)
    (hsame : ∀ v, memRs v (decView mask c) = memRs v (valView mask vs)) :
    toVector mask c = vs := by
  apply ascValsFrom_unique
    (flatMap_expandR_asc (decodeWords mask c.rangeVect) 0
      (wf_decode_canonical 0 _ hwf)) hasc
  intro v
  have h1 := flatMap_expandR_mem (decodeWords mask c.rangeVect) v
  have h2 := hsame v
  rw [valView_mem mask vs hvlt v] at h2
  apply decide_eq_decide.mp
  rw [h1]
  exact h2

/-- C6 (counterexample): the refinement fails for canonical inputs that
contain the value `MASK - 1`.  With `mask = 8`, the container inputs
`[10, 15]` and `[7]` decode to the canonical ranges `(2,7)` and `(7,8)` —
the sets `{2..6}` and `{7}` — which match the ascending vector inputs
`[2,3,4,5,6]` and `[7]` value for value over the whole value domain of
`T` (`v < 16`).  Their union makes the merger emit the range `(2, 8)`
whose exclusive end equals `MASK`; the range-container variant forwards
it to `push_back`, which stores the word `8 | MASK = MASK`, so the output
container is no longer well-formed, decodes to the empty range `(2, 0)`
and `toVector` returns `[]` — while the enumerated variant returns
`[2,3,4,5,6,7]`. -/
theorem merger_refinement_counterexample :
    (∀ c ∈ [IRVfromWords [10, 15], IRVfromWords [7]],
        wfFrom 8 0 c.rangeVect = true)
    ∧ (∀ vs ∈ ([[2, 3, 4, 5, 6], [7]] : List (List Nat)),
        ascValsFrom 0 vs = true)
    ∧ (∀ vs ∈ ([[2, 3, 4, 5, 6], [7]] : List (List Nat)), ∀ v ∈ vs, v < 8)
    ∧ (∀ v, v < 16 →
        memRs v (decView 8 (IRVfromWords [10, 15]))
          = memRs v (valView 8 [2, 3, 4, 5, 6]))
    ∧ (∀ v, v < 16 →
        memRs v (decView 8 (IRVfromWords [7])) = memRs v (valView 8 [7]))
    ∧ wfFrom 8 0 (uniteIRVC 8 [IRVfromWords [10, 15], IRVfromWords [7]]).rangeVect
        = false
    ∧ toVector 8 (uniteIRVC 8 [IRVfromWords [10, 15], IRVfromWords [7]])
        ≠ uniteVecC 8 [[2, 3, 4, 5, 6], [7]] := by
  refine ⟨by decide, by decide, by decide, by decide, by decide, by decide,
    by decide⟩

/-- C6 (amended): running the merger on enumerated-value containers and on
range containers over inputs denoting the same sets produces outputs
denoting the same set — `toVector` of the range-container output equals
the enumerated output, for both `intersect_ranges` and `unite_ranges` —
provided every input value is below `MASK - 1` (decoded range ends below
`MASK`), so that every range the merger emits honours the `push_back`
precondition of the output container.  Without that bound the refinement
fails: a merged range ending at `MASK` corrupts the range-container
output (see the counterexample). -/
theorem merger_refinement (mask : Nat) (irvs : List IRV) (vss : List (List Nat))
    (hm : 0 < mask)
    (hlen : irvs.length = vss.length)
    (hwf : ∀ c ∈ irvs, wfFrom mask 0 c.rangeVect = true)
    (hends : ∀ c ∈ irvs, ∀ r ∈ decodeWords mask c.rangeVect, r.2 < mask)
    (hasc : ∀ vs ∈ vss, ascValsFrom 0 vs = true)
    (hvlt : ∀ vs ∈ vss, ∀ v ∈ vs, v + 1 < mask)
    (hsame : ∀ (i : Nat) (hi : i < irvs.length) (hi' : i < vss.length) (v : Nat),
      v < mask →
      memRs v (decView mask (irvs.get ⟨i, hi⟩))
        = memRs v (valView mask (vss.get ⟨i, hi'⟩))) :
    toVector mask (intersectIRVC mask irvs) = intersectVecC mask vss
    ∧ toVector mask (uniteIRVC mask irvs) = uniteVecC mask vss := by
  have hsame' : ∀ (i : Nat) (hi : i < irvs.length) (hi' : i < vss.length) (v : Nat),
      memRs v (decView mask (irvs.get ⟨i, hi⟩))
        = memRs v (valView mask (vss.get ⟨i, hi'⟩)) := by
    intro i hi hi' v
    by_cases hv : v < mask
    · exact hsame i hi hi' v hv
    · have hL : memRs v (decView mask (irvs.get ⟨i, hi⟩)) = false := by
        apply memRs_false_of_ends_le
        intro r hr
        have := hends _ (List.get_mem irvs i hi) r hr
        omega
      have hR : memRs v (valView mask (vss.get ⟨i, hi'⟩)) = false := by
        apply memRs_false_of_ends_le
        intro r hr
        have := valView_ends mask _ (hvlt _ (List.get_mem vss i hi')) r hr
        omega
      rw [hL, hR]
  have hempty : ∀ (i : Nat) (hi : i < irvs.length) (hi' : i < vss.length),
      (irvs.get ⟨i, hi⟩).rangeVect.isEmpty = (vss.get ⟨i, hi'⟩).isEmpty :=
    fun i hi hi' => viewEmpty_eq mask _ _ (hwf _ (List.get_mem irvs i hi))
      (hvlt _ (List.get_mem vss i hi')) (hsame' i hi hi')
  have hE0 : vss.isEmpty = irvs.isEmpty := by
    cases irvs with
    | nil =>
      cases vss with
      | nil => rfl
      | cons b u => simp at hlen
    | cons a t =>
      cases vss with
      | nil => simp at hlen
      | cons b u => rfl
  have hE2 : vss.any List.isEmpty = irvs.any (fun c => c.rangeVect.isEmpty) :=
    (any_eq_pointwise (fun c => c.rangeVect.isEmpty) List.isEmpty irvs vss
      hlen hempty).symm
  have hview_pt : ∀ (v : Nat) (i : Nat)
      (hi : i < (irvs.map (decView mask)).length)
      (hi' : i < (vss.map (valView mask)).length),
      memRs v ((irvs.map (decView mask)).get ⟨i, hi⟩)
        = memRs v ((vss.map (valView mask)).get ⟨i, hi'⟩) := by
    intro v i hi hi'
    have hii : i < irvs.length := by simpa using hi
    have hii' : i < vss.length := by simpa using hi'
    have hgi : (irvs.map (decView mask)).get ⟨i, hi⟩
        = decView mask (irvs.get ⟨i, hii⟩) := by
      simp [List.get_eq_getElem]
    have hgv : (vss.map (valView mask)).get ⟨i, hi'⟩
        = valView mask (vss.get ⟨i, hii'⟩) := by
      simp [List.get_eq_getElem]
    rw [hgi, hgv]
    exact hsame' i hii hii' v
  have hball : ∀ v, (∀ l ∈ irvs.map (decView mask), memRs v l = true)
      ↔ (∀ l ∈ vss.map (valView mask), memRs v l = true) :=
    fun v => ball_iff_pointwise (memRs v) (memRs v) _ _ (by simp [hlen]) (hview_pt v)
  have hany : ∀ v, (irvs.map (decView mask)).any (fun l => memRs v l)
      = (vss.map (valView mask)).any (fun l => memRs v l) :=
    fun v => any_eq_pointwise _ _ _ _ (by simp [hlen]) (hview_pt v)
  have hIasc : ∀ l ∈ irvs.map (decView mask), ascRangesFrom 0 l = true := by
    intro l hl
    obtain ⟨c, hc, hl⟩ := List.mem_map.mp hl
    rw [← hl]
    exact ascRangesFrom_of_canonicalFrom (wf_decode_canonical 0 _ (hwf c hc))
  have hIends : ∀ l ∈ irvs.map (decView mask), ∀ r ∈ l, r.2 < mask := by
    intro l hl
    obtain ⟨c, hc, hl⟩ := List.mem_map.mp hl
    rw [← hl]
    exact hends c hc
  have hVasc : ∀ l ∈ vss.map (valView mask), ascRangesFrom 0 l = true := by
    intro l hl
    obtain ⟨vs, hv, hl⟩ := List.mem_map.mp hl
    rw [← hl]
    exact valView_asc mask vs 0 (hasc vs hv) (hvlt vs hv)
  have hVends : ∀ l ∈ vss.map (valView mask), ∀ r ∈ l, r.2 < mask := by
    intro l hl
    obtain ⟨vs, hv, hl⟩ := List.mem_map.mp hl
    rw [← hl]
    exact valView_ends mask vs (hvlt vs hv)
  have hmle : mask ≤ 2 * mask - 1 := by omega
  constructor
  · -- intersection
    simp only [intersectIRVC, intersectVecC]
    by_cases h0 : irvs.isEmpty
    · have h0v : vss.isEmpty = true := by rw [hE0]; exact h0
      rw [if_pos h0, if_pos h0v]
      rfl
    · have h0v : ¬vss.isEmpty = true := by rw [hE0]; exact h0
      rw [if_neg h0, if_neg h0v]
      by_cases h1 : irvs.length = 1
      · have h1v : vss.length = 1 := by rw [← hlen]; exact h1
        rw [if_pos h1, if_pos h1v]
        cases irvs with
        | nil => simp at h1
        | cons c0 ct =>
          cases vss with
          | nil => simp at hlen
          | cons vs0 vt =>
            simp only [List.headD_cons]
            exact toVector_eq_of_same mask c0 vs0 (hwf c0 (by simp))
              (hasc vs0 (by simp)) (hvlt vs0 (by simp))
              (hsame' 0 (by simp) (by simp))
      · have h1v : ¬vss.length = 1 := by rw [← hlen]; exact h1
        rw [if_neg h1, if_neg h1v]
        by_cases h2 : irvs.any (fun c => c.rangeVect.isEmpty)
        · have h2v : vss.any List.isEmpty = true := by rw [hE2]; exact h2
          rw [if_pos h2, if_pos h2v]
          rfl
        · have h2v : ¬vss.any List.isEmpty = true := by rw [hE2]; exact h2
          rw [if_neg h2, if_neg h2v]
          have hirvs_ne : irvs ≠ [] := by
            intro h
            rw [h] at h0
            exact h0 rfl
          have h2f : irvs.all (fun c => ¬c.rangeVect.isEmpty = true) := by
            rw [List.all_eq_true]
            intro c hc
            simp only [decide_eq_true_eq]
            intro hce
            exact h2 (List.any_eq_true.mpr ⟨c, hc, hce⟩)
          have hIne : ∀ l ∈ irvs.map (decView mask), l ≠ [] := by
            intro l hl
            obtain ⟨c, hc, hl⟩ := List.mem_map.mp hl
            rw [← hl]
            apply wf_decode_ne_nil (hwf c hc)
            intro hnil
            have hcc := List.all_eq_true.mp h2f c hc
            simp only [decide_eq_true_eq] at hcc
            rw [hnil] at hcc
            simp at hcc
          have hVne : ∀ l ∈ vss.map (valView mask), l ≠ [] := by
            intro l hl
            obtain ⟨vs, hv, hl⟩ := List.mem_map.mp hl
            obtain ⟨⟨i, hi⟩, hgi⟩ := List.mem_iff_get.mp hv
            have hii : i < irvs.length := by omega
            have hemp := hempty i hii hi
            rw [hgi] at hemp
            have hc2 := List.all_eq_true.mp h2f _ (List.get_mem irvs i hii)
            simp only [decide_eq_true_eq] at hc2
            rw [← hl]
            intro hnil
            have hvnil : vs = [] := by
              cases vs with
              | nil => rfl
              | cons x xs => simp [valView] at hnil
            rw [hvnil] at hemp
            simp only [List.isEmpty_nil] at hemp
            exact hc2 hemp
          have hIlen : 0 < (irvs.map (decView mask)).length := by
            simp only [List.length_map]
            cases irvs with
            | nil => exact absurd rfl hirvs_ne
            | cons a t => simp
          have hVlen : 0 < (vss.map (valView mask)).length := by
            simp only [List.length_map, ← hlen]
            simpa using hIlen
          obtain ⟨a1, a2, a3⟩ := intersectLoopF_spec (2 * mask - 1)
            (sumLens (irvs.map (decView mask)) + 1) (irvs.map (decView mask))
            0 0 none []
            (Nat.lt_succ_self _) hIne hIasc
            (fun l hl r hr => by have := hIends l hl r hr; omega)
            hIlen ⟨0, hIlen, Nat.zero_le _⟩
            (by trivial) (by simp) (fun _ => rfl) (fun p hp => by simp at hp)
          obtain ⟨b1, b2, b3⟩ := intersectLoopF_spec (2 * mask - 1)
            (sumLens (vss.map (valView mask)) + 1) (vss.map (valView mask))
            0 0 none []
            (Nat.lt_succ_self _) hVne hVasc
            (fun l hl r hr => by have := hVends l hl r hr; omega)
            hVlen ⟨0, hVlen, Nat.zero_le _⟩
            (by trivial) (by simp) (fun _ => rfl) (fun p hp => by simp at hp)
          have heq : intersectLoopF (2 * mask - 1)
              (sumLens (irvs.map (decView mask)) + 1) (irvs.map (decView mask))
              0 0 none []
              = intersectLoopF (2 * mask - 1)
                (sumLens (vss.map (valView mask)) + 1) (vss.map (valView mask))
                0 0 none [] := by
            apply canonicalFrom_unique a1 b1
            intro v
            rw [a3 v, b3 v]
            simp only [memRs, List.any_nil, memO, Bool.or_self, Bool.false_or]
            exact decide_eq_decide.mpr (hball v)
          have hbnd : ∀ r ∈ intersectLoopF (2 * mask - 1)
              (sumLens (irvs.map (decView mask)) + 1) (irvs.map (decView mask))
              0 0 none [], r.2 < mask := by
            intro r hr
            obtain ⟨a, b⟩ := r
            have hab : a < b := canonicalFrom_mem_lt a1 (a, b) hr
            have hmem : memRs (b - 1) (intersectLoopF (2 * mask - 1)
                (sumLens (irvs.map (decView mask)) + 1) (irvs.map (decView mask))
                0 0 none []) = true := by
              simp only [memRs, List.any_eq_true]
              refine ⟨(a, b), hr, ?_⟩
              simp only [memR, Bool.and_eq_true, decide_eq_true_eq]
              omega
            rw [a3 (b - 1)] at hmem
            simp only [memRs, List.any_nil, memO, Bool.or_self, Bool.false_or,
              decide_eq_true_eq] at hmem
            obtain ⟨c0, hc0⟩ := List.exists_mem_of_ne_nil irvs hirvs_ne
            have hv0 := hmem (decView mask c0) (List.mem_map.mpr ⟨c0, hc0, rfl⟩)
            simp only [memRs, List.any_eq_true] at hv0
            obtain ⟨r', hr', hv'⟩ := hv0
            have hre := hends c0 hc0 r' hr'
            simp only [memR, Bool.and_eq_true, decide_eq_true_eq] at hv'
            omega
          obtain ⟨w1, w2⟩ := foldl_pushRange_decode mask _ IRVdefault hm rfl hbnd
            (by
              rw [show decodeWords mask IRVdefault.rangeVect = [] from rfl,
                List.nil_append]
              exact a1)
          show toVector mask _ = _
          rw [toVector, w2,
            show decodeWords mask IRVdefault.rangeVect = [] from rfl,
            List.nil_append, heq]
  · -- union
    simp only [uniteIRVC, uniteVecC]
    by_cases h0 : irvs.isEmpty
    · have h0v : vss.isEmpty = true := by rw [hE0]; exact h0
      rw [if_pos h0, if_pos h0v]
      rfl
    · have h0v : ¬vss.isEmpty = true := by rw [hE0]; exact h0
      rw [if_neg h0, if_neg h0v]
      by_cases h1 : irvs.length = 1
      · have h1v : vss.length = 1 := by rw [← hlen]; exact h1
        rw [if_pos h1, if_pos h1v]
        cases irvs with
        | nil => simp at h1
        | cons c0 ct =>
          cases vss with
          | nil => simp at hlen
          | cons vs0 vt =>
            simp only [List.headD_cons]
            exact toVector_eq_of_same mask c0 vs0 (hwf c0 (by simp))
              (hasc vs0 (by simp)) (hvlt vs0 (by simp))
              (hsame' 0 (by simp) (by simp))
      · have h1v : ¬vss.length = 1 := by rw [← hlen]; exact h1
        rw [if_neg h1, if_neg h1v]
        have hirvs_ne : irvs ≠ [] := by
          intro h
          rw [h] at h0
          exact h0 rfl
        obtain ⟨a1, a2, a3⟩ := uniteLoopF_spec (2 * mask - 1)
          (sumLens (irvs.map (decView mask)) + 1) (irvs.map (decView mask)) none []
          (Nat.lt_succ_self _) hIasc
          (fun l hl r hr => by have := hIends l hl r hr; omega)
          (by trivial) (by simp) (fun _ => rfl) (fun p hp => by simp at hp)
        obtain ⟨b1, b2, b3⟩ := uniteLoopF_spec (2 * mask - 1)
          (sumLens (vss.map (valView mask)) + 1) (vss.map (valView mask)) none []
          (Nat.lt_succ_self _) hVasc
          (fun l hl r hr => by have := hVends l hl r hr; omega)
          (by trivial) (by simp) (fun _ => rfl) (fun p hp => by simp at hp)
        have heq : uniteLoopF (2 * mask - 1)
            (sumLens (irvs.map (decView mask)) + 1) (irvs.map (decView mask))
            none []
            = uniteLoopF (2 * mask - 1)
              (sumLens (vss.map (valView mask)) + 1) (vss.map (valView mask))
              none [] := by
          apply canonicalFrom_unique a1 b1
          intro v
          rw [a3 v, b3 v]
          simp only [memRs, List.any_nil, memO, Bool.or_self, Bool.false_or]
          exact hany v
        have hbnd : ∀ r ∈ uniteLoopF (2 * mask - 1)
            (sumLens (irvs.map (decView mask)) + 1) (irvs.map (decView mask))
            none [], r.2 < mask := by
          intro r hr
          obtain ⟨a, b⟩ := r
          have hab : a < b := canonicalFrom_mem_lt a1 (a, b) hr
          have hmem : memRs (b - 1) (uniteLoopF (2 * mask - 1)
              (sumLens (irvs.map (decView mask)) + 1) (irvs.map (decView mask))
              none []) = true := by
            simp only [memRs, List.any_eq_true]
            refine ⟨(a, b), hr, ?_⟩
            simp only [memR, Bool.and_eq_true, decide_eq_true_eq]
            omega
          rw [a3 (b - 1)] at hmem
          simp only [memRs, List.any_nil, memO, Bool.or_self, Bool.false_or,
            List.any_eq_true] at hmem
          obtain ⟨l, hl, r', hr', hv'⟩ := hmem
          have hre := hIends l hl r' hr'
          simp only [memR, Bool.and_eq_true, decide_eq_true_eq] at hv'
          omega
        obtain ⟨w1, w2⟩ := foldl_pushRange_decode mask _ IRVdefault hm rfl hbnd
          (by
            rw [show decodeWords mask IRVdefault.rangeVect = [] from rfl,
              List.nil_append]
            exact a1)
        show toVector mask _ = _
        rw [toVector, w2,
          show decodeWords mask IRVdefault.rangeVect = [] from rfl,
          List.nil_append, heq]

theorem merger_refinement_witness :
    toVector 8 (intersectIRVC 8 [⟨[9, 11], none⟩, ⟨[10, 13], none⟩])
      = intersectVecC 8 [[1, 2], [2, 3, 4]]
    ∧ toVector 8 (uniteIRVC 8 [⟨[9, 11], none⟩, ⟨[10, 13], none⟩])
      = uniteVecC 8 [[1, 2], [2, 3, 4]] :=
  merger_refinement 8 [⟨[9, 11], none⟩, ⟨[10, 13], none⟩] [[1, 2], [2, 3, 4]]
    (by decide) (by decide) (by decide) (by decide) (by decide) (by decide)
    (by decide)
